import Mathlib

/-!
Verification of the hierarchical-clustering core of the Higra library
(`hierarchy_core.hpp` and the binary-partition-tree source file):
`bpt_canonical` (Kruskal-style canonical binary partition tree with its
minimum spanning tree), `simplify_tree`, `quasi_flat_zones_hierarchy`,
`saliency_map`, and the linkage rules of `binary_partition_tree`.

The C++ code is embedded shallowly: graphs are an edge-count `m`, an
endpoint map `ep : Nat → Nat × Nat` and a weight map `w : Nat → Int`
(the C++ code is generic over a totally ordered weight type; the
rational-valued average-linkage rule uses `ℚ`).  Trees are a node count
plus a parent map.  Auxiliary structures whose implementation files are
not part of the analysed sources (union-find, the LCA preprocessing,
the mergeable heap, `propagate_parallel`) are modelled from the
specification, as noted in their doc comments.
-/

namespace Higra

/-! ## Union-find

Modelled from the spec: `union_find` (spec §4.2) maintains a partition of
`{0..n}`; `find(x)` returns the canonical representative and `link(a, b)`
unions the classes of two representatives and returns the new
representative.  Path compression and linking by rank only affect the
cost, not the partition semantics nor any output of the algorithms
below, so the model keeps the representative map flat: `r x` is the
canonical representative of `x`, kept idempotent by construction. -/
structure UF where
  r : Nat → Nat
  idem : ∀ x, r (r x) = r x

/-- The initial union-find: every element is its own class. -/
def ufInit : UF := ⟨fun x => x, fun _ => rfl⟩

/-- Union of the classes of `a` and `b`; the representative of the merged
class is the representative of `a` (which representative wins is not
observable through any algorithm modelled here). -/
def ufUnion (s : UF) (a b : Nat) : UF where
  r := fun x => if s.r x = s.r b then s.r a else s.r x
  idem := by
    intro x
    dsimp only
    by_cases h : s.r x = s.r b
    · rw [if_pos h, s.idem]
      by_cases h2 : s.r a = s.r b
      · rw [if_pos h2]
      · rw [if_neg h2]
    · rw [if_neg h, s.idem, if_neg h]

/-- Two elements are in the same class. -/
def ufSame (s : UF) (x y : Nat) : Prop := s.r x = s.r y

/-- Process one edge through the union-find: a no-op if the endpoints are
already in the same class, otherwise a union.  This is exactly the
`find`/`find`/`link` pattern of the Kruskal loop of `bpt_canonical`. -/
def ufAdd (s : UF) (e : Nat × Nat) : UF :=
  if s.r e.1 = s.r e.2 then s else ufUnion s e.1 e.2

/-- The union-find obtained by processing a list of edges in order. -/
def ufBuild (es : List (Nat × Nat)) : UF := es.foldl ufAdd ufInit

theorem ufSame_refl (s : UF) (x : Nat) : ufSame s x x := rfl

theorem ufSame_symm {s : UF} {x y : Nat} (h : ufSame s x y) : ufSame s y x := h.symm

theorem ufSame_trans {s : UF} {x y z : Nat} (h : ufSame s x y) (h' : ufSame s y z) :
    ufSame s x z := h.trans h'

/-- Characterisation of the classes after one `ufAdd`: two elements are
merged exactly when they were already merged or they straddle the two
classes of the processed edge. -/
theorem ufSame_ufAdd_iff (s : UF) (u v x y : Nat) :
    ufSame (ufAdd s (u, v)) x y ↔
      ufSame s x y ∨ (ufSame s x u ∧ ufSame s y v) ∨ (ufSame s x v ∧ ufSame s y u) := by
  unfold ufAdd ufSame ufUnion
  dsimp only
  by_cases huv : s.r u = s.r v
  · rw [if_pos huv]
    constructor
    · intro h; exact Or.inl h
    · rintro (h | ⟨h1, h2⟩ | ⟨h1, h2⟩)
      · exact h
      · exact h1.trans (huv.trans h2.symm)
      · exact h1.trans (huv.symm.trans h2.symm)
  · rw [if_neg huv]
    dsimp only
    by_cases hx : s.r x = s.r v <;> by_cases hy : s.r y = s.r v
    · rw [if_pos hx, if_pos hy]
      constructor
      · intro _; exact Or.inl (hx.trans hy.symm)
      · intro _; rfl
    · rw [if_pos hx, if_neg hy]
      constructor
      · intro h; exact Or.inr (Or.inr ⟨hx, h.symm⟩)
      · rintro (h | ⟨h1, h2⟩ | ⟨h1, h2⟩)
        · exact absurd (h.symm.trans hx) hy
        · exact absurd h2 hy
        · exact h2.symm
    · rw [if_neg hx, if_pos hy]
      constructor
      · intro h; exact Or.inr (Or.inl ⟨h, hy⟩)
      · rintro (h | ⟨h1, h2⟩ | ⟨h1, h2⟩)
        · exact absurd (h.trans hy) hx
        · exact h1
        · exact absurd h1 hx
    · rw [if_neg hx, if_neg hy]
      constructor
      · intro h; exact Or.inl h
      · rintro (h | ⟨h1, h2⟩ | ⟨h1, h2⟩)
        · exact h
        · exact absurd h2 hy
        · exact absurd h1 hx

theorem ufSame_ufAdd_of {s : UF} {x y : Nat} (e : Nat × Nat) (h : ufSame s x y) :
    ufSame (ufAdd s e) x y := by
  rcases e with ⟨u, v⟩
  exact (ufSame_ufAdd_iff s u v x y).mpr (Or.inl h)

theorem ufAdd_joins (s : UF) (u v : Nat) : ufSame (ufAdd s (u, v)) u v := by
  exact (ufSame_ufAdd_iff s u v u v).mpr (Or.inr (Or.inl ⟨rfl, rfl⟩))

/-- Symmetric, reflexive, transitive closure of a relation; used to
characterise which elements a sequence of `ufAdd`s merges. -/
inductive Reach (R : Nat → Nat → Prop) : Nat → Nat → Prop
  | base {a b : Nat} : R a b → Reach R a b
  | refl (a : Nat) : Reach R a a
  | symm {a b : Nat} : Reach R a b → Reach R b a
  | trans {a b c : Nat} : Reach R a b → Reach R b c → Reach R a c

theorem Reach.mono {R R' : Nat → Nat → Prop} (h : ∀ a b, R a b → R' a b) :
    ∀ {x y : Nat}, Reach R x y → Reach R' x y := by
  intro x y hr
  induction hr with
  | base hab => exact Reach.base (h _ _ hab)
  | refl a => exact Reach.refl a
  | symm _ ih => exact Reach.symm ih
  | trans _ _ ih1 ih2 => exact Reach.trans ih1 ih2

/-- A pair `(a, b)` or `(b, a)` occurs in the edge list. -/
def edgeOr (es : List (Nat × Nat)) (a b : Nat) : Prop := (a, b) ∈ es ∨ (b, a) ∈ es

/-- Base relation for the closure characterisation: already in the same
class of `s`, or joined by one edge of `es`. -/
def connRel (s : UF) (es : List (Nat × Nat)) (a b : Nat) : Prop :=
  ufSame s a b ∨ edgeOr es a b

theorem reach_ufAdd_cons (s : UF) (u v : Nat) (tl : List (Nat × Nat)) (x y : Nat) :
    Reach (connRel (ufAdd s (u, v)) tl) x y ↔ Reach (connRel s ((u, v) :: tl)) x y := by
  constructor
  · intro h
    induction h with
    | base hab =>
      rcases hab with h | h
      · rcases (ufSame_ufAdd_iff s u v _ _).mp h with h' | ⟨h1, h2⟩ | ⟨h1, h2⟩
        · exact Reach.base (Or.inl h')
        · refine Reach.trans (Reach.base (Or.inl h1)) ?_
          refine Reach.trans (Reach.base (Or.inr (Or.inl (List.mem_cons_self _ _)))) ?_
          exact Reach.symm (Reach.base (Or.inl h2))
        · refine Reach.trans (Reach.base (Or.inl h1)) ?_
          refine Reach.trans (Reach.symm (Reach.base (Or.inr (Or.inl (List.mem_cons_self _ _))))) ?_
          exact Reach.symm (Reach.base (Or.inl h2))
      · rcases h with h | h
        · exact Reach.base (Or.inr (Or.inl (List.mem_cons_of_mem _ h)))
        · exact Reach.base (Or.inr (Or.inr (List.mem_cons_of_mem _ h)))
    | refl a => exact Reach.refl a
    | symm _ ih' => exact Reach.symm ih'
    | trans _ _ ih1 ih2 => exact Reach.trans ih1 ih2
  · intro h
    induction h with
    | base hab =>
      rcases hab with h | h
      · exact Reach.base (Or.inl (ufSame_ufAdd_of _ h))
      · rcases h with h | h
        · rcases List.mem_cons.mp h with h' | h'
          · cases h'
            exact Reach.base (Or.inl (ufAdd_joins s u v))
          · exact Reach.base (Or.inr (Or.inl h'))
        · rcases List.mem_cons.mp h with h' | h'
          · cases h'
            exact Reach.symm (Reach.base (Or.inl (ufAdd_joins s u v)))
          · exact Reach.base (Or.inr (Or.inr h'))
    | refl a => exact Reach.refl a
    | symm _ ih' => exact Reach.symm ih'
    | trans _ _ ih1 ih2 => exact Reach.trans ih1 ih2

theorem ufSame_foldl_iff (es : List (Nat × Nat)) (s : UF) (x y : Nat) :
    ufSame (es.foldl ufAdd s) x y ↔ Reach (connRel s es) x y := by
  induction es generalizing s with
  | nil =>
    simp only [List.foldl_nil]
    constructor
    · intro h; exact Reach.base (Or.inl h)
    · intro h
      induction h with
      | base hab =>
        rcases hab with h | h | h
        · exact h
        · cases h
        · cases h
      | refl a => rfl
      | symm _ ih => exact ih.symm
      | trans _ _ ih1 ih2 => exact ih1.trans ih2
  | cons e tl ih =>
    rcases e with ⟨u, v⟩
    simp only [List.foldl_cons]
    rw [ih, reach_ufAdd_cons]

theorem ufBuild_same_iff (es : List (Nat × Nat)) (x y : Nat) :
    ufSame (ufBuild es) x y ↔ Reach (connRel ufInit es) x y :=
  ufSame_foldl_iff es ufInit x y

theorem ufBuild_same_of_mem {es : List (Nat × Nat)} {a b : Nat} (h : (a, b) ∈ es) :
    ufSame (ufBuild es) a b :=
  (ufBuild_same_iff es a b).mpr (Reach.base (Or.inr (Or.inl h)))

/-- If every edge of `es` joins elements already merged in `t`, then the
partition built from `es` refines the partition of `t`. -/
theorem ufBuild_refines {es : List (Nat × Nat)} {t : UF}
    (h : ∀ p ∈ es, ufSame t p.1 p.2) {x y : Nat}
    (hxy : ufSame (ufBuild es) x y) : ufSame t x y := by
  have h' := (ufBuild_same_iff es x y).mp hxy
  clear hxy
  induction h' with
  | base hab =>
    rcases hab with hab | hab
    · cases hab; exact ufSame_refl t _
    · rcases hab with hab | hab
      · exact h _ hab
      · exact ufSame_symm (h _ hab)
  | refl a => exact ufSame_refl t a
  | symm _ ih => exact ufSame_symm ih
  | trans _ _ ih1 ih2 => exact ufSame_trans ih1 ih2

/-- The partition built from an edge list only depends on the edge list up
to permutation. -/
theorem ufBuild_same_perm {es es' : List (Nat × Nat)} (h : es.Perm es') (x y : Nat) :
    ufSame (ufBuild es) x y ↔ ufSame (ufBuild es') x y := by
  rw [ufBuild_same_iff, ufBuild_same_iff]
  constructor
  · refine Reach.mono ?_
    intro a b hab
    rcases hab with hab | hab | hab
    · exact Or.inl hab
    · exact Or.inr (Or.inl (h.mem_iff.mp hab))
    · exact Or.inr (Or.inr (h.mem_iff.mp hab))
  · refine Reach.mono ?_
    intro a b hab
    rcases hab with hab | hab | hab
    · exact Or.inl hab
    · exact Or.inr (Or.inl (h.mem_iff.mpr hab))
    · exact Or.inr (Or.inr (h.mem_iff.mpr hab))

/-! ### Class counting -/

/-- Representatives among `{0..n}`. -/
def ufRoots (s : UF) (n : Nat) : Finset Nat :=
  (Finset.range n).filter (fun i => s.r i = i)

/-- Number of classes of the partition restricted to `{0..n}`. -/
def numClasses (s : UF) (n : Nat) : Nat := (ufRoots s n).card

theorem numClasses_ufInit (n : Nat) : numClasses ufInit n = n := by
  unfold numClasses ufRoots ufInit
  simp

theorem mem_ufRoots {s : UF} {n i : Nat} :
    i ∈ ufRoots s n ↔ i < n ∧ s.r i = i := by
  unfold ufRoots
  simp

/-- Bound preservation: all representatives of `{0..n}` stay below `n`. -/
def ufBounded (s : UF) (n : Nat) : Prop := ∀ x, x < n → s.r x < n

theorem ufBounded_ufInit (n : Nat) : ufBounded ufInit n := fun _ h => h

theorem ufBounded_ufAdd {s : UF} {n : Nat} (hs : ufBounded s n) {u v : Nat}
    (hu : u < n) (hv : v < n) : ufBounded (ufAdd s (u, v)) n := by
  intro x hx
  unfold ufAdd ufUnion
  dsimp only
  by_cases h : s.r u = s.r v
  · rw [if_pos h]; exact hs x hx
  · rw [if_neg h]
    dsimp only
    by_cases h2 : s.r x = s.r v
    · rw [if_pos h2]; exact hs u hu
    · rw [if_neg h2]; exact hs x hx

theorem ufRoots_ufUnion (s : UF) (a b : Nat) (hab : s.r a ≠ s.r b) (n : Nat) :
    ufRoots (ufUnion s a b) n = (ufRoots s n).erase (s.r b) := by
  ext i
  rw [Finset.mem_erase, mem_ufRoots, mem_ufRoots]
  show (i < n ∧ (if s.r i = s.r b then s.r a else s.r i) = i) ↔ _
  constructor
  · rintro ⟨hin, hroot⟩
    by_cases h : s.r i = s.r b
    · rw [if_pos h] at hroot
      exfalso
      apply hab
      have h2 : s.r (s.r a) = s.r i := by rw [hroot]
      rw [s.idem] at h2
      exact h2.trans h
    · rw [if_neg h] at hroot
      refine ⟨?_, hin, hroot⟩
      intro hib
      apply h
      rw [hib, s.idem]
  · rintro ⟨hib, hin, hroot⟩
    have h : s.r i ≠ s.r b := by
      rw [hroot]; exact hib
    rw [if_neg h]
    exact ⟨hin, hroot⟩

theorem numClasses_ufAdd_le (s : UF) (e : Nat × Nat) (n : Nat) :
    numClasses s n ≤ numClasses (ufAdd s e) n + 1 := by
  rcases e with ⟨u, v⟩
  unfold ufAdd
  by_cases h : s.r u = s.r v
  · rw [if_pos h]; exact Nat.le_succ _
  · rw [if_neg h]
    unfold numClasses
    rw [ufRoots_ufUnion s u v h n]
    by_cases hm : s.r v ∈ ufRoots s n
    · rw [Finset.card_erase_of_mem hm]
      have : 1 ≤ (ufRoots s n).card := Finset.card_pos.mpr ⟨_, hm⟩
      omega
    · rw [Finset.erase_eq_of_not_mem hm]
      exact Nat.le_succ _

theorem numClasses_ufAdd_eq_sub (s : UF) {u v : Nat} {n : Nat}
    (hb : ufBounded s n) (hu : u < n) (hv : v < n) (h : s.r u ≠ s.r v) :
    numClasses (ufAdd s (u, v)) n + 1 = numClasses s n := by
  unfold ufAdd
  rw [if_neg h]
  unfold numClasses
  rw [ufRoots_ufUnion s u v h n]
  have hm : s.r v ∈ ufRoots s n := mem_ufRoots.mpr ⟨hb v hv, s.idem v⟩
  rw [Finset.card_erase_of_mem hm]
  have : 1 ≤ (ufRoots s n).card := Finset.card_pos.mpr ⟨_, hm⟩
  omega

theorem numClasses_ufAdd_eq_same (s : UF) {u v : Nat} (n : Nat)
    (h : s.r u = s.r v) : numClasses (ufAdd s (u, v)) n = numClasses s n := by
  unfold ufAdd
  rw [if_pos h]

/-- Each processed edge removes at most one class. -/
theorem numClasses_foldl_ge (es : List (Nat × Nat)) (s : UF) (n : Nat) :
    numClasses s n ≤ numClasses (es.foldl ufAdd s) n + es.length := by
  induction es generalizing s with
  | nil => simp
  | cons e tl ih =>
    simp only [List.foldl_cons, List.length_cons]
    have h1 := numClasses_ufAdd_le s e n
    have h2 := ih (ufAdd s e)
    omega

/-- Coarser partitions have at most as many classes: if the classes of `t`
are contained in classes of `s`, then `s` has at most as many classes. -/
theorem numClasses_le_of_refines {s t : UF} {n : Nat}
    (hbt : ufBounded t n)
    (href : ∀ x y, ufSame t x y → ufSame s x y) :
    numClasses s n ≤ numClasses t n := by
  unfold numClasses
  apply Finset.card_le_card_of_injOn (fun y => t.r y)
  · intro y hy
    rcases mem_ufRoots.mp hy with ⟨hyn, _⟩
    exact mem_ufRoots.mpr ⟨hbt y hyn, t.idem y⟩
  · intro y1 h1 y2 h2 heq
    rcases mem_ufRoots.mp h1 with ⟨_, hr1⟩
    rcases mem_ufRoots.mp h2 with ⟨_, hr2⟩
    have : ufSame s y1 y2 := href y1 y2 heq
    unfold ufSame at this
    rw [hr1, hr2] at this
    exact this

/-- Partition-equal states have the same number of classes. -/
theorem numClasses_congr {s t : UF} {n : Nat}
    (hbs : ufBounded s n) (hbt : ufBounded t n)
    (h : ∀ x y, ufSame s x y ↔ ufSame t x y) :
    numClasses s n = numClasses t n :=
  Nat.le_antisymm
    (numClasses_le_of_refines hbt (fun x y hxy => (h x y).mpr hxy))
    (numClasses_le_of_refines hbs (fun x y hxy => (h x y).mp hxy))

theorem ufBounded_foldl {n : Nat} :
    ∀ (es : List (Nat × Nat)) (s : UF), (∀ p ∈ es, p.1 < n ∧ p.2 < n) →
      ufBounded s n → ufBounded (es.foldl ufAdd s) n := by
  intro es
  induction es with
  | nil => intro s _ hs; exact hs
  | cons e tl ih =>
    intro s h hs
    simp only [List.foldl_cons]
    apply ih
    · intro p hp
      exact h p (List.mem_cons_of_mem _ hp)
    · rcases h e (List.mem_cons_self _ _) with ⟨h1, h2⟩
      rcases e with ⟨u, v⟩
      exact ufBounded_ufAdd hs h1 h2

theorem ufBounded_ufBuild {es : List (Nat × Nat)} {n : Nat}
    (h : ∀ p ∈ es, p.1 < n ∧ p.2 < n) : ufBounded (ufBuild es) n :=
  ufBounded_foldl es ufInit h (ufBounded_ufInit n)

/-! ## Stable sort of the edge indices

`bpt_canonical` sorts `sorted_edges_indices = arange(num_edges)` with
`std::stable_sort` under the comparator `edge_weights[i] < edge_weights[j]`.
Starting from the increasing list `0, …, m−1`, a stable sort under that
comparator produces exactly the unique enumeration that is sorted for the
lexicographic order on `(w i, i)`.  The model is a left fold of stable
insertions, which inserts each index after all already-placed indices with
a smaller-or-equal key (earlier indices are smaller, hence stability). -/

/-- Strict lexicographic order on `(w i, i)`. -/
def lexLT (w : Nat → Int) (i j : Nat) : Prop := w i < w j ∨ (w i = w j ∧ i < j)

/-- Stable insertion of index `x` under the comparator `w x < w y`. -/
def wIns (w : Nat → Int) (x : Nat) : List Nat → List Nat
  | [] => [x]
  | y :: ys => if w x < w y then x :: y :: ys else y :: wIns w x ys

/-- The sorted edge-index list of `bpt_canonical`. -/
def sortedEdgeIndices (m : Nat) (w : Nat → Int) : List Nat :=
  (List.range m).foldl (fun acc x => wIns w x acc) []

theorem mem_wIns (w : Nat → Int) (x z : Nat) :
    ∀ l : List Nat, z ∈ wIns w x l ↔ z = x ∨ z ∈ l := by
  intro l
  induction l with
  | nil => simp [wIns]
  | cons y ys ih =>
    unfold wIns
    by_cases h : w x < w y
    · rw [if_pos h]
      simp
    · rw [if_neg h]
      simp only [List.mem_cons, ih]
      tauto

theorem wIns_perm (w : Nat → Int) (x : Nat) (l : List Nat) :
    (wIns w x l).Perm (x :: l) := by
  induction l with
  | nil => exact List.Perm.refl _
  | cons y ys ih =>
    unfold wIns
    by_cases h : w x < w y
    · rw [if_pos h]
    · rw [if_neg h]
      exact (List.Perm.cons y ih).trans (List.Perm.swap x y ys)

theorem wIns_pairwise (w : Nat → Int) (x : Nat) (l : List Nat)
    (hl : l.Pairwise (lexLT w)) (hlt : ∀ y ∈ l, y < x) :
    (wIns w x l).Pairwise (lexLT w) := by
  induction l with
  | nil => exact List.pairwise_singleton _ _
  | cons y ys ih =>
    rcases List.pairwise_cons.mp hl with ⟨hy, hys⟩
    unfold wIns
    by_cases h : w x < w y
    · rw [if_pos h]
      refine List.pairwise_cons.mpr ⟨?_, hl⟩
      intro z hz
      rcases List.mem_cons.mp hz with rfl | hz'
      · exact Or.inl h
      · rcases hy z hz' with h' | ⟨h', _⟩
        · exact Or.inl (h.trans h')
        · exact Or.inl (h'.symm ▸ h)
    · rw [if_neg h]
      refine List.pairwise_cons.mpr ⟨?_, ?_⟩
      · intro z hz
        rcases (mem_wIns w x z ys).mp hz with rfl | hz'
        · rcases lt_or_eq_of_le (not_lt.mp h) with h' | h'
          · exact Or.inl h'
          · exact Or.inr ⟨h', hlt y (List.mem_cons_self _ _)⟩
        · exact hy z hz'
      · exact ih hys (fun z hz => hlt z (List.mem_cons_of_mem _ hz))

theorem foldl_wIns_perm (w : Nat → Int) :
    ∀ (ids acc : List Nat), (ids.foldl (fun a x => wIns w x a) acc).Perm (acc ++ ids) := by
  intro ids
  induction ids with
  | nil => intro acc; simp
  | cons x tl ih =>
    intro acc
    simp only [List.foldl_cons]
    refine (ih (wIns w x acc)).trans ?_
    refine (List.Perm.append_right tl (wIns_perm w x acc)).trans ?_
    exact List.perm_middle.symm

theorem foldl_wIns_pairwise (w : Nat → Int) :
    ∀ (ids acc : List Nat), acc.Pairwise (lexLT w) →
      (∀ y ∈ acc, ∀ x ∈ ids, y < x) → ids.Pairwise (· < ·) →
      (ids.foldl (fun a x => wIns w x a) acc).Pairwise (lexLT w) := by
  intro ids
  induction ids with
  | nil => intro acc hacc _ _; exact hacc
  | cons x tl ih =>
    intro acc hacc hmix hids
    rcases List.pairwise_cons.mp hids with ⟨hx, htl⟩
    simp only [List.foldl_cons]
    apply ih
    · exact wIns_pairwise w x acc hacc (fun y hy => hmix y hy x (List.mem_cons_self _ _))
    · intro y hy x' hx'
      rcases (mem_wIns w x y acc).mp hy with rfl | hy'
      · exact hx x' hx'
      · exact hmix y hy' x' (List.mem_cons_of_mem _ hx')
    · exact htl

theorem sortedEdgeIndices_perm (m : Nat) (w : Nat → Int) :
    (sortedEdgeIndices m w).Perm (List.range m) := by
  have h := foldl_wIns_perm w (List.range m) []
  simpa [sortedEdgeIndices] using h

theorem sortedEdgeIndices_pairwise (m : Nat) (w : Nat → Int) :
    (sortedEdgeIndices m w).Pairwise (lexLT w) := by
  apply foldl_wIns_pairwise w (List.range m) [] List.Pairwise.nil
  · intro y hy; cases hy
  · exact List.pairwise_lt_range m

/-- Any enumeration of `0, …, m−1` that is sorted lexicographically equals
the stable-sort output: the sorted order is unique. -/
theorem sortedEdgeIndices_unique (m : Nat) (w : Nat → Int) (l : List Nat)
    (hperm : l.Perm (List.range m)) (hsorted : l.Pairwise (lexLT w)) :
    l = sortedEdgeIndices m w := by
  haveI : IsAntisymm Nat (lexLT w) := by
    constructor
    intro a b hab hba
    rcases hab with h1 | ⟨h1, h1'⟩ <;> rcases hba with h2 | ⟨h2, h2'⟩
    · exact absurd (h1.trans h2) (lt_irrefl _)
    · exact absurd h1 (h2 ▸ lt_irrefl _)
    · exact absurd h2 (h1 ▸ lt_irrefl _)
    · omega
  exact List.eq_of_perm_of_sorted (hperm.trans (sortedEdgeIndices_perm m w).symm)
    hsorted (sortedEdgeIndices_pairwise m w)

theorem lexLT_weight_le {w : Nat → Int} {i j : Nat} (h : lexLT w i j) : w i ≤ w j := by
  rcases h with h | ⟨h, _⟩
  · exact le_of_lt h
  · exact le_of_eq h

/-! ## Counting and sum comparison for weight lists -/

/-- Number of elements at most `c` in a list of weights. -/
def countLE (c : Int) (l : List Int) : Nat := l.countP (fun x => decide (x ≤ c))

/-- Insertion for sorting plain weight lists. -/
def iIns (x : Int) : List Int → List Int
  | [] => [x]
  | y :: ys => if x < y then x :: y :: ys else y :: iIns x ys

def iSort (l : List Int) : List Int := l.foldl (fun acc x => iIns x acc) []

theorem iIns_perm (x : Int) (l : List Int) : (iIns x l).Perm (x :: l) := by
  induction l with
  | nil => exact List.Perm.refl _
  | cons y ys ih =>
    unfold iIns
    by_cases h : x < y
    · rw [if_pos h]
    · rw [if_neg h]
      exact (List.Perm.cons y ih).trans (List.Perm.swap x y ys)

theorem mem_iIns (x z : Int) : ∀ l : List Int, z ∈ iIns x l ↔ z = x ∨ z ∈ l := by
  intro l
  induction l with
  | nil => simp [iIns]
  | cons y ys ih =>
    unfold iIns
    by_cases h : x < y
    · rw [if_pos h]; simp
    · rw [if_neg h]
      simp only [List.mem_cons, ih]
      tauto

theorem iIns_pairwise (x : Int) (l : List Int) (hl : l.Pairwise (· ≤ ·)) :
    (iIns x l).Pairwise (· ≤ ·) := by
  induction l with
  | nil => exact List.pairwise_singleton _ _
  | cons y ys ih =>
    rcases List.pairwise_cons.mp hl with ⟨hy, hys⟩
    unfold iIns
    by_cases h : x < y
    · rw [if_pos h]
      refine List.pairwise_cons.mpr ⟨?_, hl⟩
      intro z hz
      rcases List.mem_cons.mp hz with rfl | hz'
      · exact le_of_lt h
      · exact le_of_lt (lt_of_lt_of_le h (hy z hz'))
    · rw [if_neg h]
      refine List.pairwise_cons.mpr ⟨?_, ih hys⟩
      intro z hz
      rcases (mem_iIns x z ys).mp hz with rfl | hz'
      · exact not_lt.mp h
      · exact hy z hz'

theorem iSort_perm (l : List Int) : (iSort l).Perm l := by
  have h : ∀ (l' acc : List Int), (l'.foldl (fun a x => iIns x a) acc).Perm (acc ++ l') := by
    intro l'
    induction l' with
    | nil => intro acc; simp
    | cons x tl ih =>
      intro acc
      simp only [List.foldl_cons]
      refine (ih (iIns x acc)).trans ?_
      refine (List.Perm.append_right tl (iIns_perm x acc)).trans ?_
      exact List.perm_middle.symm
  simpa [iSort] using h l []

theorem iSort_pairwise (l : List Int) : (iSort l).Pairwise (· ≤ ·) := by
  have h : ∀ (l' acc : List Int), acc.Pairwise (· ≤ ·) →
      (l'.foldl (fun a x => iIns x a) acc).Pairwise (· ≤ ·) := by
    intro l'
    induction l' with
    | nil => intro acc hacc; exact hacc
    | cons x tl ih =>
      intro acc hacc
      simp only [List.foldl_cons]
      exact ih (iIns x acc) (iIns_pairwise x acc hacc)
  exact h l [] List.Pairwise.nil

theorem countLE_ge_of_sorted :
    ∀ (l : List Int), l.Pairwise (· ≤ ·) → ∀ (i : Nat), i < l.length →
      i + 1 ≤ countLE (l.getD i 0) l := by
  intro l
  induction l with
  | nil => intro _ i h; cases h
  | cons x tl ih =>
    intro hl i h
    rcases List.pairwise_cons.mp hl with ⟨hx, htl⟩
    unfold countLE
    rw [List.countP_cons]
    cases i with
    | zero =>
      rw [List.getD_cons_zero]
      have hite : (if decide (x ≤ x) = true then 1 else 0) = 1 := by simp
      omega
    | succ j =>
      rw [List.getD_cons_succ]
      have hj : j < tl.length := Nat.lt_of_succ_lt_succ h
      have h1 := ih htl j hj
      have h2 : x ≤ tl.getD j 0 := by
        rw [List.getD_eq_get tl 0 hj]
        exact hx _ (tl.get_mem j hj)
      have hite : (if decide (x ≤ tl.getD j 0) = true then 1 else 0) = 1 :=
        if_pos (decide_eq_true h2)
      unfold countLE at h1
      omega

theorem countLE_le_of_sorted :
    ∀ (l : List Int), l.Pairwise (· ≤ ·) → ∀ (i : Nat), i < l.length → ∀ (c : Int),
      c < l.getD i 0 → countLE c l ≤ i := by
  intro l
  induction l with
  | nil => intro _ i h; cases h
  | cons x tl ih =>
    intro hl i h c hc
    rcases List.pairwise_cons.mp hl with ⟨hx, htl⟩
    unfold countLE
    rw [List.countP_cons]
    cases i with
    | zero =>
      rw [List.getD_cons_zero] at hc
      have hz : tl.countP (fun y => decide (y ≤ c)) = 0 := by
        rw [List.countP_eq_zero]
        intro z hz
        have hzc : c < z := lt_of_lt_of_le hc (hx z hz)
        simpa using not_le.mpr hzc
      have hite : (if decide (x ≤ c) = true then 1 else 0) = 0 :=
        if_neg (fun hh => (not_le.mpr hc) (of_decide_eq_true hh))
      omega
    | succ j =>
      rw [List.getD_cons_succ] at hc
      have hj : j < tl.length := Nat.lt_of_succ_lt_succ h
      have h1 := ih htl j hj c hc
      unfold countLE at h1
      have hite : (if decide (x ≤ c) = true then 1 else 0) ≤ 1 := by
        split <;> omega
      omega

theorem get_le_of_countLE (la lb : List Int)
    (ha : la.Pairwise (· ≤ ·)) (hb : lb.Pairwise (· ≤ ·))
    (hcnt : ∀ c, countLE c lb ≤ countLE c la) :
    ∀ (i : Nat), i < la.length → i < lb.length →
      la.getD i 0 ≤ lb.getD i 0 := by
  intro i h h'
  by_contra hgt
  push_neg at hgt
  have h1 : i + 1 ≤ countLE (lb.getD i 0) lb := countLE_ge_of_sorted lb hb i h'
  have h2 : countLE (lb.getD i 0) la ≤ i := countLE_le_of_sorted la ha i h _ hgt
  have h3 := hcnt (lb.getD i 0)
  omega

theorem sum_le_of_get_le :
    ∀ (la lb : List Int), la.length = lb.length →
      (∀ (i : Nat), i < la.length → i < lb.length →
        la.getD i 0 ≤ lb.getD i 0) →
      la.sum ≤ lb.sum := by
  intro la
  induction la with
  | nil =>
    intro lb hlen _
    rw [List.length_nil] at hlen
    rw [List.eq_nil_of_length_eq_zero hlen.symm]
  | cons a ta ih =>
    intro lb hlen hget
    cases lb with
    | nil => cases hlen
    | cons b tb =>
      simp only [List.sum_cons]
      have h0 : a ≤ b := by
        have := hget 0 (Nat.succ_pos _) (by rw [← hlen]; exact Nat.succ_pos _)
        simpa using this
      have htail : ta.sum ≤ tb.sum := by
        apply ih
        · simpa using hlen
        · intro i hi hi'
          have := hget (i + 1) (Nat.succ_lt_succ hi) (Nat.succ_lt_succ hi')
          simpa using this
      exact add_le_add h0 htail

/-- Count domination for every threshold, plus equal length, forces sum
domination. -/
theorem sum_le_of_countLE_dom (l1 l2 : List Int) (hlen : l1.length = l2.length)
    (hcnt : ∀ c, countLE c l2 ≤ countLE c l1) : l1.sum ≤ l2.sum := by
  have p1 := iSort_perm l1
  have p2 := iSort_perm l2
  have hlen' : (iSort l1).length = (iSort l2).length := by
    rw [p1.length_eq, p2.length_eq, hlen]
  have hcnt' : ∀ c, countLE c (iSort l2) ≤ countLE c (iSort l1) := by
    intro c
    unfold countLE
    rw [p1.countP_eq, p2.countP_eq]
    exact hcnt c
  have hget := get_le_of_countLE (iSort l1) (iSort l2)
    (iSort_pairwise l1) (iSort_pairwise l2) hcnt'
  have hsum := sum_le_of_get_le (iSort l1) (iSort l2) hlen' hget
  rw [p1.sum_eq, p2.sum_eq] at hsum
  exact hsum

/-! ## The graph model

A graph is a vertex count `n`, an edge count `m`, and an endpoint map
`ep : Nat → Nat × Nat` giving `(source, target)` of each edge id below
`m`; edge weights are `w : Nat → Int`.  This matches the interface used
by `hierarchy_core.hpp`: stable integer edge ids, endpoints recoverable
from an id (`edge_from_index`, `source`, `target`). -/

/-- All edge endpoints are legal vertices. -/
def GraphValid (n m : Nat) (ep : Nat → Nat × Nat) : Prop :=
  ∀ i, i < m → (ep i).1 < n ∧ (ep i).2 < n

/-- The edge list of the graph in edge-id order. -/
def edgeList (m : Nat) (ep : Nat → Nat × Nat) : List (Nat × Nat) :=
  (List.range m).map ep

/-- Connectivity: processing every edge leaves a single class on the
vertex set. -/
def Connected (n m : Nat) (ep : Nat → Nat × Nat) : Prop :=
  numClasses (ufBuild (edgeList m ep)) n = 1

/-- Sum of the weights of a list of edge ids. -/
def sumW (w : Nat → Int) (ids : List Nat) : Int := (ids.map w).sum

/-- A list of edge ids whose edges connect the whole vertex set. -/
def SpanningIds (n : Nat) (ep : Nat → Nat × Nat) (ids : List Nat) : Prop :=
  numClasses (ufBuild (ids.map ep)) n = 1

instance (n m : Nat) (ep : Nat → Nat × Nat) : Decidable (GraphValid n m ep) := by
  unfold GraphValid
  infer_instance

instance (n m : Nat) (ep : Nat → Nat × Nat) : Decidable (Connected n m ep) := by
  unfold Connected
  infer_instance

instance (n : Nat) (ep : Nat → Nat × Nat) (ids : List Nat) :
    Decidable (SpanningIds n ep ids) := by
  unfold SpanningIds
  infer_instance

/-! ## bpt_canonical (hierarchy_core.hpp, lines 72–125)

Shallow embedding of the Kruskal loop: the state carries the union-find,
the `roots` map from class representatives to tree nodes, the `parents`
and `levels` arrays (as total maps; entries at or above `num_nodes` hold
their initial values), the growing `mst` edge list and `mst_edge_map`,
and the counters `num_nodes` and `num_edge_found`. -/

/-- Pointwise update of a total map, as the embedding of an array store. -/
def upd {α : Type} (f : Nat → α) (i : Nat) (v : α) : Nat → α :=
  fun j => if j = i then v else f j

theorem upd_self {α : Type} (f : Nat → α) (i : Nat) (v : α) : upd f i v i = v := by
  unfold upd; rw [if_pos rfl]

theorem upd_other {α : Type} (f : Nat → α) (i : Nat) (v : α) {j : Nat} (h : j ≠ i) :
    upd f i v j = f j := by
  unfold upd; rw [if_neg h]

structure KState where
  uf : UF
  roots : Nat → Nat
  parents : Nat → Nat
  levels : Nat → Int
  mst : List (Nat × Nat)
  mstEdgeMap : List Nat
  numNodes : Nat
  found : Nat

/-- One iteration of the Kruskal loop body of `bpt_canonical` for edge id
`ei` (the `i++` advance is the list recursion). -/
def kruskalStep (ep : Nat → Nat × Nat) (w : Nat → Int) (s : KState) (ei : Nat) : KState :=
  if s.uf.r (ep ei).1 = s.uf.r (ep ei).2 then s
  else
    { uf := ufAdd s.uf ((ep ei).1, (ep ei).2)
      roots := upd s.roots (s.uf.r (ep ei).1) s.numNodes
      parents := upd (upd s.parents (s.roots (s.uf.r (ep ei).1)) s.numNodes)
        (s.roots (s.uf.r (ep ei).2)) s.numNodes
      levels := upd s.levels s.numNodes (w ei)
      mst := s.mst ++ [((ep ei).1, (ep ei).2)]
      mstEdgeMap := s.mstEdgeMap ++ [ei]
      numNodes := s.numNodes + 1
      found := s.found + 1 }

/-- The state before the loop. -/
def kInit (n : Nat) : KState :=
  { uf := ufInit, roots := fun j => j, parents := fun j => j,
    levels := fun _ => 0, mst := [], mstEdgeMap := [], numNodes := n, found := 0 }

/-- The loop `while (num_edge_found < num_edge_mst && i < size)`. -/
def kruskalScan (ep : Nat → Nat × Nat) (w : Nat → Int) (target : Nat) :
    KState → List Nat → KState
  | s, [] => s
  | s, ei :: rest =>
    if s.found < target then kruskalScan ep w target (kruskalStep ep w s ei) rest else s

/-- The C++ loop bound `num_edge_mst = num_points - 1` is computed in
`size_t` arithmetic, so at `num_points = 0` it underflows to `2^64 − 1`
(with a valid graph this only makes the final assertion fail, as in C++). -/
def numEdgeMst (n : Nat) : Nat := if n = 0 then 18446744073709551615 else n - 1

structure BptResult where
  numNodesT : Nat
  par : Nat → Nat
  alt : Nat → Int
  mst : List (Nat × Nat)
  mstEdgeMap : List Nat

/-- `bpt_canonical(graph, edge_weights)`: stable sort of edge ids by
weight, Kruskal scan, and the connectivity assertion (`hg_assert` throws,
modelled as `none`). -/
def bptCanonical (n m : Nat) (ep : Nat → Nat × Nat) (w : Nat → Int) : Option BptResult :=
  let s := kruskalScan ep w (numEdgeMst n) (kInit n) (sortedEdgeIndices m w)
  if s.found = numEdgeMst n then
    some ⟨2 * n - 1, s.parents, s.levels, s.mst, s.mstEdgeMap⟩
  else none

/-! ### Basic scan lemmas -/

theorem kruskalStep_found (ep : Nat → Nat × Nat) (w : Nat → Int) (s : KState) (ei : Nat) :
    (kruskalStep ep w s ei).found = s.found ∨
      (kruskalStep ep w s ei).found = s.found + 1 := by
  unfold kruskalStep
  by_cases h : s.uf.r (ep ei).1 = s.uf.r (ep ei).2
  · rw [if_pos h]; exact Or.inl rfl
  · rw [if_neg h]; exact Or.inr rfl

/-- Once the target is reached, the loop does not look at any more edges. -/
theorem kruskalScan_stop (ep : Nat → Nat × Nat) (w : Nat → Int) (target : Nat)
    (s : KState) (l : List Nat) (h : target ≤ s.found) :
    kruskalScan ep w target s l = s := by
  cases l with
  | nil => rfl
  | cons e r =>
    unfold kruskalScan
    rw [if_neg (Nat.not_lt.mpr h)]

/-- The scan of an extended list equals the scan of the original list as
soon as the original scan reached the target: the loop stops as soon as
`num_edge_found` hits `n − 1`. -/
theorem kruskalScan_append_of_reached (ep : Nat → Nat × Nat) (w : Nat → Int) (target : Nat) :
    ∀ (l1 l2 : List Nat) (s : KState),
      (kruskalScan ep w target s l1).found = target →
      kruskalScan ep w target s (l1 ++ l2) = kruskalScan ep w target s l1 := by
  intro l1
  induction l1 with
  | nil =>
    intro l2 s h
    simp only [List.nil_append]
    exact kruskalScan_stop ep w target s l2 (le_of_eq h.symm)
  | cons e r ih =>
    intro l2 s h
    rw [List.cons_append]
    simp only [kruskalScan] at h ⊢
    by_cases hf : s.found < target
    · rw [if_pos hf] at h
      rw [if_pos hf, if_pos hf]
      exact ih l2 _ h
    · rw [if_neg hf, if_neg hf]

theorem ufAdd_r_eq (s : UF) {u v : Nat} (h : s.r u ≠ s.r v) (x : Nat) :
    (ufAdd s (u, v)).r x = if s.r x = s.r v then s.r u else s.r x := by
  unfold ufAdd
  rw [if_neg h]
  rfl

theorem ufBuild_append_single (l : List (Nat × Nat)) (e : Nat × Nat) :
    ufBuild (l ++ [e]) = ufAdd (ufBuild l) e := by
  unfold ufBuild
  rw [List.foldl_append]
  rfl

theorem getD_append_lt {α : Type} (l l' : List α) (d : α) :
    ∀ i, i < l.length → (l ++ l').getD i d = l.getD i d := by
  induction l with
  | nil => intro i h; cases h
  | cons x tl ih =>
    intro i h
    cases i with
    | zero => rfl
    | succ j =>
      rw [List.cons_append, List.getD_cons_succ, List.getD_cons_succ]
      exact ih j (Nat.lt_of_succ_lt_succ h)

theorem getD_append_len {α : Type} (l l' : List α) (d : α) :
    (l ++ l').getD l.length d = l'.getD 0 d := by
  induction l with
  | nil => rfl
  | cons x tl ih =>
    rw [List.cons_append, List.length_cons, List.getD_cons_succ]
    exact ih

/-- The scan is a fold over the consumed part of the list: the consumed
part is all of the list, or the scan stopped exactly at the target. -/
theorem kruskalScan_split (ep : Nat → Nat × Nat) (w : Nat → Int) (target : Nat) :
    ∀ (l : List Nat) (s : KState), s.found ≤ target →
      ∃ p r, l = p ++ r ∧
        kruskalScan ep w target s l = List.foldl (kruskalStep ep w) s p ∧
        (kruskalScan ep w target s l).found ≤ target ∧
        (r ≠ [] → (kruskalScan ep w target s l).found = target) := by
  intro l
  induction l with
  | nil =>
    intro s hs
    exact ⟨[], [], rfl, rfl, hs, fun h => absurd rfl h⟩
  | cons e rest ih =>
    intro s hs
    unfold kruskalScan
    by_cases hf : s.found < target
    · rw [if_pos hf]
      have hstep : (kruskalStep ep w s e).found ≤ target := by
        rcases kruskalStep_found ep w s e with h | h <;> omega
      rcases ih (kruskalStep ep w s e) hstep with ⟨p, r, hsplit, heq, hle, hcond⟩
      refine ⟨e :: p, r, by rw [List.cons_append, hsplit], ?_, ?_, ?_⟩
      · rw [List.foldl_cons]; exact heq
      · exact hle
      · exact hcond
    · rw [if_neg hf]
      refine ⟨[], e :: rest, rfl, rfl, hs, ?_⟩
      intro _
      omega

/-! ### The loop invariant of `bpt_canonical` -/

/-- Invariant of the Kruskal loop state: counters and lengths agree, the
union-find tracks the accepted edges, `roots` maps each live class
representative to an unassigned tree node, assigned parents point
strictly upwards to interior nodes, every interior node has a child, the
levels of created nodes record the weights of the accepted edges, and
`mst` mirrors `mst_edge_map`. -/
structure KInv (n : Nat) (ep : Nat → Nat × Nat) (w : Nat → Int) (s : KState) : Prop where
  hnum : s.numNodes = n + s.found
  hmapLen : s.mstEdgeMap.length = s.found
  hmstLen : s.mst.length = s.found
  hbound : ufBounded s.uf n
  hclasses : numClasses s.uf n + s.found = n
  hroots_lt : ∀ c, c < n → s.uf.r c = c → s.roots c < s.numNodes
  hroots_par : ∀ c, c < n → s.uf.r c = c → s.parents (s.roots c) = s.roots c
  hroots_inj : ∀ c c', c < n → c' < n → s.uf.r c = c → s.uf.r c' = c' → c ≠ c' →
    s.roots c ≠ s.roots c'
  hpar_id : ∀ j, s.numNodes ≤ j → s.parents j = j
  hpar_gt : ∀ x, x < s.numNodes → s.parents x ≠ x →
    x < s.parents x ∧ s.parents x < s.numNodes
  hpar_all : ∀ x, x < s.numNodes → s.parents x = x →
    ∃ c, c < n ∧ s.uf.r c = c ∧ s.roots c = x
  hpar_ge : ∀ x, s.parents x ≠ x → n ≤ s.parents x
  hchild : ∀ k, n ≤ k → k < s.numNodes → ∃ x, x < k ∧ s.parents x = k
  hlev_leaf : ∀ j, j < n → s.levels j = 0
  hlev_hi : ∀ j, s.numNodes ≤ j → s.levels j = 0
  hlev_map : ∀ k, k < s.found → s.levels (n + k) = w (s.mstEdgeMap.getD k 0)
  hmst_map : s.mst = s.mstEdgeMap.map ep
  hmap_mem : ∀ e ∈ s.mstEdgeMap, (ep e).1 < n ∧ (ep e).2 < n
  huf_acc : ∀ x y, ufSame s.uf x y ↔ ufSame (ufBuild (s.mstEdgeMap.map ep)) x y

theorem kInv_init (n : Nat) (ep : Nat → Nat × Nat) (w : Nat → Int) :
    KInv n ep w (kInit n) :=
  { hnum := rfl
    hmapLen := rfl
    hmstLen := rfl
    hbound := ufBounded_ufInit n
    hclasses := by
      show numClasses ufInit n + 0 = n
      rw [numClasses_ufInit, Nat.add_zero]
    hroots_lt := fun c hc _ => hc
    hroots_par := fun _ _ _ => rfl
    hroots_inj := fun _ _ _ _ _ _ hne => hne
    hpar_id := fun _ _ => rfl
    hpar_gt := fun _ _ hx => absurd rfl hx
    hpar_all := fun x hx _ => ⟨x, hx, rfl, rfl⟩
    hpar_ge := fun _ hx => absurd rfl hx
    hchild := fun k hk hk' => absurd (lt_of_le_of_lt hk hk') (lt_irrefl n)
    hlev_leaf := fun _ _ => rfl
    hlev_hi := fun _ _ => rfl
    hlev_map := fun k hk => absurd hk (Nat.not_lt_zero k)
    hmst_map := rfl
    hmap_mem := fun e he => absurd he (List.not_mem_nil e)
    huf_acc := fun _ _ => Iff.rfl }

theorem kInv_step {n : Nat} {ep : Nat → Nat × Nat} {w : Nat → Int} {s : KState}
    (inv : KInv n ep w s) {ei : Nat}
    (h1 : (ep ei).1 < n) (h2 : (ep ei).2 < n) :
    KInv n ep w (kruskalStep ep w s ei) := by
  unfold kruskalStep
  by_cases hc : s.uf.r (ep ei).1 = s.uf.r (ep ei).2
  · rw [if_pos hc]; exact inv
  · rw [if_neg hc]
    have hcu : s.uf.r (s.uf.r (ep ei).1) = s.uf.r (ep ei).1 := s.uf.idem _
    have hcv : s.uf.r (s.uf.r (ep ei).2) = s.uf.r (ep ei).2 := s.uf.idem _
    have hb1 : s.uf.r (ep ei).1 < n := inv.hbound _ h1
    have hb2 : s.uf.r (ep ei).2 < n := inv.hbound _ h2
    have hr1lt : s.roots (s.uf.r (ep ei).1) < s.numNodes := inv.hroots_lt _ hb1 hcu
    have hr2lt : s.roots (s.uf.r (ep ei).2) < s.numNodes := inv.hroots_lt _ hb2 hcv
    have hr12 : s.roots (s.uf.r (ep ei).1) ≠ s.roots (s.uf.r (ep ei).2) :=
      inv.hroots_inj _ _ hb1 hb2 hcu hcv hc
    have hp1 : s.parents (s.roots (s.uf.r (ep ei).1)) = s.roots (s.uf.r (ep ei).1) :=
      inv.hroots_par _ hb1 hcu
    have hp2 : s.parents (s.roots (s.uf.r (ep ei).2)) = s.roots (s.uf.r (ep ei).2) :=
      inv.hroots_par _ hb2 hcv
    have hnum := inv.hnum
    have hchar : ∀ c, ((ufAdd s.uf ((ep ei).1, (ep ei).2)).r c = c) ↔
        (s.uf.r c = c ∧ c ≠ s.uf.r (ep ei).2) := by
      intro c
      rw [ufAdd_r_eq s.uf hc c]
      constructor
      · intro h
        by_cases hcc : s.uf.r c = s.uf.r (ep ei).2
        · rw [if_pos hcc] at h
          exfalso
          apply hc
          have h3 : s.uf.r c = s.uf.r (ep ei).1 := by rw [← h]; exact hcu
          exact h3.symm.trans hcc
        · rw [if_neg hcc] at h
          exact ⟨h, fun he => hcc (by rw [he]; exact hcv)⟩
      · rintro ⟨h, hne⟩
        have hcc : ¬(s.uf.r c = s.uf.r (ep ei).2) := by rw [h]; exact hne
        rw [if_neg hcc]
        exact h
    exact
      { hnum := by
          show s.numNodes + 1 = n + (s.found + 1)
          omega
        hmapLen := by
          show (s.mstEdgeMap ++ [ei]).length = s.found + 1
          rw [List.length_append, inv.hmapLen]
          rfl
        hmstLen := by
          show (s.mst ++ [((ep ei).1, (ep ei).2)]).length = s.found + 1
          rw [List.length_append, inv.hmstLen]
          rfl
        hbound := ufBounded_ufAdd inv.hbound h1 h2
        hclasses := by
          show numClasses (ufAdd s.uf ((ep ei).1, (ep ei).2)) n + (s.found + 1) = n
          have h3 := numClasses_ufAdd_eq_sub s.uf inv.hbound h1 h2 hc
          have h4 := inv.hclasses
          omega
        hroots_lt := by
          intro c hcn hroot
          have hroot' := (hchar c).mp hroot
          rcases hroot' with ⟨hrc, hne2⟩
          show upd s.roots (s.uf.r (ep ei).1) s.numNodes c < s.numNodes + 1
          by_cases hcc : c = s.uf.r (ep ei).1
          · rw [hcc, upd_self]; omega
          · rw [upd_other _ _ _ hcc]
            have := inv.hroots_lt c hcn hrc
            omega
        hroots_par := by
          intro c hcn hroot
          have hroot' := (hchar c).mp hroot
          rcases hroot' with ⟨hrc, hne2⟩
          show (upd (upd s.parents (s.roots (s.uf.r (ep ei).1)) s.numNodes)
              (s.roots (s.uf.r (ep ei).2)) s.numNodes)
              (upd s.roots (s.uf.r (ep ei).1) s.numNodes c)
              = upd s.roots (s.uf.r (ep ei).1) s.numNodes c
          by_cases hcc : c = s.uf.r (ep ei).1
          · rw [hcc, upd_self]
            rw [upd_other _ _ _ (by omega : s.numNodes ≠ s.roots (s.uf.r (ep ei).2))]
            rw [upd_other _ _ _ (by omega : s.numNodes ≠ s.roots (s.uf.r (ep ei).1))]
            exact inv.hpar_id s.numNodes (le_refl _)
          · rw [upd_other _ _ _ hcc]
            have hne1 : s.roots c ≠ s.roots (s.uf.r (ep ei).1) :=
              inv.hroots_inj c _ hcn hb1 hrc hcu hcc
            have hne2' : s.roots c ≠ s.roots (s.uf.r (ep ei).2) :=
              inv.hroots_inj c _ hcn hb2 hrc hcv hne2
            rw [upd_other _ _ _ hne2', upd_other _ _ _ hne1]
            exact inv.hroots_par c hcn hrc
        hroots_inj := by
          intro c c' hcn hcn' hroot hroot' hne
          rcases (hchar c).mp hroot with ⟨hrc, hne2⟩
          rcases (hchar c').mp hroot' with ⟨hrc', hne2'⟩
          show upd s.roots (s.uf.r (ep ei).1) s.numNodes c ≠
            upd s.roots (s.uf.r (ep ei).1) s.numNodes c'
          by_cases hcc : c = s.uf.r (ep ei).1 <;> by_cases hcc' : c' = s.uf.r (ep ei).1
          · exact absurd (hcc.trans hcc'.symm) hne
          · rw [hcc, upd_self, upd_other _ _ _ hcc']
            have := inv.hroots_lt c' hcn' hrc'
            omega
          · rw [hcc', upd_self, upd_other _ _ _ hcc]
            have := inv.hroots_lt c hcn hrc
            omega
          · rw [upd_other _ _ _ hcc, upd_other _ _ _ hcc']
            exact inv.hroots_inj c c' hcn hcn' hrc hrc' hne
        hpar_id := by
          intro j hj
          have hj' : s.numNodes + 1 ≤ j := hj
          show (upd (upd s.parents (s.roots (s.uf.r (ep ei).1)) s.numNodes)
              (s.roots (s.uf.r (ep ei).2)) s.numNodes) j = j
          rw [upd_other _ _ _ (by omega : j ≠ s.roots (s.uf.r (ep ei).2))]
          rw [upd_other _ _ _ (by omega : j ≠ s.roots (s.uf.r (ep ei).1))]
          exact inv.hpar_id j (by omega)
        hpar_gt := by
          intro x hx hpx
          have hx' : x < s.numNodes + 1 := hx
          have hpx' : (upd (upd s.parents (s.roots (s.uf.r (ep ei).1)) s.numNodes)
              (s.roots (s.uf.r (ep ei).2)) s.numNodes) x ≠ x := hpx
          show x < (upd (upd s.parents (s.roots (s.uf.r (ep ei).1)) s.numNodes)
              (s.roots (s.uf.r (ep ei).2)) s.numNodes) x ∧
            (upd (upd s.parents (s.roots (s.uf.r (ep ei).1)) s.numNodes)
              (s.roots (s.uf.r (ep ei).2)) s.numNodes) x < s.numNodes + 1
          by_cases hx2 : x = s.roots (s.uf.r (ep ei).2)
          · have he : (upd (upd s.parents (s.roots (s.uf.r (ep ei).1)) s.numNodes)
                (s.roots (s.uf.r (ep ei).2)) s.numNodes) x = s.numNodes := by
              rw [hx2]; exact upd_self _ _ _
            rw [he]
            omega
          · by_cases hx1 : x = s.roots (s.uf.r (ep ei).1)
            · have he : (upd (upd s.parents (s.roots (s.uf.r (ep ei).1)) s.numNodes)
                  (s.roots (s.uf.r (ep ei).2)) s.numNodes) x = s.numNodes := by
                rw [upd_other _ _ _ hx2, hx1]; exact upd_self _ _ _
              rw [he]
              omega
            · have he : (upd (upd s.parents (s.roots (s.uf.r (ep ei).1)) s.numNodes)
                  (s.roots (s.uf.r (ep ei).2)) s.numNodes) x = s.parents x := by
                rw [upd_other _ _ _ hx2, upd_other _ _ _ hx1]
              rw [he] at hpx' ⊢
              by_cases hxn : x = s.numNodes
              · exact absurd (inv.hpar_id x (by omega)) hpx'
              · have h3 := inv.hpar_gt x (by omega) hpx'
                omega
        hpar_all := by
          intro x hx hpx
          have hx' : x < s.numNodes + 1 := hx
          have hpx' : (upd (upd s.parents (s.roots (s.uf.r (ep ei).1)) s.numNodes)
              (s.roots (s.uf.r (ep ei).2)) s.numNodes) x = x := hpx
          by_cases hxn : x = s.numNodes
          · refine ⟨s.uf.r (ep ei).1, hb1, (hchar _).mpr ⟨hcu, hc⟩, ?_⟩
            show upd s.roots (s.uf.r (ep ei).1) s.numNodes (s.uf.r (ep ei).1) = x
            rw [upd_self, hxn]
          · by_cases hx2 : x = s.roots (s.uf.r (ep ei).2)
            · exfalso
              have he : (upd (upd s.parents (s.roots (s.uf.r (ep ei).1)) s.numNodes)
                  (s.roots (s.uf.r (ep ei).2)) s.numNodes) x = s.numNodes := by
                rw [hx2]; exact upd_self _ _ _
              exact hxn (he.symm.trans hpx').symm
            · by_cases hx1 : x = s.roots (s.uf.r (ep ei).1)
              · exfalso
                have he : (upd (upd s.parents (s.roots (s.uf.r (ep ei).1)) s.numNodes)
                    (s.roots (s.uf.r (ep ei).2)) s.numNodes) x = s.numNodes := by
                  rw [upd_other _ _ _ hx2, hx1]; exact upd_self _ _ _
                exact hxn (he.symm.trans hpx').symm
              · have he : (upd (upd s.parents (s.roots (s.uf.r (ep ei).1)) s.numNodes)
                    (s.roots (s.uf.r (ep ei).2)) s.numNodes) x = s.parents x := by
                  rw [upd_other _ _ _ hx2, upd_other _ _ _ hx1]
                have hpeq : s.parents x = x := he.symm.trans hpx'
                rcases inv.hpar_all x (by omega) hpeq with ⟨c, hcn, hrc, hrx⟩
                have hcc2 : c ≠ s.uf.r (ep ei).2 := by
                  intro heq; apply hx2; rw [← hrx, heq]
                have hcc1 : c ≠ s.uf.r (ep ei).1 := by
                  intro heq; apply hx1; rw [← hrx, heq]
                refine ⟨c, hcn, (hchar c).mpr ⟨hrc, hcc2⟩, ?_⟩
                show upd s.roots (s.uf.r (ep ei).1) s.numNodes c = x
                rw [upd_other _ _ _ hcc1]
                exact hrx
        hpar_ge := by
          intro x hpx
          have hpx' : (upd (upd s.parents (s.roots (s.uf.r (ep ei).1)) s.numNodes)
              (s.roots (s.uf.r (ep ei).2)) s.numNodes) x ≠ x := hpx
          show n ≤ (upd (upd s.parents (s.roots (s.uf.r (ep ei).1)) s.numNodes)
              (s.roots (s.uf.r (ep ei).2)) s.numNodes) x
          by_cases hx2 : x = s.roots (s.uf.r (ep ei).2)
          · have he : (upd (upd s.parents (s.roots (s.uf.r (ep ei).1)) s.numNodes)
                (s.roots (s.uf.r (ep ei).2)) s.numNodes) x = s.numNodes := by
              rw [hx2]; exact upd_self _ _ _
            rw [he]; omega
          · by_cases hx1 : x = s.roots (s.uf.r (ep ei).1)
            · have he : (upd (upd s.parents (s.roots (s.uf.r (ep ei).1)) s.numNodes)
                  (s.roots (s.uf.r (ep ei).2)) s.numNodes) x = s.numNodes := by
                rw [upd_other _ _ _ hx2, hx1]; exact upd_self _ _ _
              rw [he]; omega
            · have he : (upd (upd s.parents (s.roots (s.uf.r (ep ei).1)) s.numNodes)
                  (s.roots (s.uf.r (ep ei).2)) s.numNodes) x = s.parents x := by
                rw [upd_other _ _ _ hx2, upd_other _ _ _ hx1]
              rw [he] at hpx' ⊢
              exact inv.hpar_ge x hpx'
        hchild := by
          intro k hk hk'
          have hk'' : k < s.numNodes + 1 := hk'
          by_cases hkn : k = s.numNodes
          · refine ⟨s.roots (s.uf.r (ep ei).1), by omega, ?_⟩
            show (upd (upd s.parents (s.roots (s.uf.r (ep ei).1)) s.numNodes)
                (s.roots (s.uf.r (ep ei).2)) s.numNodes)
                (s.roots (s.uf.r (ep ei).1)) = k
            rw [upd_other _ _ _ hr12, upd_self, hkn]
          · rcases inv.hchild k hk (by omega) with ⟨x, hxk, hpxk⟩
            refine ⟨x, hxk, ?_⟩
            have hx1 : x ≠ s.roots (s.uf.r (ep ei).1) := by
              intro heq
              rw [heq] at hpxk hxk
              rw [hp1] at hpxk
              omega
            have hx2 : x ≠ s.roots (s.uf.r (ep ei).2) := by
              intro heq
              rw [heq] at hpxk hxk
              rw [hp2] at hpxk
              omega
            show (upd (upd s.parents (s.roots (s.uf.r (ep ei).1)) s.numNodes)
                (s.roots (s.uf.r (ep ei).2)) s.numNodes) x = k
            rw [upd_other _ _ _ hx2, upd_other _ _ _ hx1]
            exact hpxk
        hlev_leaf := by
          intro j hj
          show upd s.levels s.numNodes (w ei) j = 0
          rw [upd_other _ _ _ (by omega : j ≠ s.numNodes)]
          exact inv.hlev_leaf j hj
        hlev_hi := by
          intro j hj
          have hj' : s.numNodes + 1 ≤ j := hj
          show upd s.levels s.numNodes (w ei) j = 0
          rw [upd_other _ _ _ (by omega : j ≠ s.numNodes)]
          exact inv.hlev_hi j (by omega)
        hlev_map := by
          intro k hk
          have hk' : k < s.found + 1 := hk
          show upd s.levels s.numNodes (w ei) (n + k) =
            w ((s.mstEdgeMap ++ [ei]).getD k 0)
          by_cases hkf : k = s.found
          · rw [hkf]
            have h3 : n + s.found = s.numNodes := inv.hnum.symm
            rw [h3, upd_self]
            have h4 : (s.mstEdgeMap ++ [ei]).getD s.found 0 = ei := by
              rw [← inv.hmapLen, getD_append_len]
              rfl
            rw [h4]
          · have hkf' : k < s.found := by omega
            rw [upd_other _ _ _ (by omega : n + k ≠ s.numNodes)]
            rw [getD_append_lt _ _ _ k (by rw [inv.hmapLen]; omega)]
            exact inv.hlev_map k hkf'
        hmst_map := by
          show s.mst ++ [((ep ei).1, (ep ei).2)] = (s.mstEdgeMap ++ [ei]).map ep
          rw [List.map_append, inv.hmst_map]
          rfl
        hmap_mem := by
          intro e he
          have he' : e ∈ s.mstEdgeMap ++ [ei] := he
          rcases List.mem_append.mp he' with h | h
          · exact inv.hmap_mem e h
          · have h3 : e = ei := by simpa using h
            rw [h3]
            exact ⟨h1, h2⟩
        huf_acc := by
          intro x y
          have key : ∀ (B : UF), (∀ a b, ufSame s.uf a b ↔ ufSame B a b) →
              (ufSame (ufAdd s.uf ((ep ei).1, (ep ei).2)) x y ↔
                ufSame (ufAdd B ((ep ei).1, (ep ei).2)) x y) := by
            intro B hB
            rw [ufSame_ufAdd_iff, ufSame_ufAdd_iff, hB x y, hB x (ep ei).1,
              hB y (ep ei).2, hB x (ep ei).2, hB y (ep ei).1]
          have h5 := key _ inv.huf_acc
          have h6 : ufBuild ((s.mstEdgeMap ++ [ei]).map ep) =
              ufAdd (ufBuild (s.mstEdgeMap.map ep)) (ep ei) := by
            rw [List.map_append]
            exact ufBuild_append_single _ _
          show ufSame (ufAdd s.uf ((ep ei).1, (ep ei).2)) x y ↔
            ufSame (ufBuild ((s.mstEdgeMap ++ [ei]).map ep)) x y
          rw [h6]
          exact h5 }

theorem kInv_foldl {n : Nat} {ep : Nat → Nat × Nat} {w : Nat → Int} :
    ∀ (P : List Nat) (s : KState), KInv n ep w s →
      (∀ e ∈ P, (ep e).1 < n ∧ (ep e).2 < n) →
      KInv n ep w (List.foldl (kruskalStep ep w) s P) := by
  intro P
  induction P with
  | nil => intro s hs _; exact hs
  | cons e tl ih =>
    intro s hs hmem
    simp only [List.foldl_cons]
    apply ih
    · rcases hmem e (List.mem_cons_self _ _) with ⟨he1, he2⟩
      exact kInv_step hs he1 he2
    · intro e' he'
      exact hmem e' (List.mem_cons_of_mem _ he')

theorem kruskalStep_mstEdgeMap (ep : Nat → Nat × Nat) (w : Nat → Int) (s : KState) (ei : Nat) :
    (kruskalStep ep w s ei).mstEdgeMap = s.mstEdgeMap ∨
      (kruskalStep ep w s ei).mstEdgeMap = s.mstEdgeMap ++ [ei] := by
  unfold kruskalStep
  by_cases h : s.uf.r (ep ei).1 = s.uf.r (ep ei).2
  · rw [if_pos h]; exact Or.inl rfl
  · rw [if_neg h]; exact Or.inr rfl

theorem foldl_mstEdgeMap_split (ep : Nat → Nat × Nat) (w : Nat → Int) :
    ∀ (P : List Nat) (s : KState),
      ∃ d, (List.foldl (kruskalStep ep w) s P).mstEdgeMap = s.mstEdgeMap ++ d ∧
        ∀ e ∈ d, e ∈ P := by
  intro P
  induction P with
  | nil => intro s; exact ⟨[], by simp, fun e he => absurd he (List.not_mem_nil e)⟩
  | cons e tl ih =>
    intro s
    simp only [List.foldl_cons]
    rcases ih (kruskalStep ep w s e) with ⟨d, hd, hdm⟩
    rcases kruskalStep_mstEdgeMap ep w s e with h | h
    · refine ⟨d, by rw [hd, h], ?_⟩
      intro x hx
      exact List.mem_cons_of_mem _ (hdm x hx)
    · refine ⟨e :: d, ?_, ?_⟩
      · rw [hd, h, List.append_assoc]
        rfl
      · intro x hx
        rcases List.mem_cons.mp hx with rfl | hx'
        · exact List.mem_cons_self _ _
        · exact List.mem_cons_of_mem _ (hdm x hx')

theorem kruskalStep_uf (ep : Nat → Nat × Nat) (w : Nat → Int) (s : KState) (ei : Nat) :
    (kruskalStep ep w s ei).uf = ufAdd s.uf (ep ei) := by
  unfold kruskalStep ufAdd
  by_cases h : s.uf.r (ep ei).1 = s.uf.r (ep ei).2
  · rw [if_pos h, if_pos h]
  · rw [if_neg h, if_neg h]

theorem foldl_uf (ep : Nat → Nat × Nat) (w : Nat → Int) :
    ∀ (P : List Nat) (s : KState),
      (List.foldl (kruskalStep ep w) s P).uf = List.foldl ufAdd s.uf (P.map ep) := by
  intro P
  induction P with
  | nil => intro s; rfl
  | cons e tl ih =>
    intro s
    simp only [List.foldl_cons, List.map_cons]
    rw [ih, kruskalStep_uf]

theorem kruskalStep_found_le (ep : Nat → Nat × Nat) (w : Nat → Int) (s : KState) (ei : Nat) :
    s.found ≤ (kruskalStep ep w s ei).found := by
  rcases kruskalStep_found ep w s ei with h | h <;> omega

theorem foldl_found_le (ep : Nat → Nat × Nat) (w : Nat → Int) :
    ∀ (P : List Nat) (s : KState),
      s.found ≤ (List.foldl (kruskalStep ep w) s P).found := by
  intro P
  induction P with
  | nil => intro s; exact le_refl _
  | cons e tl ih =>
    intro s
    simp only [List.foldl_cons]
    exact le_trans (kruskalStep_found_le ep w s e) (ih _)

theorem numClasses_pos {s : UF} {n : Nat} (hb : ufBounded s n) (hn : 0 < n) :
    1 ≤ numClasses s n := by
  apply Finset.card_pos.mpr
  exact ⟨s.r 0, mem_ufRoots.mpr ⟨hb 0 hn, s.idem 0⟩⟩

theorem numEdgeMst_of_pos {n : Nat} (hn : 1 ≤ n) : numEdgeMst n = n - 1 := by
  unfold numEdgeMst
  rw [if_neg (by omega : ¬ n = 0)]

theorem sortedEdgeIndices_mem_lt {m : Nat} {w : Nat → Int} {e : Nat}
    (h : e ∈ sortedEdgeIndices m w) : e < m :=
  List.mem_range.mp ((sortedEdgeIndices_perm m w).mem_iff.mp h)

/-- The union-find partition built from all graph edges equals, in class
count, the one built from the sorted-id scan order. -/
theorem numClasses_sorted_eq (n m : Nat) (ep : Nat → Nat × Nat) (w : Nat → Int)
    (hval : GraphValid n m ep) :
    numClasses (ufBuild ((sortedEdgeIndices m w).map ep)) n =
      numClasses (ufBuild (edgeList m ep)) n := by
  have hperm : ((sortedEdgeIndices m w).map ep).Perm (edgeList m ep) :=
    (sortedEdgeIndices_perm m w).map ep
  have hb1 : ufBounded (ufBuild ((sortedEdgeIndices m w).map ep)) n := by
    apply ufBounded_ufBuild
    intro p hp
    rcases List.mem_map.mp hp with ⟨e, he, rfl⟩
    exact hval e (sortedEdgeIndices_mem_lt he)
  have hb2 : ufBounded (ufBuild (edgeList m ep)) n := by
    apply ufBounded_ufBuild
    intro p hp
    rcases List.mem_map.mp hp with ⟨e, he, rfl⟩
    exact hval e (List.mem_range.mp he)
  exact numClasses_congr hb1 hb2 (fun x y => ufBuild_same_perm hperm x y)

/-- The state after the (early-exiting) scan of `bpt_canonical`. -/
def bptScanState (n m : Nat) (ep : Nat → Nat × Nat) (w : Nat → Int) : KState :=
  kruskalScan ep w (numEdgeMst n) (kInit n) (sortedEdgeIndices m w)

/-- The state after folding over the whole sorted edge list (no early exit). -/
def bptFullState (n m : Nat) (ep : Nat → Nat × Nat) (w : Nat → Int) : KState :=
  List.foldl (kruskalStep ep w) (kInit n) (sortedEdgeIndices m w)

theorem bptCanonical_eq (n m : Nat) (ep : Nat → Nat × Nat) (w : Nat → Int) :
    bptCanonical n m ep w =
      (if (bptScanState n m ep w).found = numEdgeMst n then
        some ⟨2 * n - 1, (bptScanState n m ep w).parents, (bptScanState n m ep w).levels,
          (bptScanState n m ep w).mst, (bptScanState n m ep w).mstEdgeMap⟩
      else none) := rfl

theorem bptFull_kInv (n m : Nat) (ep : Nat → Nat × Nat) (w : Nat → Int)
    (hval : GraphValid n m ep) : KInv n ep w (bptFullState n m ep w) := by
  apply kInv_foldl _ _ (kInv_init n ep w)
  intro e he
  exact hval e (sortedEdgeIndices_mem_lt he)

/-- The full fold realises exactly the connectivity partition of the graph. -/
theorem bptFull_found (n m : Nat) (ep : Nat → Nat × Nat) (w : Nat → Int)
    (hval : GraphValid n m ep) :
    (bptFullState n m ep w).found + numClasses (ufBuild (edgeList m ep)) n = n := by
  have inv := bptFull_kInv n m ep w hval
  have h1 := inv.hclasses
  have h2 : (bptFullState n m ep w).uf = ufBuild ((sortedEdgeIndices m w).map ep) := by
    unfold bptFullState
    rw [foldl_uf]
    rfl
  rw [h2] at h1
  rw [numClasses_sorted_eq n m ep w hval] at h1
  omega

theorem bptScan_found_iff (n m : Nat) (ep : Nat → Nat × Nat) (w : Nat → Int)
    (hval : GraphValid n m ep) :
    (bptScanState n m ep w).found = numEdgeMst n ↔ Connected n m ep := by
  have hA := bptFull_found n m ep w hval
  have hbfull : ufBounded (ufBuild (edgeList m ep)) n := by
    apply ufBounded_ufBuild
    intro p hp
    rcases List.mem_map.mp hp with ⟨e, he, rfl⟩
    exact hval e (List.mem_range.mp he)
  rcases kruskalScan_split ep w (numEdgeMst n) (sortedEdgeIndices m w) (kInit n)
    (Nat.zero_le _) with ⟨P, R, hPR, heq, hle, hcond⟩
  have hscan : bptScanState n m ep w = List.foldl (kruskalStep ep w) (kInit n) P := heq
  by_cases hR : R = []
  · have hPL : P = sortedEdgeIndices m w := by rw [hPR, hR, List.append_nil]
    have hfull : bptScanState n m ep w = bptFullState n m ep w := by
      rw [hscan, hPL]; rfl
    rw [hfull]
    unfold Connected
    constructor
    · intro h
      by_cases hn0 : n = 0
      · exfalso
        have htar : numEdgeMst n = 18446744073709551615 := by
          unfold numEdgeMst; rw [if_pos hn0]
        rw [htar] at h
        omega
      · have htar : numEdgeMst n = n - 1 := numEdgeMst_of_pos (by omega)
        rw [htar] at h
        omega
    · intro h
      have hn : 1 ≤ n := by omega
      rw [numEdgeMst_of_pos hn]
      omega
  · have hfoundR : (bptScanState n m ep w).found = numEdgeMst n := hcond hR
    constructor
    · intro _
      have hmono : (bptScanState n m ep w).found ≤ (bptFullState n m ep w).found := by
        rw [hscan]
        unfold bptFullState
        rw [hPR, List.foldl_append]
        exact foldl_found_le ep w R _
      rw [hfoundR] at hmono
      by_cases hn0 : n = 0
      · exfalso
        have htar : numEdgeMst n = 18446744073709551615 := by
          unfold numEdgeMst; rw [if_pos hn0]
        rw [htar] at hmono
        omega
      · have hnc : 1 ≤ numClasses (ufBuild (edgeList m ep)) n :=
          numClasses_pos hbfull (by omega)
        have htar : numEdgeMst n = n - 1 := numEdgeMst_of_pos (by omega)
        rw [htar] at hmono
        unfold Connected
        omega
    · intro _
      exact hfoundR

/-- C3 helper: failure of the scan characterises disconnection. -/
theorem bptFull_lt_iff (n m : Nat) (ep : Nat → Nat × Nat) (w : Nat → Int)
    (hval : GraphValid n m ep) :
    (bptFullState n m ep w).found < numEdgeMst n ↔ ¬ Connected n m ep := by
  have hA := bptFull_found n m ep w hval
  have hbfull : ufBounded (ufBuild (edgeList m ep)) n := by
    apply ufBounded_ufBuild
    intro p hp
    rcases List.mem_map.mp hp with ⟨e, he, rfl⟩
    exact hval e (List.mem_range.mp he)
  unfold Connected
  by_cases hn0 : n = 0
  · have htar : numEdgeMst n = 18446744073709551615 := by
      unfold numEdgeMst; rw [if_pos hn0]
    rw [htar]
    constructor
    · intro _ hcon
      omega
    · intro _
      omega
  · have hnc : 1 ≤ numClasses (ufBuild (edgeList m ep)) n :=
      numClasses_pos hbfull (by omega)
    rw [numEdgeMst_of_pos (by omega : 1 ≤ n)]
    constructor
    · intro h hcon
      omega
    · intro h
      omega

theorem bptScan_kInv (n m : Nat) (ep : Nat → Nat × Nat) (w : Nat → Int)
    (hval : GraphValid n m ep) : KInv n ep w (bptScanState n m ep w) := by
  rcases kruskalScan_split ep w (numEdgeMst n) (sortedEdgeIndices m w) (kInit n)
    (Nat.zero_le _) with ⟨P, R, hPR, heq, _, _⟩
  show KInv n ep w (kruskalScan ep w (numEdgeMst n) (kInit n) (sortedEdgeIndices m w))
  rw [heq]
  apply kInv_foldl _ _ (kInv_init n ep w)
  intro e he
  apply hval
  apply sortedEdgeIndices_mem_lt
  rw [hPR]
  exact List.mem_append_left _ he

/-! ### MST minimality -/

theorem mem_takeWhile_mem {α : Type} (p : α → Bool) :
    ∀ (l : List α) (e : α), e ∈ l.takeWhile p → e ∈ l := by
  intro l
  induction l with
  | nil => intro e he; cases he
  | cons x tl ih =>
    intro e he
    rw [List.takeWhile_cons] at he
    by_cases hx : p x = true
    · rw [if_pos hx] at he
      rcases List.mem_cons.mp he with rfl | he'
      · exact List.mem_cons_self _ _
      · exact List.mem_cons_of_mem _ (ih e he')
    · rw [if_neg hx] at he
      cases he

theorem mem_takeWhile_pred {α : Type} (p : α → Bool) :
    ∀ (l : List α) (e : α), e ∈ l.takeWhile p → p e = true := by
  intro l
  induction l with
  | nil => intro e he; cases he
  | cons x tl ih =>
    intro e he
    rw [List.takeWhile_cons] at he
    by_cases hx : p x = true
    · rw [if_pos hx] at he
      rcases List.mem_cons.mp he with rfl | he'
      · exact hx
      · exact ih e he'
    · rw [if_neg hx] at he
      cases he

/-- In a lexicographically sorted list, everything after the first weight
above the threshold is above the threshold. -/
theorem dropWhile_gt (w : Nat → Int) (c : Int) :
    ∀ (P : List Nat), P.Pairwise (lexLT w) →
      ∀ e ∈ P.dropWhile (fun e => decide (w e ≤ c)), c < w e := by
  intro P
  induction P with
  | nil => intro _ e he; cases he
  | cons x tl ih =>
    intro hp e he
    rcases List.pairwise_cons.mp hp with ⟨hx, htl⟩
    rw [List.dropWhile_cons] at he
    by_cases hxc : w x ≤ c
    · rw [if_pos (by simpa using hxc)] at he
      exact ih htl e he
    · rw [if_neg (by simpa using hxc)] at he
      rcases List.mem_cons.mp he with rfl | he'
      · omega
      · have hle := lexLT_weight_le (hx e he')
        omega

theorem ufBuild_bounded_ids {n m : Nat} {ep : Nat → Nat × Nat} (hval : GraphValid n m ep)
    (ids : List Nat) (hids : ∀ e ∈ ids, e < m) : ufBounded (ufBuild (ids.map ep)) n := by
  apply ufBounded_ufBuild
  intro p hp
  rcases List.mem_map.mp hp with ⟨e, he, rfl⟩
  exact hval e (hids e he)

theorem numClasses_ids_perm {n m : Nat} {ep : Nat → Nat × Nat} (hval : GraphValid n m ep)
    {ids ids' : List Nat} (hperm : ids.Perm ids') (hids : ∀ e ∈ ids, e < m) :
    numClasses (ufBuild (ids.map ep)) n = numClasses (ufBuild (ids'.map ep)) n :=
  numClasses_congr (ufBuild_bounded_ids hval ids hids)
    (ufBuild_bounded_ids hval ids' (fun e he => hids e (hperm.mem_iff.mpr he)))
    (fun x y => ufBuild_same_perm (hperm.map ep) x y)

/-- Every sublist of ids of a spanning `(n−1)`-edge set merges one class
per edge: a prefix- and filter-rank property of spanning trees. -/
theorem spanning_filter_rank {n m : Nat} {ep : Nat → Nat × Nat} (hval : GraphValid n m ep)
    (hn : 1 ≤ n) (T : List Nat) (hTm : ∀ e ∈ T, e < m) (hTlen : T.length = n - 1)
    (hTspan : SpanningIds n ep T) (p : Nat → Bool) :
    numClasses (ufBuild ((T.filter p).map ep)) n + (T.filter p).length = n := by
  have hTcm : ∀ e ∈ T.filter p, e < m := fun e he => hTm e (List.mem_of_mem_filter he)
  have hge : n ≤ numClasses (ufBuild ((T.filter p).map ep)) n + (T.filter p).length := by
    have h := numClasses_foldl_ge ((T.filter p).map ep) ufInit n
    rw [numClasses_ufInit] at h
    have hlen : ((T.filter p).map ep).length = (T.filter p).length := List.length_map _ _
    unfold ufBuild
    omega
  have hperm : ((T.filter p) ++ (T.filter (fun e => !p e))).Perm T :=
    List.filter_append_perm p T
  have hlen2 : (T.filter p).length + (T.filter (fun e => !p e)).length = T.length := by
    have := hperm.length_eq
    rw [List.length_append] at this
    exact this
  have hclassesT : numClasses (ufBuild (T.map ep)) n = 1 := hTspan
  have hclasses2 : numClasses (ufBuild (((T.filter p) ++ (T.filter (fun e => !p e))).map ep)) n
      = 1 := by
    rw [numClasses_ids_perm hval hperm
      (fun e he => hTm e (hperm.mem_iff.mp he))]
    exact hclassesT
  have hfold : ufBuild (((T.filter p) ++ (T.filter (fun e => !p e))).map ep) =
      List.foldl ufAdd (ufBuild ((T.filter p).map ep)) ((T.filter (fun e => !p e)).map ep) := by
    rw [List.map_append]
    unfold ufBuild
    rw [List.foldl_append]
  have hle2 := numClasses_foldl_ge ((T.filter (fun e => !p e)).map ep)
    (ufBuild ((T.filter p).map ep)) n
  rw [← hfold] at hle2
  rw [hclasses2] at hle2
  have hlen3 : ((T.filter (fun e => !p e)).map ep).length
      = (T.filter (fun e => !p e)).length := List.length_map _ _
  omega

/-- Core counting bound: at every threshold `c` the Kruskal-accepted edges
contain at least as many edges of weight at most `c` as any spanning set
of `n − 1` edges. -/
theorem kruskal_count_ge (n m : Nat) (ep : Nat → Nat × Nat) (w : Nat → Int)
    (hval : GraphValid n m ep) (P R : List Nat)
    (hPR : sortedEdgeIndices m w = P ++ R)
    (hfound : (List.foldl (kruskalStep ep w) (kInit n) P).found = n - 1) (hn : 1 ≤ n)
    (T : List Nat) (hTm : ∀ e ∈ T, e < m) (hTlen : T.length = n - 1)
    (hTspan : SpanningIds n ep T) (c : Int) :
    T.countP (fun e => decide (w e ≤ c)) ≤
      (List.foldl (kruskalStep ep w) (kInit n) P).mstEdgeMap.countP
        (fun e => decide (w e ≤ c)) := by
  have hPm : ∀ e ∈ P, e < m := by
    intro e he
    apply sortedEdgeIndices_mem_lt
    rw [hPR]
    exact List.mem_append_left _ he
  have hLp := sortedEdgeIndices_pairwise m w
  rw [hPR] at hLp
  rcases List.pairwise_append.mp hLp with ⟨hPsorted, hRsorted, hcross⟩
  by_cases hall : ∀ e ∈ T, w e ≤ c → e ∈ P
  · -- every light competitor edge was scanned
    have hPsplit : P.takeWhile (fun e => decide (w e ≤ c)) ++
        P.dropWhile (fun e => decide (w e ≤ c)) = P :=
      List.takeWhile_append_dropWhile _ _
    have hP1w : ∀ e ∈ P.takeWhile (fun e => decide (w e ≤ c)), w e ≤ c := by
      intro e he
      have := mem_takeWhile_pred _ _ _ he
      simpa using this
    have hP2w : ∀ e ∈ P.dropWhile (fun e => decide (w e ≤ c)), c < w e :=
      dropWhile_gt w c P hPsorted
    have hP1m : ∀ e ∈ P.takeWhile (fun e => decide (w e ≤ c)), e < m :=
      fun e he => hPm e (mem_takeWhile_mem _ _ _ he)
    have inv1 : KInv n ep w (List.foldl (kruskalStep ep w) (kInit n)
        (P.takeWhile (fun e => decide (w e ≤ c)))) := by
      apply kInv_foldl _ _ (kInv_init n ep w)
      intro e he
      exact hval e (hP1m e he)
    -- the accepted list splits at the threshold
    have hfold2 : List.foldl (kruskalStep ep w) (kInit n) P =
        List.foldl (kruskalStep ep w)
          (List.foldl (kruskalStep ep w) (kInit n)
            (P.takeWhile (fun e => decide (w e ≤ c))))
          (P.dropWhile (fun e => decide (w e ≤ c))) := by
      rw [← List.foldl_append, hPsplit]
    rcases foldl_mstEdgeMap_split ep w (P.dropWhile (fun e => decide (w e ≤ c)))
      (List.foldl (kruskalStep ep w) (kInit n)
        (P.takeWhile (fun e => decide (w e ≤ c)))) with ⟨d, hd, hdm⟩
    rcases foldl_mstEdgeMap_split ep w (P.takeWhile (fun e => decide (w e ≤ c)))
      (kInit n) with ⟨d0, hd0, hd0m⟩
    have hd0' : (List.foldl (kruskalStep ep w) (kInit n)
        (P.takeWhile (fun e => decide (w e ≤ c)))).mstEdgeMap = d0 := by
      rw [hd0]
      rfl
    -- count on the accepted side
    have hcntA : (List.foldl (kruskalStep ep w) (kInit n) P).mstEdgeMap.countP
        (fun e => decide (w e ≤ c)) =
        (List.foldl (kruskalStep ep w) (kInit n)
          (P.takeWhile (fun e => decide (w e ≤ c)))).found := by
      rw [hfold2, hd, List.countP_append]
      have hc1 : (List.foldl (kruskalStep ep w) (kInit n)
          (P.takeWhile (fun e => decide (w e ≤ c)))).mstEdgeMap.countP
          (fun e => decide (w e ≤ c)) =
          (List.foldl (kruskalStep ep w) (kInit n)
            (P.takeWhile (fun e => decide (w e ≤ c)))).mstEdgeMap.length := by
        apply List.countP_eq_length.mpr
        intro e he
        rw [hd0'] at he
        have : w e ≤ c := hP1w e (hd0m e he)
        simpa using this
      have hc2 : d.countP (fun e => decide (w e ≤ c)) = 0 := by
        apply List.countP_eq_zero.mpr
        intro e he
        have : c < w e := hP2w e (hdm e he)
        simpa using not_le.mpr this
      rw [hc1, hc2, inv1.hmapLen]
      omega
    rw [hcntA]
    -- count on the competitor side
    have hcntT : T.countP (fun e => decide (w e ≤ c)) =
        (T.filter (fun e => decide (w e ≤ c))).length :=
      List.countP_eq_length_filter _ _
    rw [hcntT]
    have hTc_P1 : ∀ e ∈ T.filter (fun e => decide (w e ≤ c)),
        e ∈ P.takeWhile (fun e => decide (w e ≤ c)) := by
      intro e he
      have heT : e ∈ T := List.mem_of_mem_filter he
      have hew : w e ≤ c := by
        have := List.of_mem_filter he
        simpa using this
      have heP : e ∈ P := hall e heT hew
      rw [← hPsplit] at heP
      rcases List.mem_append.mp heP with h | h
      · exact h
      · exact absurd (hP2w e h) (not_lt.mpr hew)
    -- refinement: the competitor classes refine the scanned classes
    have hs1uf : (List.foldl (kruskalStep ep w) (kInit n)
        (P.takeWhile (fun e => decide (w e ≤ c)))).uf =
        ufBuild ((P.takeWhile (fun e => decide (w e ≤ c))).map ep) := by
      rw [foldl_uf]
      rfl
    have hs1cls := inv1.hclasses
    rw [hs1uf] at hs1cls
    have hrefine : numClasses (ufBuild ((P.takeWhile (fun e => decide (w e ≤ c))).map ep)) n
        ≤ numClasses (ufBuild ((T.filter (fun e => decide (w e ≤ c))).map ep)) n := by
      apply numClasses_le_of_refines
      · exact ufBuild_bounded_ids hval _
          (fun e he => hTm e (List.mem_of_mem_filter he))
      · intro x y hxy
        apply ufBuild_refines ?_ hxy
        intro p hp
        rcases List.mem_map.mp hp with ⟨e, he, rfl⟩
        exact ufBuild_same_of_mem (List.mem_map_of_mem ep (hTc_P1 e he))
    have hfr := spanning_filter_rank hval hn T hTm hTlen hTspan
      (fun e => decide (w e ≤ c))
    omega
  · -- some light competitor edge was never scanned: all accepted edges
    -- are at most as heavy as it
    push_neg at hall
    rcases hall with ⟨estar, heT, hwe, hePnot⟩
    have heL : estar ∈ sortedEdgeIndices m w := by
      rw [(sortedEdgeIndices_perm m w).mem_iff]
      exact List.mem_range.mpr (hTm estar heT)
    have heR : estar ∈ R := by
      rw [hPR] at heL
      rcases List.mem_append.mp heL with h | h
      · exact absurd h hePnot
      · exact h
    rcases foldl_mstEdgeMap_split ep w P (kInit n) with ⟨d, hd, hdm⟩
    have hd' : (List.foldl (kruskalStep ep w) (kInit n) P).mstEdgeMap = d := by
      rw [hd]
      rfl
    have hcntA : (List.foldl (kruskalStep ep w) (kInit n) P).mstEdgeMap.countP
        (fun e => decide (w e ≤ c)) =
        (List.foldl (kruskalStep ep w) (kInit n) P).mstEdgeMap.length := by
      apply List.countP_eq_length.mpr
      intro e he
      rw [hd'] at he
      have heP : e ∈ P := hdm e he
      have hlex := hcross e heP estar heR
      have hle := lexLT_weight_le hlex
      have : w e ≤ c := le_trans hle hwe
      simpa using this
    have invP : KInv n ep w (List.foldl (kruskalStep ep w) (kInit n) P) := by
      apply kInv_foldl _ _ (kInv_init n ep w)
      intro e he
      exact hval e (hPm e he)
    have hlenA := invP.hmapLen
    have hcntT : List.countP (fun e => decide (w e ≤ c)) T ≤ T.length :=
      List.countP_le_length _
    omega

/-! ### Claim C1 -/

/-- C1: for every connected undirected graph `G` with `n` vertices and
every edge-weight vector, the mst returned by `bpt_canonical` has exactly
`n − 1` edges, and the sum of the weights of the edges selected by
`mst_edge_map` equals the total weight of a minimum spanning tree: the
selected edges themselves span the graph with `n − 1` edges, and their
weight sum is at most the weight sum of every spanning set of `n − 1`
edges. -/
theorem C1_mst_minimum (n m : Nat) (ep : Nat → Nat × Nat) (w : Nat → Int)
    (hval : GraphValid n m ep) (res : BptResult)
    (hres : bptCanonical n m ep w = some res) :
    res.mst.length = n - 1 ∧
    res.mstEdgeMap.length = n - 1 ∧
    SpanningIds n ep res.mstEdgeMap ∧
    (∀ T : List Nat, (∀ e ∈ T, e < m) → T.length = n - 1 → SpanningIds n ep T →
      sumW w res.mstEdgeMap ≤ sumW w T) := by
  rw [bptCanonical_eq] at hres
  by_cases hsucc : (bptScanState n m ep w).found = numEdgeMst n
  · rw [if_pos hsucc] at hres
    have hres' := Option.some.inj hres
    have hconn : Connected n m ep := (bptScan_found_iff n m ep w hval).mp hsucc
    have hfull := bptFull_found n m ep w hval
    have hn : 1 ≤ n := by
      unfold Connected at hconn
      omega
    have htar : numEdgeMst n = n - 1 := numEdgeMst_of_pos hn
    rw [htar] at hsucc
    have inv := bptScan_kInv n m ep w hval
    have hmapA : res.mstEdgeMap = (bptScanState n m ep w).mstEdgeMap := by rw [← hres']
    have hmstA : res.mst = (bptScanState n m ep w).mst := by rw [← hres']
    have hlenMap : res.mstEdgeMap.length = n - 1 := by
      rw [hmapA, inv.hmapLen, hsucc]
    have hlenMst : res.mst.length = n - 1 := by
      rw [hmstA, inv.hmstLen, hsucc]
    have hspan : SpanningIds n ep res.mstEdgeMap := by
      unfold SpanningIds
      have h1 := inv.hclasses
      rw [hsucc] at h1
      have hbA : ufBounded (ufBuild (res.mstEdgeMap.map ep)) n := by
        apply ufBounded_ufBuild
        intro p hp
        rcases List.mem_map.mp hp with ⟨e, he, rfl⟩
        rw [hmapA] at he
        exact inv.hmap_mem e he
      have h2 := numClasses_congr inv.hbound hbA (by rw [hmapA]; exact inv.huf_acc)
      omega
    refine ⟨hlenMst, hlenMap, hspan, ?_⟩
    intro T hTm hTlen hTspan
    rcases kruskalScan_split ep w (numEdgeMst n) (sortedEdgeIndices m w) (kInit n)
      (Nat.zero_le _) with ⟨P, R, hPR, heq, _, _⟩
    have hscan : bptScanState n m ep w = List.foldl (kruskalStep ep w) (kInit n) P := heq
    have hfoundP : (List.foldl (kruskalStep ep w) (kInit n) P).found = n - 1 := by
      rw [← hscan]
      exact hsucc
    have hcnt := fun c =>
      kruskal_count_ge n m ep w hval P R hPR hfoundP hn T hTm hTlen hTspan c
    unfold sumW
    apply sum_le_of_countLE_dom
    · rw [List.length_map, List.length_map, hlenMap, hTlen]
    · intro c
      unfold countLE
      rw [List.countP_map, List.countP_map]
      have h := hcnt c
      rw [hmapA, hscan]
      exact h
  · rw [if_neg hsucc] at hres
    exact Option.noConfusion hres

/-- Example graph used by the concrete witnesses: a weighted triangle. -/
def epEx3 : Nat → Nat × Nat := fun i => if i = 0 then (0, 1) else if i = 1 then (1, 2) else (0, 2)

def wEx3 : Nat → Int := fun i => if i = 0 then 5 else if i = 1 then 1 else 2

def bptDefault : BptResult := ⟨0, fun _ => 0, fun _ => 0, [], []⟩

theorem C1_mst_minimum_witness :
    sumW wEx3 ((bptCanonical 3 3 epEx3 wEx3).getD bptDefault).mstEdgeMap ≤
      sumW wEx3 [1, 2] := by
  have hsome : (bptCanonical 3 3 epEx3 wEx3).isSome = true := by decide
  have hres : bptCanonical 3 3 epEx3 wEx3 =
      some ((bptCanonical 3 3 epEx3 wEx3).getD bptDefault) := by
    cases h : bptCanonical 3 3 epEx3 wEx3 with
    | none => rw [h] at hsome; cases hsome
    | some r => rfl
  exact (C1_mst_minimum 3 3 epEx3 wEx3 (by decide) _ hres).2.2.2 [1, 2]
    (by decide) (by decide) (by decide)

/-! ### Claim C3 -/

/-- C3: `bpt_canonical` fails with the `DisconnectedGraph` error (the
thrown assertion is modelled as `none`) if and only if the Kruskal scan
over all edges performs fewer than `n − 1` merges, which happens iff the
graph is not connected; on failure no partial result is returned (the
result is `none`), and the scan stops as soon as `n − 1` merges have been
found: any edges past that point are never examined. -/
theorem C3_disconnected_error (n m : Nat) (ep : Nat → Nat × Nat) (w : Nat → Int)
    (hval : GraphValid n m ep) :
    (bptCanonical n m ep w = none ↔ ¬ Connected n m ep) ∧
    (bptCanonical n m ep w = none ↔
      (bptFullState n m ep w).found < numEdgeMst n) ∧
    (∀ l1 l2 : List Nat,
      (kruskalScan ep w (numEdgeMst n) (kInit n) l1).found = numEdgeMst n →
      kruskalScan ep w (numEdgeMst n) (kInit n) (l1 ++ l2) =
        kruskalScan ep w (numEdgeMst n) (kInit n) l1) := by
  have hiff := bptScan_found_iff n m ep w hval
  have hlt := bptFull_lt_iff n m ep w hval
  have hnone : bptCanonical n m ep w = none ↔
      ¬ (bptScanState n m ep w).found = numEdgeMst n := by
    rw [bptCanonical_eq]
    by_cases h : (bptScanState n m ep w).found = numEdgeMst n
    · rw [if_pos h]
      simp [h]
    · rw [if_neg h]
      simp [h]
  refine ⟨?_, ?_, ?_⟩
  · rw [hnone, hiff]
  · rw [hnone, hiff, hlt]
  · intro l1 l2 h
    exact kruskalScan_append_of_reached ep w (numEdgeMst n) l1 l2 (kInit n) h

/-- Disconnected two-vertex graph with no edges, for the C3 witness. -/
def epEx0 : Nat → Nat × Nat := fun _ => (0, 0)

theorem C3_disconnected_error_witness :
    bptCanonical 2 0 epEx0 wEx3 = none := by
  have h := (C3_disconnected_error 2 0 epEx0 wEx3 (by decide)).1
  apply h.mpr
  decide

/-! ### Claim C7 -/

/-- C7: the sequence of edge ids scanned by the Kruskal loop of
`bpt_canonical` is the stable sort of `0, …, m−1` under the key `w[e]`:
it is a permutation of the edge ids, sorted so that weights are
non-decreasing and ties are in increasing original-id order, and it is
the unique such enumeration, so the scan order (hence the returned tree
shape) is a deterministic function of the input even in the presence of
ties. -/
theorem C7_stable_sort (m : Nat) (w : Nat → Int) :
    (sortedEdgeIndices m w).Perm (List.range m) ∧
    (sortedEdgeIndices m w).Pairwise (lexLT w) ∧
    (∀ l : List Nat, l.Perm (List.range m) → l.Pairwise (lexLT w) →
      l = sortedEdgeIndices m w) :=
  ⟨sortedEdgeIndices_perm m w, sortedEdgeIndices_pairwise m w,
    fun l hp hs => sortedEdgeIndices_unique m w l hp hs⟩

/-! ### Claim C2: altitudes -/

/-- Monotonicity pass over the Kruskal fold: if the levels of the live
component roots are below every remaining weight and the parent relation
is already monotone, both facts persist, so the final parent relation is
monotone in levels. -/
theorem levInv_foldl {n : Nat} {ep : Nat → Nat × Nat} {w : Nat → Int} :
    ∀ (P : List Nat) (s : KState), KInv n ep w s →
      (∀ x, x < s.numNodes → s.parents x ≠ x → s.levels x ≤ s.levels (s.parents x)) →
      (∀ c, c < n → s.uf.r c = c → ∀ e ∈ P, s.levels (s.roots c) ≤ w e) →
      P.Pairwise (fun i j => w i ≤ w j) →
      (∀ e ∈ P, (ep e).1 < n ∧ (ep e).2 < n) →
      (∀ x, x < (List.foldl (kruskalStep ep w) s P).numNodes →
        (List.foldl (kruskalStep ep w) s P).parents x ≠ x →
        (List.foldl (kruskalStep ep w) s P).levels x ≤
          (List.foldl (kruskalStep ep w) s P).levels
            ((List.foldl (kruskalStep ep w) s P).parents x)) := by
  intro P
  induction P with
  | nil => intro s _ hmono _ _ _; exact hmono
  | cons e tl ih =>
    intro s inv hmono hr0 hsort hmem
    rcases List.pairwise_cons.mp hsort with ⟨hhead, htl⟩
    rcases hmem e (List.mem_cons_self _ _) with ⟨h1, h2⟩
    simp only [List.foldl_cons]
    by_cases hc : s.uf.r (ep e).1 = s.uf.r (ep e).2
    · have hstep : kruskalStep ep w s e = s := by
        unfold kruskalStep
        rw [if_pos hc]
      rw [hstep]
      apply ih s inv hmono _ htl
      · intro e' he'
        exact hmem e' (List.mem_cons_of_mem _ he')
      · intro c hcn hrc e' he'
        exact hr0 c hcn hrc e' (List.mem_cons_of_mem _ he')
    · have hcu : s.uf.r (s.uf.r (ep e).1) = s.uf.r (ep e).1 := s.uf.idem _
      have hcv : s.uf.r (s.uf.r (ep e).2) = s.uf.r (ep e).2 := s.uf.idem _
      have hb1 : s.uf.r (ep e).1 < n := inv.hbound _ h1
      have hb2 : s.uf.r (ep e).2 < n := inv.hbound _ h2
      have hr1lt : s.roots (s.uf.r (ep e).1) < s.numNodes := inv.hroots_lt _ hb1 hcu
      have hr2lt : s.roots (s.uf.r (ep e).2) < s.numNodes := inv.hroots_lt _ hb2 hcv
      have hr12 : s.roots (s.uf.r (ep e).1) ≠ s.roots (s.uf.r (ep e).2) :=
        inv.hroots_inj _ _ hb1 hb2 hcu hcv hc
      have hlev_r1 : s.levels (s.roots (s.uf.r (ep e).1)) ≤ w e :=
        hr0 _ hb1 hcu e (List.mem_cons_self _ _)
      have hlev_r2 : s.levels (s.roots (s.uf.r (ep e).2)) ≤ w e :=
        hr0 _ hb2 hcv e (List.mem_cons_self _ _)
      have hchar : ∀ c, ((ufAdd s.uf ((ep e).1, (ep e).2)).r c = c) ↔
          (s.uf.r c = c ∧ c ≠ s.uf.r (ep e).2) := by
        intro c
        rw [ufAdd_r_eq s.uf hc c]
        constructor
        · intro h
          by_cases hcc : s.uf.r c = s.uf.r (ep e).2
          · rw [if_pos hcc] at h
            exfalso
            apply hc
            have h3 : s.uf.r c = s.uf.r (ep e).1 := by rw [← h]; exact hcu
            exact h3.symm.trans hcc
          · rw [if_neg hcc] at h
            exact ⟨h, fun he => hcc (by rw [he]; exact hcv)⟩
        · rintro ⟨h, hne⟩
          have hcc : ¬(s.uf.r c = s.uf.r (ep e).2) := by rw [h]; exact hne
          rw [if_neg hcc]
          exact h
      have hstep : kruskalStep ep w s e =
          { uf := ufAdd s.uf ((ep e).1, (ep e).2)
            roots := upd s.roots (s.uf.r (ep e).1) s.numNodes
            parents := upd (upd s.parents (s.roots (s.uf.r (ep e).1)) s.numNodes)
              (s.roots (s.uf.r (ep e).2)) s.numNodes
            levels := upd s.levels s.numNodes (w e)
            mst := s.mst ++ [((ep e).1, (ep e).2)]
            mstEdgeMap := s.mstEdgeMap ++ [e]
            numNodes := s.numNodes + 1
            found := s.found + 1 } := by
        unfold kruskalStep
        rw [if_neg hc]
      rw [hstep]
      apply ih _ (by rw [← hstep]; exact kInv_step inv h1 h2)
      · -- monotone parents at the stepped state
        intro x hx hpx
        have hx' : x < s.numNodes + 1 := hx
        by_cases hx2 : x = s.roots (s.uf.r (ep e).2)
        · have hpar : (upd (upd s.parents (s.roots (s.uf.r (ep e).1)) s.numNodes)
              (s.roots (s.uf.r (ep e).2)) s.numNodes) x = s.numNodes := by
            rw [hx2]; exact upd_self _ _ _
          show upd s.levels s.numNodes (w e) x ≤ upd s.levels s.numNodes (w e)
            ((upd (upd s.parents (s.roots (s.uf.r (ep e).1)) s.numNodes)
              (s.roots (s.uf.r (ep e).2)) s.numNodes) x)
          rw [hpar, upd_self, upd_other _ _ _ (by omega : x ≠ s.numNodes)]
          rw [hx2]
          exact hlev_r2
        · by_cases hx1 : x = s.roots (s.uf.r (ep e).1)
          · have hpar : (upd (upd s.parents (s.roots (s.uf.r (ep e).1)) s.numNodes)
                (s.roots (s.uf.r (ep e).2)) s.numNodes) x = s.numNodes := by
              rw [upd_other _ _ _ hx2, hx1]; exact upd_self _ _ _
            show upd s.levels s.numNodes (w e) x ≤ upd s.levels s.numNodes (w e)
              ((upd (upd s.parents (s.roots (s.uf.r (ep e).1)) s.numNodes)
                (s.roots (s.uf.r (ep e).2)) s.numNodes) x)
            rw [hpar, upd_self, upd_other _ _ _ (by omega : x ≠ s.numNodes)]
            rw [hx1]
            exact hlev_r1
          · have hpar : (upd (upd s.parents (s.roots (s.uf.r (ep e).1)) s.numNodes)
                (s.roots (s.uf.r (ep e).2)) s.numNodes) x = s.parents x := by
              rw [upd_other _ _ _ hx2, upd_other _ _ _ hx1]
            have hpx' : s.parents x ≠ x := by
              intro hcontra
              apply hpx
              show (upd (upd s.parents (s.roots (s.uf.r (ep e).1)) s.numNodes)
                (s.roots (s.uf.r (ep e).2)) s.numNodes) x = x
              rw [hpar]
              exact hcontra
            by_cases hxn : x = s.numNodes
            · exact absurd (inv.hpar_id x (by omega)) hpx'
            · have hgt := inv.hpar_gt x (by omega) hpx'
              show upd s.levels s.numNodes (w e) x ≤ upd s.levels s.numNodes (w e)
                ((upd (upd s.parents (s.roots (s.uf.r (ep e).1)) s.numNodes)
                  (s.roots (s.uf.r (ep e).2)) s.numNodes) x)
              rw [hpar, upd_other _ _ _ (by omega : x ≠ s.numNodes),
                upd_other _ _ _ (by omega : s.parents x ≠ s.numNodes)]
              exact hmono x (by omega) hpx'
      · -- levels of live roots below all remaining weights
        intro c hcn hrc e' he'
        have hrc' := (hchar c).mp hrc
        rcases hrc' with ⟨hrcs, hne2⟩
        by_cases hcc : c = s.uf.r (ep e).1
        · show upd s.levels s.numNodes (w e)
            (upd s.roots (s.uf.r (ep e).1) s.numNodes c) ≤ w e'
          rw [hcc, upd_self, upd_self]
          exact le_trans (hhead e' he') (le_refl _)
        · show upd s.levels s.numNodes (w e)
            (upd s.roots (s.uf.r (ep e).1) s.numNodes c) ≤ w e'
          rw [upd_other _ _ _ hcc]
          have hlt := inv.hroots_lt c hcn hrcs
          rw [upd_other _ _ _ (by omega : s.roots c ≠ s.numNodes)]
          exact hr0 c hcn hrcs e' (List.mem_cons_of_mem _ he')
      · exact htl
      · intro e' he'
        exact hmem e' (List.mem_cons_of_mem _ he')

/-- C2 (amended: for non-negative edge weights): on success of
`bpt_canonical` every leaf has altitude 0, every interior node `n + k`
has the altitude `w[mst_edge_map[k]]` of the edge whose fusion created
it, and altitudes never decrease from a node to its parent, hence are
non-decreasing along every root-ward path. -/
theorem C2_altitudes (n m : Nat) (ep : Nat → Nat × Nat) (w : Nat → Int)
    (hval : GraphValid n m ep) (hw : ∀ e, e < m → 0 ≤ w e) (res : BptResult)
    (hres : bptCanonical n m ep w = some res) :
    (∀ v, v < n → res.alt v = 0) ∧
    (∀ k, k < n - 1 → res.alt (n + k) = w (res.mstEdgeMap.getD k 0)) ∧
    (∀ v, v < 2 * n - 1 → res.alt v ≤ res.alt (res.par v)) := by
  rw [bptCanonical_eq] at hres
  by_cases hsucc : (bptScanState n m ep w).found = numEdgeMst n
  · rw [if_pos hsucc] at hres
    have hres' := Option.some.inj hres
    have hconn : Connected n m ep := (bptScan_found_iff n m ep w hval).mp hsucc
    have hfull := bptFull_found n m ep w hval
    have hn : 1 ≤ n := by
      unfold Connected at hconn
      omega
    rw [numEdgeMst_of_pos hn] at hsucc
    have inv := bptScan_kInv n m ep w hval
    have haltA : res.alt = (bptScanState n m ep w).levels := by rw [← hres']
    have hparA : res.par = (bptScanState n m ep w).parents := by rw [← hres']
    have hmapA : res.mstEdgeMap = (bptScanState n m ep w).mstEdgeMap := by rw [← hres']
    refine ⟨?_, ?_, ?_⟩
    · intro v hv
      rw [haltA]
      exact inv.hlev_leaf v hv
    · intro k hk
      rw [haltA, hmapA]
      apply inv.hlev_map
      omega
    · intro v hv
      rcases kruskalScan_split ep w (numEdgeMst n) (sortedEdgeIndices m w) (kInit n)
        (Nat.zero_le _) with ⟨P, R, hPR, heq, _, _⟩
      have hscan : bptScanState n m ep w = List.foldl (kruskalStep ep w) (kInit n) P := heq
      have hPm : ∀ e ∈ P, e < m := by
        intro e he
        apply sortedEdgeIndices_mem_lt
        rw [hPR]
        exact List.mem_append_left _ he
      have hPsorted : P.Pairwise (fun i j => w i ≤ w j) := by
        have hLp := sortedEdgeIndices_pairwise m w
        rw [hPR] at hLp
        exact ((List.pairwise_append.mp hLp).1).imp (fun h => lexLT_weight_le h)
      have hmono := levInv_foldl P (kInit n) (kInv_init n ep w)
        (fun x _ hx => absurd rfl hx)
        (fun c _ _ e he => hw e (hPm e he))
        hPsorted
        (fun e he => hval e (hPm e he))
      have hnn : (bptScanState n m ep w).numNodes = 2 * n - 1 := by
        have h1 := inv.hnum
        omega
      by_cases hpv : res.par v = v
      · rw [hpv]
      · rw [hparA] at hpv
        rw [haltA, hparA]
        rw [hscan] at hpv ⊢
        apply hmono v _ hpv
        rw [← hscan, hnn]
        omega
  · rw [if_neg hsucc] at hres
    exact Option.noConfusion hres

def epNeg : Nat → Nat × Nat := fun _ => (0, 1)

def wNeg : Nat → Int := fun _ => -1

/-- C2 as stated is false: with the connected one-edge graph and the
negative weight `−1`, the leaf 0 of the returned tree has altitude 0 while
its parent (the root, node 2) has altitude `−1`, so altitudes strictly
decrease along the root-ward path from leaf 0. -/
theorem C2_altitudes_counterexample :
    (bptCanonical 2 1 epNeg wNeg).isSome = true ∧
    ((bptCanonical 2 1 epNeg wNeg).getD bptDefault).par 0 = 2 ∧
    ((bptCanonical 2 1 epNeg wNeg).getD bptDefault).alt 0 = 0 ∧
    ((bptCanonical 2 1 epNeg wNeg).getD bptDefault).alt 2 = -1 ∧
    ¬(((bptCanonical 2 1 epNeg wNeg).getD bptDefault).alt 0 ≤
      ((bptCanonical 2 1 epNeg wNeg).getD bptDefault).alt
        (((bptCanonical 2 1 epNeg wNeg).getD bptDefault).par 0)) := by
  decide

theorem C2_altitudes_witness :
    ((bptCanonical 3 3 epEx3 wEx3).getD bptDefault).alt 0 = 0 := by
  have hsome : (bptCanonical 3 3 epEx3 wEx3).isSome = true := by decide
  have hres : bptCanonical 3 3 epEx3 wEx3 =
      some ((bptCanonical 3 3 epEx3 wEx3).getD bptDefault) := by
    cases h : bptCanonical 3 3 epEx3 wEx3 with
    | none => rw [h] at hsome; cases hsome
    | some r => rfl
  exact (C2_altitudes 3 3 epEx3 wEx3 (by decide) (by decide) _ hres).1 0 (by omega)

/-! ## Trees

A tree is a node count and a parent map; the validation performed by the
`tree` constructor (spec §4.4) demands that every non-root node has a
strictly greater parent, which forces the root to be the last node. -/

structure Htree where
  size : Nat
  par : Nat → Nat

def TreeValid (t : Htree) : Prop :=
  0 < t.size ∧ (∀ i, i + 1 < t.size → i < t.par i ∧ t.par i < t.size) ∧
    t.par (t.size - 1) = t.size - 1

theorem par_lt_of_lt {t : Htree} (hv : TreeValid t) {v : Nat} (h : v < t.size) :
    t.par v < t.size := by
  rcases hv with ⟨hpos, hmid, hroot⟩
  by_cases hr : v + 1 < t.size
  · exact (hmid v hr).2
  · have : v = t.size - 1 := by omega
    rw [this, hroot]
    omega

theorem le_par_of_lt {t : Htree} (hv : TreeValid t) {v : Nat} (h : v < t.size) :
    v ≤ t.par v := by
  rcases hv with ⟨hpos, hmid, hroot⟩
  by_cases hr : v + 1 < t.size
  · exact le_of_lt (hmid v hr).1
  · have : v = t.size - 1 := by omega
    rw [this, hroot]

theorem lt_par_of_nonroot {t : Htree} (hv : TreeValid t) {v : Nat} (h : v + 1 < t.size) :
    v < t.par v := (hv.2.1 v h).1

/-- Iterated parent. -/
def parIter (t : Htree) : Nat → Nat → Nat
  | 0, v => v
  | k + 1, v => parIter t k (t.par v)

theorem parIter_add (t : Htree) (a b v : Nat) :
    parIter t (a + b) v = parIter t a (parIter t b v) := by
  induction b generalizing v with
  | zero => rfl
  | succ b ih =>
    rw [show a + (b + 1) = (a + b) + 1 by omega]
    show parIter t (a + b) (t.par v) = parIter t a (parIter t b (t.par v))
    exact ih (t.par v)

theorem parIter_lt {t : Htree} (hv : TreeValid t) :
    ∀ (k v : Nat), v < t.size → parIter t k v < t.size := by
  intro k
  induction k with
  | zero => intro v h; exact h
  | succ k ih =>
    intro v h
    exact ih (t.par v) (par_lt_of_lt hv h)

theorem le_parIter {t : Htree} (hv : TreeValid t) :
    ∀ (k v : Nat), v < t.size → v ≤ parIter t k v := by
  intro k
  induction k with
  | zero => intro v _; exact le_refl v
  | succ k ih =>
    intro v h
    exact le_trans (le_par_of_lt hv h) (ih (t.par v) (par_lt_of_lt hv h))

theorem parIter_root_fix {t : Htree} (hv : TreeValid t) :
    ∀ (k : Nat), parIter t k (t.size - 1) = t.size - 1 := by
  intro k
  induction k with
  | zero => rfl
  | succ k ih =>
    show parIter t k (t.par (t.size - 1)) = _
    rw [hv.2.2]
    exact ih

theorem parIter_reaches_root {t : Htree} (hv : TreeValid t) :
    ∀ (k v : Nat), v < t.size → t.size - 1 - v ≤ k → parIter t k v = t.size - 1 := by
  intro k
  induction k with
  | zero =>
    intro v h hk
    have : v = t.size - 1 := by omega
    rw [this]
    rfl
  | succ k ih =>
    intro v h hk
    by_cases hr : v = t.size - 1
    · rw [hr]
      exact parIter_root_fix hv (k + 1)
    · show parIter t k (t.par v) = t.size - 1
      have h1 : v + 1 < t.size := by omega
      have h2 := lt_par_of_nonroot hv h1
      exact ih (t.par v) (par_lt_of_lt hv h) (by omega)

/-- `a` is an ancestor of `v` (including `v` itself). -/
def isAnc (t : Htree) (a v : Nat) : Prop := ∃ k, parIter t k v = a

/-- Executable ancestor test (enough iterations always reach the root). -/
def ancB (t : Htree) (a v : Nat) : Bool :=
  (List.range (t.size + 1)).any (fun k => parIter t k v == a)

theorem isAnc_refl (t : Htree) (v : Nat) : isAnc t v v := ⟨0, rfl⟩

theorem isAnc_trans {t : Htree} {a b c : Nat} (h1 : isAnc t a b) (h2 : isAnc t b c) :
    isAnc t a c := by
  rcases h1 with ⟨k, hk⟩
  rcases h2 with ⟨l, hl⟩
  exact ⟨k + l, by rw [parIter_add, hl, hk]⟩

theorem isAnc_le {t : Htree} (hv : TreeValid t) {a v : Nat} (h : isAnc t a v)
    (hvs : v < t.size) : v ≤ a := by
  rcases h with ⟨k, hk⟩
  rw [← hk]
  exact le_parIter hv k v hvs

theorem isAnc_lt_size {t : Htree} (hv : TreeValid t) {a v : Nat} (h : isAnc t a v)
    (hvs : v < t.size) : a < t.size := by
  rcases h with ⟨k, hk⟩
  rw [← hk]
  exact parIter_lt hv k v hvs

theorem isAnc_root {t : Htree} (hv : TreeValid t) {v : Nat} (hvs : v < t.size) :
    isAnc t (t.size - 1) v :=
  ⟨t.size, parIter_reaches_root hv t.size v hvs (by omega)⟩

theorem isAnc_chain {t : Htree} {a b x : Nat} (h1 : isAnc t a x) (h2 : isAnc t b x) :
    isAnc t a b ∨ isAnc t b a := by
  rcases h1 with ⟨k, hk⟩
  rcases h2 with ⟨l, hl⟩
  by_cases hkl : k ≤ l
  · right
    refine ⟨l - k, ?_⟩
    rw [← hk, ← parIter_add]
    rw [show l - k + k = l by omega]
    exact hl
  · left
    refine ⟨k - l, ?_⟩
    rw [← hl, ← parIter_add]
    rw [show k - l + l = k by omega]
    exact hk

theorem isAnc_par {t : Htree} {a v : Nat} (h : isAnc t a v) (hne : a ≠ v) :
    isAnc t a (t.par v) := by
  rcases h with ⟨k, hk⟩
  cases k with
  | zero =>
    have h0 : v = a := hk
    exact absurd h0.symm hne
  | succ k => exact ⟨k, hk⟩

theorem isAnc_iff_ancB {t : Htree} (hv : TreeValid t) {a v : Nat} (hvs : v < t.size) :
    isAnc t a v ↔ ancB t a v = true := by
  constructor
  · rintro ⟨k, hk⟩
    unfold ancB
    rw [List.any_eq_true]
    by_cases hks : k ≤ t.size
    · exact ⟨k, List.mem_range.mpr (by omega), by rw [hk]; exact beq_self_eq_true a⟩
    · refine ⟨t.size, List.mem_range.mpr (by omega), ?_⟩
      have h1 : parIter t t.size v = t.size - 1 :=
        parIter_reaches_root hv t.size v hvs (by omega)
      have h2 : parIter t k v = t.size - 1 := by
        rw [show k = (k - t.size) + t.size by omega, parIter_add, h1]
        exact parIter_root_fix hv _
      rw [h1, ← h2, hk]
      exact beq_self_eq_true a
  · intro h
    unfold ancB at h
    rw [List.any_eq_true] at h
    rcases h with ⟨k, _, hk⟩
    exact ⟨k, eq_of_beq hk⟩

/-- Least index satisfying a predicate below a bound. -/
def firstSuch (p : Nat → Bool) : Nat → Option Nat
  | 0 => none
  | k + 1 =>
    match firstSuch p k with
    | some r => some r
    | none => if p k then some k else none

theorem firstSuch_none {p : Nat → Bool} :
    ∀ {k : Nat}, firstSuch p k = none → ∀ j, j < k → p j = false := by
  intro k
  induction k with
  | zero => intro _ j hj; cases hj
  | succ k ih =>
    intro h j hj
    unfold firstSuch at h
    cases hfk : firstSuch p k with
    | some r => rw [hfk] at h; cases h
    | none =>
      rw [hfk] at h
      by_cases hp : p k = true
      · rw [if_pos hp] at h; cases h
      · by_cases hjk : j < k
        · exact ih hfk j hjk
        · have : j = k := by omega
          rw [this]
          exact Bool.not_eq_true _ ▸ (by simpa using hp)

theorem firstSuch_some {p : Nat → Bool} :
    ∀ {k r : Nat}, firstSuch p k = some r →
      p r = true ∧ r < k ∧ ∀ j, j < r → p j = false := by
  intro k
  induction k with
  | zero => intro r h; cases h
  | succ k ih =>
    intro r h
    unfold firstSuch at h
    cases hfk : firstSuch p k with
    | some r' =>
      rw [hfk] at h
      have : r' = r := Option.some.inj h
      rw [← this]
      rcases ih hfk with ⟨ha, hb, hc⟩
      exact ⟨ha, by omega, hc⟩
    | none =>
      rw [hfk] at h
      by_cases hp : p k = true
      · rw [if_pos hp] at h
        have : k = r := Option.some.inj h
        rw [← this]
        exact ⟨hp, by omega, firstSuch_none hfk⟩
      · rw [if_neg hp] at h
        cases h

/-- Modelled from the spec: the LCA index (`lca_fast`, spec §4.5 and
glossary) — the lowest common ancestor of two nodes.  Since parents have
strictly greater indices, the lowest common ancestor is the common
ancestor of least index, found by a bounded search. -/
def lca (t : Htree) (x y : Nat) : Nat :=
  (firstSuch (fun z => ancB t z x && ancB t z y) t.size).getD (t.size - 1)

theorem lca_spec {t : Htree} (hv : TreeValid t) {x y : Nat}
    (hx : x < t.size) (hy : y < t.size) :
    isAnc t (lca t x y) x ∧ isAnc t (lca t x y) y ∧
      ∀ z, isAnc t z x → isAnc t z y → lca t x y ≤ z := by
  have hroot : (ancB t (t.size - 1) x && ancB t (t.size - 1) y) = true := by
    have h1 := (isAnc_iff_ancB hv hx).mp (isAnc_root hv hx)
    have h2 := (isAnc_iff_ancB hv hy).mp (isAnc_root hv hy)
    rw [h1, h2]
    rfl
  cases hfs : firstSuch (fun z => ancB t z x && ancB t z y) t.size with
  | none =>
    exfalso
    have h0 : (fun z => ancB t z x && ancB t z y) (t.size - 1) = false :=
      firstSuch_none hfs (t.size - 1) (by omega)
    have h0' : (ancB t (t.size - 1) x && ancB t (t.size - 1) y) = false := h0
    exact absurd (hroot.symm.trans h0') (by decide)
  | some r =>
    rcases firstSuch_some hfs with ⟨hp, hrk, hmin⟩
    have hp' : (ancB t r x && ancB t r y) = true := hp
    rw [Bool.and_eq_true] at hp'
    have hlca : lca t x y = r := by
      unfold lca
      rw [hfs]
      rfl
    refine ⟨?_, ?_, ?_⟩
    · rw [hlca]
      exact (isAnc_iff_ancB hv hx).mpr hp'.1
    · rw [hlca]
      exact (isAnc_iff_ancB hv hy).mpr hp'.2
    · intro z hzx hzy
      rw [hlca]
      by_contra hlt
      push_neg at hlt
      have hz : (fun z => ancB t z x && ancB t z y) z = false := hmin z hlt
      have hz' : (ancB t z x && ancB t z y) = false := hz
      rw [(isAnc_iff_ancB hv hx).mp hzx, (isAnc_iff_ancB hv hy).mp hzy] at hz'
      exact absurd hz' (by decide)

/-- `saliency_map` (hierarchy_core.hpp, lines 242–250): the weight of edge
`{x, y}` is the altitude of the lowest common ancestor of `x` and `y`. -/
def saliencyMap (m : Nat) (ep : Nat → Nat × Nat) (t : Htree) (alt : Nat → Int) : List Int :=
  (List.range m).map (fun e => alt (lca t (ep e).1 (ep e).2))

theorem getD_map {α β : Type} (f : α → β) (d : β) (d' : α) :
    ∀ (l : List α) (e : Nat), e < l.length → (l.map f).getD e d = f (l.getD e d') := by
  intro l
  induction l with
  | nil => intro e he; cases he
  | cons x tl ih =>
    intro e he
    cases e with
    | zero => rfl
    | succ j =>
      rw [List.map_cons, List.getD_cons_succ, List.getD_cons_succ]
      exact ih j (Nat.lt_of_succ_lt_succ he)

theorem range_getD (m e : Nat) (he : e < m) : (List.range m).getD e 0 = e := by
  rw [List.getD_eq_getElem _ _ (by simpa using he)]
  simp

/-! ### Claim C4 -/

/-- C4: for every graph with `m` edges, every tree over the same leaves
and every altitude vector, `saliency_map` returns a vector of length `m`
whose entry at each edge id `e` is the altitude of the lowest common
ancestor of the two endpoints of `e`. -/
theorem C4_saliency (m : Nat) (ep : Nat → Nat × Nat) (t : Htree) (alt : Nat → Int) :
    (saliencyMap m ep t alt).length = m ∧
    ∀ e, e < m → (saliencyMap m ep t alt).getD e 0 = alt (lca t (ep e).1 (ep e).2) := by
  constructor
  · unfold saliencyMap
    rw [List.length_map, List.length_range]
  · intro e he
    unfold saliencyMap
    rw [getD_map _ _ 0 _ e (by simpa using he), range_getD m e he]

/-- A small chain tree used as a concrete witness for the saliency map. -/
def tEx : Htree := ⟨3, fun v => if v < 2 then 2 else v⟩

theorem C4_saliency_witness :
    (saliencyMap 1 (fun _ => (0, 1)) tEx wEx3).getD 0 0 =
      wEx3 (lca tEx 0 1) := by
  exact (C4_saliency 1 (fun _ => (0, 1)) tEx wEx3).2 0 (by omega)

/-! ## simplify_tree (hierarchy_core.hpp, lines 143–187) -/

/-- A leaf has no children (the root's self-loop is not a child edge). -/
def isLeaf (t : Htree) (v : Nat) : Prop := ∀ u, u < t.size → t.par u = v → u = v

instance (t : Htree) (v : Nat) : Decidable (isLeaf t v) := by
  unfold isLeaf
  infer_instance

def isLeafB (t : Htree) (v : Nat) : Bool := decide (isLeaf t v)

/-- One visit of the first (root-to-leaves) loop at node `i`: leaves are
skipped by the iterator; otherwise the children of a node satisfying the
criterion are re-pointed to its (already spliced) parent, the deletion
count advances, and the running count is recorded in `deleted_map`. -/
def fpVisit (t : Htree) (crit : Nat → Bool) (i : Nat)
    (st : (Nat → Nat) × (Nat → Nat) × Nat) : (Nat → Nat) × (Nat → Nat) × Nat :=
  if isLeafB t i then st
  else if crit i then
    ((fun x => if x < t.size ∧ t.par x = i ∧ x ≠ i then st.1 i else st.1 x),
      upd st.2.1 i (st.2.2 + 1), st.2.2 + 1)
  else (st.1, upd st.2.1 i st.2.2, st.2.2)

/-- First loop, visiting indices `j − 1, j − 2, …, 0` (called with
`j = size − 1` it visits `size − 2` down to `0`, i.e. root-to-leaves with
root and leaves excluded). -/
def fpRun (t : Htree) (crit : Nat → Bool) : Nat → ((Nat → Nat) × (Nat → Nat) × Nat) →
    ((Nat → Nat) × (Nat → Nat) × Nat)
  | 0, st => st
  | j + 1, st => fpRun t crit j (fpVisit t crit j st)

/-- One visit of the second (leaves-to-root) loop at node `i`. -/
def spVisit (t : Htree) (crit : Nat → Bool) (cp dmF : Nat → Nat) (i : Nat)
    (st : (Nat → Nat) × (Nat → Nat) × Nat) : (Nat → Nat) × (Nat → Nat) × Nat :=
  if isLeafB t i || !crit i then
    (upd st.1 st.2.2 (cp i - dmF (cp i)), upd st.2.1 st.2.2 i, st.2.2 + 1)
  else st

/-- Second loop, visiting indices `0, 1, …, j − 1` in order. -/
def spRun (t : Htree) (crit : Nat → Bool) (cp dmF : Nat → Nat) :
    Nat → (Nat → Nat) × (Nat → Nat) × Nat
  | 0 => (fun x => x, fun _ => 0, 0)
  | j + 1 => spVisit t crit cp dmF j (spRun t crit cp dmF j)

/-- `simplify_tree`: the two passes, the `deleted_map = count − deleted_map`
transform, and the final `node_map(last) = root` write. -/
def simplifyTree (t : Htree) (crit : Nat → Bool) : Htree × (Nat → Nat) :=
  let fp := fpRun t crit (t.size - 1) (t.par, fun _ => 0, 0)
  let sp := spRun t crit fp.1 (fun x => fp.2.2 - fp.2.1 x) (t.size - 1)
  (⟨t.size - fp.2.2, sp.1⟩, upd sp.2.1 (t.size - fp.2.2 - 1) (t.size - 1))

/-! ### Characterisation of the two passes -/

/-- A node that the first loop deletes: interior (non-leaf), non-root,
and selected by the criterion. -/
def Dnode (t : Htree) (crit : Nat → Bool) (z : Nat) : Prop :=
  z + 1 < t.size ∧ ¬ isLeaf t z ∧ crit z = true

instance (t : Htree) (crit : Nat → Bool) (z : Nat) : Decidable (Dnode t crit z) := by
  unfold Dnode
  infer_instance

/-- Number of deleted nodes with index below `j`. -/
def cntD (t : Htree) (crit : Nat → Bool) (j : Nat) : Nat :=
  ((List.range j).filter (fun x => decide (Dnode t crit x))).length

/-- Survivor of the second loop: a leaf or an unselected node. -/
def survB (t : Htree) (crit : Nat → Bool) (x : Nat) : Bool := isLeafB t x || !crit x

/-- Number of surviving nodes with index below `j`. -/
def cntS (t : Htree) (crit : Nat → Bool) (j : Nat) : Nat :=
  ((List.range j).filter (survB t crit)).length

/-- Fuel-bounded climb from `z` through deleted nodes of index at least
`j`. -/
def splA (t : Htree) (crit : Nat → Bool) (j : Nat) : Nat → Nat → Nat
  | 0, z => z
  | f + 1, z => if Dnode t crit z ∧ j ≤ z then splA t crit j f (t.par z) else z

/-- The nearest non-deleted ancestor (including itself) of a node. -/
def spl (t : Htree) (crit : Nat → Bool) (z : Nat) : Nat := splA t crit 0 t.size z

theorem cntD_succ (t : Htree) (crit : Nat → Bool) (j : Nat) :
    cntD t crit (j + 1) = cntD t crit j + (if Dnode t crit j then 1 else 0) := by
  unfold cntD
  rw [List.range_succ, List.filter_append, List.length_append]
  by_cases h : Dnode t crit j
  · rw [if_pos h]
    simp [h]
  · rw [if_neg h]
    simp [h]

theorem cntS_succ (t : Htree) (crit : Nat → Bool) (j : Nat) :
    cntS t crit (j + 1) = cntS t crit j + (if survB t crit j = true then 1 else 0) := by
  unfold cntS
  rw [List.range_succ, List.filter_append, List.length_append]
  by_cases h : survB t crit j = true
  · rw [if_pos h]
    simp [h]
  · rw [if_neg h]
    simp [h]

/-- Below the root, a node is deleted iff it does not survive. -/
theorem dnode_iff_not_surv {t : Htree} {crit : Nat → Bool} {x : Nat}
    (hx : x + 1 < t.size) : Dnode t crit x ↔ ¬ (survB t crit x = true) := by
  unfold Dnode survB isLeafB
  rw [Bool.or_eq_true, Bool.not_eq_true']
  constructor
  · rintro ⟨_, hnl, hc⟩ h
    rcases h with h | h
    · exact hnl (of_decide_eq_true h)
    · rw [hc] at h
      cases h
  · intro h
    refine ⟨hx, ?_, ?_⟩
    · intro hl
      exact h (Or.inl (decide_eq_true hl))
    · by_cases hc : crit x = true
      · exact hc
      · exact absurd (Or.inr (by simpa using hc)) h

theorem cntS_add_cntD {t : Htree} {crit : Nat → Bool} :
    ∀ (j : Nat), j ≤ t.size - 1 → cntS t crit j + cntD t crit j = j := by
  intro j
  induction j with
  | zero => intro _; rfl
  | succ j ih =>
    intro hj
    rw [cntS_succ, cntD_succ]
    have hJ : j + 1 < t.size := by
      have : 0 < t.size := by omega
      omega
    have hiff := @dnode_iff_not_surv t crit j hJ
    by_cases h : survB t crit j = true
    · rw [if_pos h, if_neg (fun hd => (hiff.mp hd) h)]
      have := ih (by omega)
      omega
    · rw [if_neg h, if_pos (hiff.mpr h)]
      have := ih (by omega)
      omega

theorem cntD_le (t : Htree) (crit : Nat → Bool) (j : Nat) : cntD t crit j ≤ j := by
  unfold cntD
  calc ((List.range j).filter (fun x => decide (Dnode t crit x))).length
      ≤ (List.range j).length := List.length_filter_le _ _
    _ = j := List.length_range j

theorem cntD_mono (t : Htree) (crit : Nat → Bool) {a b : Nat} (h : a ≤ b) :
    cntD t crit a ≤ cntD t crit b := by
  induction b with
  | zero =>
    have : a = 0 := by omega
    rw [this]
  | succ b ih =>
    by_cases hab : a = b + 1
    · rw [hab]
    · have h2 := ih (by omega)
      rw [cntD_succ]
      omega

theorem cntS_mono (t : Htree) (crit : Nat → Bool) {a b : Nat} (h : a ≤ b) :
    cntS t crit a ≤ cntS t crit b := by
  induction b with
  | zero =>
    have : a = 0 := by omega
    rw [this]
  | succ b ih =>
    by_cases hab : a = b + 1
    · rw [hab]
    · have h2 := ih (by omega)
      rw [cntS_succ]
      by_cases hs : survB t crit b = true
      · rw [if_pos hs]; omega
      · rw [if_neg hs]; omega

theorem cntS_strict {t : Htree} {crit : Nat → Bool} {x : Nat}
    (hx : survB t crit x = true) {b : Nat} (h : x < b) :
    cntS t crit x < cntS t crit b := by
  have h1 : cntS t crit (x + 1) = cntS t crit x + 1 := by
    rw [cntS_succ, if_pos hx]
  have h2 := cntS_mono t crit (show x + 1 ≤ b by omega)
  omega

theorem splA_lt (t : Htree) (crit : Nat → Bool) {j z : Nat} (h : z < j) :
    ∀ f, splA t crit j f z = z := by
  intro f
  cases f with
  | zero => rfl
  | succ f =>
    show (if Dnode t crit z ∧ j ≤ z then splA t crit j f (t.par z) else z) = z
    rw [if_neg (by omega : ¬(Dnode t crit z ∧ j ≤ z))]

theorem splA_gt {t : Htree} (hv : TreeValid t) (crit : Nat → Bool) (j : Nat) :
    ∀ (f z : Nat), j < z → splA t crit j f z = splA t crit (j + 1) f z := by
  intro f
  induction f with
  | zero => intro z _; rfl
  | succ f ih =>
    intro z hz
    show (if Dnode t crit z ∧ j ≤ z then splA t crit j f (t.par z) else z) =
      (if Dnode t crit z ∧ j + 1 ≤ z then splA t crit (j + 1) f (t.par z) else z)
    by_cases hd : Dnode t crit z
    · rw [if_pos ⟨hd, by omega⟩, if_pos ⟨hd, by omega⟩]
      apply ih
      have hlt : z < t.par z := lt_par_of_nonroot hv hd.1
      omega
    · rw [if_neg (fun h => hd h.1), if_neg (fun h => hd h.1)]

theorem splA_nD (t : Htree) (crit : Nat → Bool) {j : Nat} (hnd : ¬ Dnode t crit j) :
    ∀ (f z : Nat), splA t crit j f z = splA t crit (j + 1) f z := by
  intro f
  induction f with
  | zero => intro z; rfl
  | succ f ih =>
    intro z
    show (if Dnode t crit z ∧ j ≤ z then splA t crit j f (t.par z) else z) =
      (if Dnode t crit z ∧ j + 1 ≤ z then splA t crit (j + 1) f (t.par z) else z)
    by_cases hd : Dnode t crit z ∧ j ≤ z
    · have hzj : z ≠ j := fun h => hnd (h ▸ hd.1)
      rw [if_pos hd, if_pos ⟨hd.1, by omega⟩]
      exact ih (t.par z)
    · have : ¬(Dnode t crit z ∧ j + 1 ≤ z) := fun h => hd ⟨h.1, by omega⟩
      rw [if_neg hd, if_neg this]

theorem splA_fuel_mono {t : Htree} (hv : TreeValid t) (crit : Nat → Bool) (j : Nat) :
    ∀ (f z : Nat), z < t.size → t.size - z ≤ f →
      splA t crit j f z = splA t crit j (f + 1) z := by
  intro f
  induction f with
  | zero =>
    intro z hz hf
    exfalso
    omega
  | succ f ih =>
    intro z hz hf
    show (if Dnode t crit z ∧ j ≤ z then splA t crit j f (t.par z) else z) =
      (if Dnode t crit z ∧ j ≤ z then splA t crit j (f + 1) (t.par z) else z)
    by_cases hd : Dnode t crit z ∧ j ≤ z
    · rw [if_pos hd, if_pos hd]
      have hlt : z < t.par z := lt_par_of_nonroot hv hd.1.1
      exact ih (t.par z) (par_lt_of_lt hv hz) (by omega)
    · rw [if_neg hd, if_neg hd]

theorem splA_fuel_add {t : Htree} (hv : TreeValid t) (crit : Nat → Bool) (j : Nat) :
    ∀ (d f z : Nat), z < t.size → t.size - z ≤ f →
      splA t crit j f z = splA t crit j (f + d) z := by
  intro d
  induction d with
  | zero => intro f z _ _; rfl
  | succ d ih =>
    intro f z hz hf
    rw [ih f z hz hf]
    rw [show f + (d + 1) = (f + d) + 1 by omega]
    exact splA_fuel_mono hv crit j (f + d) z hz (by omega)

theorem splA_unfold {t : Htree} (hv : TreeValid t) (crit : Nat → Bool) (j : Nat)
    {z : Nat} (hz : z < t.size) :
    splA t crit j t.size z =
      if Dnode t crit z ∧ j ≤ z then splA t crit j t.size (t.par z) else z := by
  have hpos : 0 < t.size := hv.1
  rcases Nat.exists_eq_add_of_lt hpos with ⟨f, hf⟩
  have hsz : t.size = f + 1 := by omega
  rw [hsz]
  show (if Dnode t crit z ∧ j ≤ z then splA t crit j f (t.par z) else z) = _
  by_cases hd : Dnode t crit z ∧ j ≤ z
  · rw [if_pos hd, if_pos hd]
    have hlt : z < t.par z := lt_par_of_nonroot hv hd.1.1
    have hps : t.par z < t.size := par_lt_of_lt hv hz
    exact splA_fuel_mono hv crit j f (t.par z) (by omega) (by omega)
  · rw [if_neg hd, if_neg hd]

theorem spl_unfold {t : Htree} (hv : TreeValid t) (crit : Nat → Bool)
    {z : Nat} (hz : z < t.size) :
    spl t crit z = if Dnode t crit z then spl t crit (t.par z) else z := by
  unfold spl
  rw [splA_unfold hv crit 0 hz]
  by_cases hd : Dnode t crit z
  · rw [if_pos ⟨hd, Nat.zero_le z⟩, if_pos hd]
  · rw [if_neg (fun h => hd h.1), if_neg hd]

theorem spl_not_D {t : Htree} (hv : TreeValid t) (crit : Nat → Bool) :
    ∀ (f z : Nat), z < t.size → t.size - z ≤ f → ¬ Dnode t crit (spl t crit z) := by
  intro f
  induction f with
  | zero => intro z hz hf; exfalso; omega
  | succ f ih =>
    intro z hz hf
    rw [spl_unfold hv crit hz]
    by_cases hd : Dnode t crit z
    · rw [if_pos hd]
      have hlt : z < t.par z := lt_par_of_nonroot hv hd.1
      exact ih (t.par z) (par_lt_of_lt hv hz) (by omega)
    · rw [if_neg hd]
      exact hd

theorem spl_isAnc {t : Htree} (hv : TreeValid t) (crit : Nat → Bool) :
    ∀ (f z : Nat), z < t.size → t.size - z ≤ f → isAnc t (spl t crit z) z := by
  intro f
  induction f with
  | zero => intro z hz hf; exfalso; omega
  | succ f ih =>
    intro z hz hf
    rw [spl_unfold hv crit hz]
    by_cases hd : Dnode t crit z
    · rw [if_pos hd]
      have hlt : z < t.par z := lt_par_of_nonroot hv hd.1
      refine isAnc_trans (ih (t.par z) (par_lt_of_lt hv hz) (by omega)) ?_
      exact ⟨1, rfl⟩
    · rw [if_neg hd]
      exact isAnc_refl t z

theorem spl_nonleaf {t : Htree} (hv : TreeValid t) (crit : Nat → Bool) :
    ∀ (f z : Nat), z < t.size → t.size - z ≤ f → ¬ isLeaf t z →
      ¬ isLeaf t (spl t crit z) := by
  intro f
  induction f with
  | zero => intro z hz hf; exfalso; omega
  | succ f ih =>
    intro z hz hf hnl
    rw [spl_unfold hv crit hz]
    by_cases hd : Dnode t crit z
    · rw [if_pos hd]
      have hlt : z < t.par z := lt_par_of_nonroot hv hd.1
      apply ih (t.par z) (par_lt_of_lt hv hz) (by omega)
      intro hl
      have := hl z hz rfl
      omega
    · rw [if_neg hd]
      exact hnl

theorem spl_lt_size {t : Htree} (hv : TreeValid t) (crit : Nat → Bool)
    {z : Nat} (hz : z < t.size) : spl t crit z < t.size :=
  isAnc_lt_size hv (spl_isAnc hv crit t.size z hz (by omega)) hz

theorem spl_le {t : Htree} (hv : TreeValid t) (crit : Nat → Bool)
    {z : Nat} (hz : z < t.size) : z ≤ spl t crit z :=
  isAnc_le hv (spl_isAnc hv crit t.size z hz (by omega)) hz

/-- A surviving ancestor is still an ancestor of the climb result. -/
theorem isAnc_spl_of_isAnc {t : Htree} (hv : TreeValid t) (crit : Nat → Bool) :
    ∀ (f z : Nat), z < t.size → t.size - z ≤ f → ∀ (a : Nat), isAnc t a z →
      ¬ Dnode t crit a → isAnc t a (spl t crit z) := by
  intro f
  induction f with
  | zero => intro z hz hf; exfalso; omega
  | succ f ih =>
    intro z hz hf a ha hnd
    rw [spl_unfold hv crit hz]
    by_cases hd : Dnode t crit z
    · rw [if_pos hd]
      have hlt : z < t.par z := lt_par_of_nonroot hv hd.1
      apply ih (t.par z) (par_lt_of_lt hv hz) (by omega) a _ hnd
      apply isAnc_par ha
      intro haz
      rw [haz] at hnd
      exact hnd hd
    · rw [if_neg hd]
      exact ha

/-- Climbing through plateau nodes preserves the altitude. -/
theorem spl_alt {t : Htree} (hv : TreeValid t) (crit : Nat → Bool) (alt : Nat → Int)
    (halt : ∀ y, Dnode t crit y → alt y = alt (t.par y)) :
    ∀ (f z : Nat), z < t.size → t.size - z ≤ f → alt (spl t crit z) = alt z := by
  intro f
  induction f with
  | zero => intro z hz hf; exfalso; omega
  | succ f ih =>
    intro z hz hf
    rw [spl_unfold hv crit hz]
    by_cases hd : Dnode t crit z
    · rw [if_pos hd]
      have hlt : z < t.par z := lt_par_of_nonroot hv hd.1
      rw [ih (t.par z) (par_lt_of_lt hv hz) (by omega)]
      exact (halt z hd).symm
    · rw [if_neg hd]

theorem splA_of_neg {t : Htree} {crit : Nat → Bool} {j z : Nat}
    (h : ¬ (Dnode t crit z ∧ j ≤ z)) : ∀ f, splA t crit j f z = z := by
  intro f
  cases f with
  | zero => rfl
  | succ f =>
    show (if Dnode t crit z ∧ j ≤ z then splA t crit j f (t.par z) else z) = z
    rw [if_neg h]

theorem spl_of_not_D {t : Htree} {crit : Nat → Bool} {z : Nat}
    (h : ¬ Dnode t crit z) : spl t crit z = z :=
  splA_of_neg (fun hh => h hh.1) t.size

/-! ### Invariant of the first (root-to-leaves) loop -/

/-- State of the first loop after all indices `≥ j` have been visited:
the working parents splice through deleted nodes of index `≥ j`, the
counter counts the deletions performed so far, `deleted_map` records at
every visited interior node the number of deletions at or after it, and
unvisited entries are untouched. -/
def FpInv (t : Htree) (crit : Nat → Bool) (j : Nat)
    (st : (Nat → Nat) × (Nat → Nat) × Nat) : Prop :=
  (∀ x, x < t.size → st.1 x = splA t crit j t.size (t.par x)) ∧
  st.2.2 + cntD t crit j = cntD t crit (t.size - 1) ∧
  (∀ i, i + 1 < t.size → ¬ isLeaf t i → j ≤ i →
    st.2.1 i + cntD t crit i = cntD t crit (t.size - 1)) ∧
  (∀ i, i < j ∨ isLeaf t i ∨ t.size - 1 ≤ i → st.2.1 i = 0)

theorem fpVisit_inv {t : Htree} (hv : TreeValid t) {crit : Nat → Bool} {j : Nat}
    (hj : j + 1 ≤ t.size - 1) {st : (Nat → Nat) × (Nat → Nat) × Nat}
    (h : FpInv t crit (j + 1) st) : FpInv t crit j (fpVisit t crit j st) := by
  obtain ⟨h1, h2, h3, h4⟩ := h
  have hjs : j + 1 < t.size := by omega
  unfold fpVisit
  by_cases hl : isLeafB t j
  · rw [if_pos hl]
    have hnd : ¬ Dnode t crit j := fun hd => hd.2.1 (of_decide_eq_true hl)
    refine ⟨?_, ?_, ?_, ?_⟩
    · intro x hx
      rw [h1 x hx, splA_nD t crit hnd]
    · rw [show cntD t crit j = cntD t crit (j + 1) by
        rw [cntD_succ, if_neg hnd]; omega]
      exact h2
    · intro i hi hnli hji
      rcases Nat.eq_or_lt_of_le hji with hij | hij
      · exact absurd (of_decide_eq_true hl) (hij ▸ hnli)
      · exact h3 i hi hnli hij
    · intro i hi
      apply h4
      rcases hi with hi | hi
      · by_cases hij : i = j
        · exact Or.inr (Or.inl (hij ▸ of_decide_eq_true hl))
        · exact Or.inl (by omega)
      · exact Or.inr hi
  · rw [if_neg hl]
    have hnl : ¬ isLeaf t j := fun hh => hl (decide_eq_true hh)
    by_cases hc : crit j
    · rw [if_pos hc]
      have hd : Dnode t crit j := ⟨hjs, hnl, hc⟩
      have hjp : j < t.par j := lt_par_of_nonroot hv hjs
      refine ⟨?_, ?_, ?_, ?_⟩
      · intro x hx
        by_cases hcase : x < t.size ∧ t.par x = j ∧ x ≠ j
        · show (if x < t.size ∧ t.par x = j ∧ x ≠ j then st.1 j else st.1 x) = _
          rw [if_pos hcase, h1 j (by omega), hcase.2.1,
            splA_unfold hv crit j (show j < t.size by omega),
            if_pos ⟨hd, Nat.le_refl j⟩]
          exact (splA_gt hv crit j t.size (t.par j) hjp).symm
        · show (if x < t.size ∧ t.par x = j ∧ x ≠ j then st.1 j else st.1 x) = _
          rw [if_neg hcase, h1 x hx]
          rcases Nat.lt_trichotomy (t.par x) j with hpx | hpx | hpx
          · rw [splA_lt t crit hpx, splA_lt t crit (by omega)]
          · have hxj : x = j := by
              rcases not_and_or.mp hcase with hcc | hcc
              · exact absurd hx hcc
              rcases not_and_or.mp hcc with hcc' | hcc'
              · exact absurd hpx hcc'
              · exact Decidable.of_not_not hcc'
            rw [hpx]
            rw [hxj] at hpx
            omega
          · exact (splA_gt hv crit j t.size (t.par x) hpx).symm
      · show st.2.2 + 1 + cntD t crit j = cntD t crit (t.size - 1)
        have : cntD t crit (j + 1) = cntD t crit j + 1 := by
          rw [cntD_succ, if_pos hd]
        omega
      · intro i hi hnli hji
        rcases Nat.eq_or_lt_of_le hji with hij | hij
        · show upd st.2.1 j (st.2.2 + 1) i + cntD t crit i = _
          rw [← hij, upd_self]
          have : cntD t crit (j + 1) = cntD t crit j + 1 := by
            rw [cntD_succ, if_pos hd]
          rw [← hij] at *
          omega
        · show upd st.2.1 j (st.2.2 + 1) i + cntD t crit i = _
          rw [upd_other _ _ _ (by omega : i ≠ j)]
          exact h3 i hi hnli hij
      · intro i hi
        show upd st.2.1 j (st.2.2 + 1) i = 0
        have hij : i ≠ j := by
          rintro rfl
          rcases hi with hi | hi | hi
          · omega
          · exact hnl hi
          · omega
        rw [upd_other _ _ _ hij]
        apply h4
        rcases hi with hi | hi
        · exact Or.inl (by omega)
        · exact Or.inr hi
    · rw [if_neg hc]
      have hnd : ¬ Dnode t crit j := fun hdd => hc hdd.2.2
      refine ⟨?_, ?_, ?_, ?_⟩
      · intro x hx
        show st.1 x = _
        rw [h1 x hx, splA_nD t crit hnd]
      · show st.2.2 + cntD t crit j = _
        rw [show cntD t crit j = cntD t crit (j + 1) by
          rw [cntD_succ, if_neg hnd]; omega]
        exact h2
      · intro i hi hnli hji
        rcases Nat.eq_or_lt_of_le hji with hij | hij
        · show upd st.2.1 j st.2.2 i + cntD t crit i = _
          rw [← hij, upd_self]
          have : cntD t crit (j + 1) = cntD t crit j := by
            rw [cntD_succ, if_neg hnd]; omega
          rw [← hij] at *
          omega
        · show upd st.2.1 j st.2.2 i + cntD t crit i = _
          rw [upd_other _ _ _ (by omega : i ≠ j)]
          exact h3 i hi hnli hij
      · intro i hi
        show upd st.2.1 j st.2.2 i = 0
        have hij : i ≠ j := by
          rintro rfl
          rcases hi with hi | hi | hi
          · omega
          · exact hnl hi
          · omega
        rw [upd_other _ _ _ hij]
        apply h4
        rcases hi with hi | hi
        · exact Or.inl (by omega)
        · exact Or.inr hi

theorem fpRun_inv {t : Htree} (hv : TreeValid t) {crit : Nat → Bool} :
    ∀ (j : Nat) (st : (Nat → Nat) × (Nat → Nat) × Nat), j ≤ t.size - 1 →
      FpInv t crit j st → FpInv t crit 0 (fpRun t crit j st) := by
  intro j
  induction j with
  | zero => intro st _ h; exact h
  | succ j ih =>
    intro st hj h
    show FpInv t crit 0 (fpRun t crit j (fpVisit t crit j st))
    exact ih (fpVisit t crit j st) (by omega) (fpVisit_inv hv hj h)

/-- The outcome of the first loop of `simplify_tree`. -/
theorem fpRun_spec {t : Htree} (hv : TreeValid t) (crit : Nat → Bool) :
    FpInv t crit 0 (fpRun t crit (t.size - 1) (t.par, fun _ => 0, 0)) := by
  apply fpRun_inv hv (t.size - 1) _ (Nat.le_refl _)
  refine ⟨?_, ?_, ?_, ?_⟩
  · intro x hx
    show t.par x = _
    by_cases hpx : t.par x < t.size - 1
    · rw [splA_lt t crit hpx]
    · rw [splA_of_neg (fun hh => by have := hh.1.1; omega)]
  · show 0 + cntD t crit (t.size - 1) = cntD t crit (t.size - 1)
    omega
  · intro i hi _ hji
    omega
  · intro _ _
    rfl

/-- Unpacked consequences of the first loop: spliced parents, the total
deletion count, and the corrected mapping `count − deleted_map`. -/
theorem fpRun_out {t : Htree} (hv : TreeValid t) (crit : Nat → Bool) :
    (∀ x, x < t.size →
      (fpRun t crit (t.size - 1) (t.par, fun _ => 0, 0)).1 x = spl t crit (t.par x)) ∧
    (fpRun t crit (t.size - 1) (t.par, fun _ => 0, 0)).2.2 = cntD t crit (t.size - 1) ∧
    (∀ i, i < t.size → ¬ isLeaf t i →
      (fpRun t crit (t.size - 1) (t.par, fun _ => 0, 0)).2.2 -
        (fpRun t crit (t.size - 1) (t.par, fun _ => 0, 0)).2.1 i = cntD t crit i) := by
  obtain ⟨h1, h2, h3, h4⟩ := fpRun_spec hv crit
  have hcnt : (fpRun t crit (t.size - 1) (t.par, fun _ => 0, 0)).2.2 =
      cntD t crit (t.size - 1) := by
    have : cntD t crit 0 = 0 := rfl
    omega
  refine ⟨?_, hcnt, ?_⟩
  · intro x hx
    rw [h1 x hx]
    rfl
  · intro i hi hnl
    by_cases hroot : i + 1 < t.size
    · have := h3 i hroot hnl (Nat.zero_le i)
      omega
    · have hieq : i = t.size - 1 := by omega
      have h0 : (fpRun t crit (t.size - 1) (t.par, fun _ => 0, 0)).2.1 i = 0 :=
        h4 i (Or.inr (Or.inr (by omega)))
      rw [h0, hcnt, hieq]
      omega

/-! ### Invariant of the second (leaves-to-root) loop -/

/-- State of the second loop after indices `< j` have been visited:
the counter equals the number of survivors so far, every survivor `x`
has been recorded at its rank `cntS x`, and entries at or beyond the
counter are untouched. -/
def SpInv (t : Htree) (crit : Nat → Bool) (cp dmF : Nat → Nat) (j : Nat)
    (st : (Nat → Nat) × (Nat → Nat) × Nat) : Prop :=
  st.2.2 = cntS t crit j ∧
  (∀ x, x < j → survB t crit x = true →
    st.2.1 (cntS t crit x) = x ∧ st.1 (cntS t crit x) = cp x - dmF (cp x)) ∧
  (∀ k, cntS t crit j ≤ k → st.1 k = k ∧ st.2.1 k = 0)

theorem spRun_inv (t : Htree) (crit : Nat → Bool) (cp dmF : Nat → Nat) :
    ∀ (j : Nat), SpInv t crit cp dmF j (spRun t crit cp dmF j) := by
  intro j
  induction j with
  | zero =>
    refine ⟨rfl, ?_, ?_⟩
    · intro x hx
      omega
    · intro k _
      exact ⟨rfl, rfl⟩
  | succ j ih =>
    obtain ⟨h1, h2, h3⟩ := ih
    show SpInv t crit cp dmF (j + 1) (spVisit t crit cp dmF j (spRun t crit cp dmF j))
    unfold spVisit
    by_cases hs : survB t crit j = true
    · rw [show (isLeafB t j || !crit j) = true from hs]
      have hcnt : cntS t crit (j + 1) = cntS t crit j + 1 := by
        rw [cntS_succ, if_pos hs]
      refine ⟨?_, ?_, ?_⟩
      · show (spRun t crit cp dmF j).2.2 + 1 = _
        omega
      · intro x hx hsx
        by_cases hxj : x < j
        · have hlt : cntS t crit x < cntS t crit j := cntS_strict hsx hxj
          have hne : cntS t crit x ≠ (spRun t crit cp dmF j).2.2 := by omega
          constructor
          · show upd (spRun t crit cp dmF j).2.1 (spRun t crit cp dmF j).2.2 j
              (cntS t crit x) = x
            rw [upd_other _ _ _ hne]
            exact (h2 x hxj hsx).1
          · show upd (spRun t crit cp dmF j).1 (spRun t crit cp dmF j).2.2
              (cp j - dmF (cp j)) (cntS t crit x) = _
            rw [upd_other _ _ _ hne]
            exact (h2 x hxj hsx).2
        · have hxe : x = j := by omega
          have hce : cntS t crit x = (spRun t crit cp dmF j).2.2 := by
            rw [hxe]
            exact h1.symm
          constructor
          · show upd (spRun t crit cp dmF j).2.1 (spRun t crit cp dmF j).2.2 j
              (cntS t crit x) = x
            rw [hce, upd_self, hxe]
          · show upd (spRun t crit cp dmF j).1 (spRun t crit cp dmF j).2.2
              (cp j - dmF (cp j)) (cntS t crit x) = cp x - dmF (cp x)
            rw [hce, upd_self, hxe]
      · intro k hk
        have hne : k ≠ (spRun t crit cp dmF j).2.2 := by omega
        constructor
        · show upd (spRun t crit cp dmF j).1 (spRun t crit cp dmF j).2.2
            (cp j - dmF (cp j)) k = k
          rw [upd_other _ _ _ hne]
          exact (h3 k (by omega)).1
        · show upd (spRun t crit cp dmF j).2.1 (spRun t crit cp dmF j).2.2 j k = 0
          rw [upd_other _ _ _ hne]
          exact (h3 k (by omega)).2
    · rw [show (isLeafB t j || !crit j) = false from Bool.not_eq_true _ ▸ (by
        simpa [survB] using hs)]
      have hcnt : cntS t crit (j + 1) = cntS t crit j := by
        rw [cntS_succ, if_neg hs]
        omega
      refine ⟨by rw [hcnt]; exact h1, ?_, ?_⟩
      · intro x hx hsx
        have hxj : x < j := by
          rcases Nat.lt_or_ge x j with h | h
          · exact h
          · have hxe : x = j := by omega
            rw [hxe] at hsx
            exact absurd hsx hs
        exact h2 x hxj hsx
      · intro k hk
        exact h3 k (by omega)

/-! ### Average linkage (part_000, lines 504–540) -/

/-- A `new_neighbour` descriptor (part_000, lines 130–231): the
neighbouring vertex, the edge of the first merged region, and the edge of
the second merged region (`invalid_index`, i.e. absent, when only one of
the merged regions is adjacent); `num_edges()` is 2 exactly when the
second edge exists and `new_edge_index()` is the first edge's index. -/
structure NewNeighbour where
  nbVertex : Nat
  edge1 : Nat
  edge2 : Option Nat

/-- Body of the `binary_partition_tree_average_linkage::operator()` loop
for one descriptor: returns the updated `m_values`, the updated
`m_weights`, and the value assigned to `new_edge_weight()`. -/
def avgVisit (vals wts : Nat → ℚ) (nb : NewNeighbour) :
    (Nat → ℚ) × (Nat → ℚ) × ℚ :=
  match nb.edge2 with
  | some e2 =>
    (upd vals nb.edge1
        ((vals nb.edge1 * wts nb.edge1 + vals e2 * wts e2) /
          (wts nb.edge1 + wts e2)),
      upd wts nb.edge1 (wts nb.edge1 + wts e2),
      (vals nb.edge1 * wts nb.edge1 + vals e2 * wts e2) /
        (wts nb.edge1 + wts e2))
  | none =>
    (upd vals nb.edge1 (vals nb.edge1), upd wts nb.edge1 (wts nb.edge1),
      vals nb.edge1)

/-- The full `operator()`: visit every descriptor in order, threading the
value and weight arrays, and collect the `new_edge_weight()` outputs. -/
def avgLinkage (vals wts : Nat → ℚ) :
    List NewNeighbour → ((Nat → ℚ) × (Nat → ℚ)) × List ℚ
  | [] => ((vals, wts), [])
  | nb :: rest =>
    (((avgLinkage (avgVisit vals wts nb).1 (avgVisit vals wts nb).2.1 rest).1),
      (avgVisit vals wts nb).2.2 ::
        (avgLinkage (avgVisit vals wts nb).1 (avgVisit vals wts nb).2.1 rest).2)

theorem cntS_surj (t : Htree) (crit : Nat → Bool) :
    ∀ (j k : Nat), k < cntS t crit j →
      ∃ x, x < j ∧ survB t crit x = true ∧ cntS t crit x = k := by
  intro j
  induction j with
  | zero => intro k hk; exact absurd hk (by simp [cntS])
  | succ j ih =>
    intro k hk
    rw [cntS_succ] at hk
    by_cases hs : survB t crit j = true
    · rw [if_pos hs] at hk
      by_cases hkj : k < cntS t crit j
      · rcases ih k hkj with ⟨x, hx1, hx2, hx3⟩
        exact ⟨x, by omega, hx2, hx3⟩
      · exact ⟨j, by omega, hs, by omega⟩
    · rw [if_neg hs] at hk
      rcases ih k (by omega) with ⟨x, hx1, hx2, hx3⟩
      exact ⟨x, by omega, hx2, hx3⟩

/-! ### Characterisation of `simplify_tree` -/

/-- The state after the first loop of `simplify_tree`. -/
def fpSt (t : Htree) (crit : Nat → Bool) : (Nat → Nat) × (Nat → Nat) × Nat :=
  fpRun t crit (t.size - 1) (t.par, fun _ => 0, 0)

/-- The corrected mapping `deleted_map = count − deleted_map`. -/
def dmFin (t : Htree) (crit : Nat → Bool) : Nat → Nat :=
  fun x => (fpSt t crit).2.2 - (fpSt t crit).2.1 x

/-- The state after the second loop of `simplify_tree`. -/
def spSt (t : Htree) (crit : Nat → Bool) : (Nat → Nat) × (Nat → Nat) × Nat :=
  spRun t crit (fpSt t crit).1 (dmFin t crit) (t.size - 1)

theorem fpSt_out {t : Htree} (hv : TreeValid t) (crit : Nat → Bool) :
    (∀ x, x < t.size → (fpSt t crit).1 x = spl t crit (t.par x)) ∧
    (fpSt t crit).2.2 = cntD t crit (t.size - 1) ∧
    (∀ i, i < t.size → ¬ isLeaf t i → dmFin t crit i = cntD t crit i) :=
  fpRun_out hv crit

theorem spSt_inv (t : Htree) (crit : Nat → Bool) :
    SpInv t crit (fpSt t crit).1 (dmFin t crit) (t.size - 1) (spSt t crit) :=
  spRun_inv t crit (fpSt t crit).1 (dmFin t crit) (t.size - 1)

/-- The full characterisation of `simplify_tree`: the output size, the
parent and node map of every surviving non-root node at its survivor
rank, and the root's parent and node-map entries. -/
theorem simplify_facts {t : Htree} (hv : TreeValid t) (crit : Nat → Bool) :
    (simplifyTree t crit).1.size = t.size - cntD t crit (t.size - 1) ∧
    (∀ x, x + 1 < t.size → survB t crit x = true →
      (simplifyTree t crit).1.par (cntS t crit x) =
        cntS t crit (spl t crit (t.par x)) ∧
      (simplifyTree t crit).2 (cntS t crit x) = x) ∧
    (simplifyTree t crit).1.par ((simplifyTree t crit).1.size - 1) =
      (simplifyTree t crit).1.size - 1 ∧
    (simplifyTree t crit).2 ((simplifyTree t crit).1.size - 1) = t.size - 1 := by
  obtain ⟨g1, g2, g3⟩ := fpSt_out hv crit
  obtain ⟨s1, s2, s3⟩ := spSt_inv t crit
  have hcd : cntS t crit (t.size - 1) + cntD t crit (t.size - 1) = t.size - 1 :=
    cntS_add_cntD (t.size - 1) (Nat.le_refl _)
  refine ⟨?_, ?_, ?_, ?_⟩
  · show t.size - (fpSt t crit).2.2 = t.size - cntD t crit (t.size - 1)
    rw [g2]
  · intro x hx hs
    have hxs : x < t.size := by omega
    have hxp : x < t.par x := lt_par_of_nonroot hv hx
    have hps : t.par x < t.size := par_lt_of_lt hv hxs
    have hnlp : ¬ isLeaf t (t.par x) := by
      intro hl
      have := hl x hxs rfl
      omega
    have hsl : spl t crit (t.par x) < t.size := spl_lt_size hv crit hps
    have hsnl : ¬ isLeaf t (spl t crit (t.par x)) :=
      spl_nonleaf hv crit t.size (t.par x) hps (by omega) hnlp
    have hrank : cntS t crit x < cntS t crit (t.size - 1) :=
      cntS_strict hs (by omega)
    constructor
    · show (spSt t crit).1 (cntS t crit x) = cntS t crit (spl t crit (t.par x))
      rw [(s2 x (by omega) hs).2, g1 x hxs, g3 (spl t crit (t.par x)) hsl hsnl]
      have hsum : cntS t crit (spl t crit (t.par x)) +
          cntD t crit (spl t crit (t.par x)) = spl t crit (t.par x) :=
        cntS_add_cntD (spl t crit (t.par x)) (by omega)
      omega
    · show upd (spSt t crit).2.1 (t.size - (fpSt t crit).2.2 - 1) (t.size - 1)
        (cntS t crit x) = x
      have hne : cntS t crit x ≠ t.size - (fpSt t crit).2.2 - 1 := by
        rw [g2]
        omega
      rw [upd_other _ _ _ hne]
      exact (s2 x (by omega) hs).1
  · show (spSt t crit).1 (t.size - (fpSt t crit).2.2 - 1) =
      t.size - (fpSt t crit).2.2 - 1
    refine (s3 _ ?_).1
    rw [g2]
    omega
  · show upd (spSt t crit).2.1 (t.size - (fpSt t crit).2.2 - 1) (t.size - 1)
      (t.size - (fpSt t crit).2.2 - 1) = t.size - 1
    exact upd_self _ _ _

/-- Validity of the simplified tree. -/
theorem simplify_valid {t : Htree} (hv : TreeValid t) (crit : Nat → Bool) :
    TreeValid (simplifyTree t crit).1 := by
  obtain ⟨fA, fB, fC, fD⟩ := simplify_facts hv crit
  have hDle : cntD t crit (t.size - 1) ≤ t.size - 1 := cntD_le t crit (t.size - 1)
  have hpos : 0 < t.size := hv.1
  have hcd : cntS t crit (t.size - 1) + cntD t crit (t.size - 1) = t.size - 1 :=
    cntS_add_cntD (t.size - 1) (Nat.le_refl _)
  have hsz : (simplifyTree t crit).1.size = t.size - cntD t crit (t.size - 1) := fA
  refine ⟨by omega, ?_, ?_⟩
  · intro i hi
    have hir : i < cntS t crit (t.size - 1) := by omega
    obtain ⟨x, hx1, hx2, hx3⟩ := cntS_surj t crit (t.size - 1) i hir
    have hx1' : x + 1 < t.size := by omega
    have hxp : x < t.par x := lt_par_of_nonroot hv hx1'
    have hps : t.par x < t.size := par_lt_of_lt hv (by omega)
    have hsple : t.par x ≤ spl t crit (t.par x) := spl_le hv crit hps
    have hsl : spl t crit (t.par x) < t.size := spl_lt_size hv crit hps
    obtain ⟨hbp, _⟩ := fB x hx1' hx2
    rw [← hx3, hbp]
    constructor
    · exact cntS_strict hx2 (by omega)
    · have := cntS_mono t crit (show spl t crit (t.par x) ≤ t.size - 1 by omega)
      omega
  · exact fC

/-- Number of leaves of `t` below the root. -/
def numLeavesBelow (t : Htree) : Nat :=
  ((List.range (t.size - 1)).filter (isLeafB t)).length

/-- Executable check of `TreeValid`. -/
def treeValidB (t : Htree) : Bool :=
  decide (0 < t.size) &&
    ((List.range t.size).all fun i =>
      decide (i + 1 < t.size → i < t.par i ∧ t.par i < t.size)) &&
    decide (t.par (t.size - 1) = t.size - 1)

theorem treeValid_of_B {t : Htree} (h : treeValidB t = true) : TreeValid t := by
  unfold treeValidB at h
  rw [Bool.and_eq_true, Bool.and_eq_true] at h
  obtain ⟨⟨h1, h2⟩, h3⟩ := h
  refine ⟨of_decide_eq_true h1, ?_, of_decide_eq_true h3⟩
  intro i hi
  rw [List.all_eq_true] at h2
  have hm : i ∈ List.range t.size := List.mem_range.mpr (by omega)
  exact of_decide_eq_true (h2 i hm) hi

/-- C6: with a criterion false on every interior node, `simplify_tree`
returns the identity (same size, same parents, identity node map); with a
criterion true on every non-root interior node, it returns a tree whose
nodes are the leaves of `t` followed by a single root: every non-root
node is a leaf of `t` attached directly to the root. -/
theorem C6_simplify (t : Htree) (hv : TreeValid t) (crit : Nat → Bool) :
    ((∀ v, v < t.size → ¬ isLeaf t v → crit v = false) →
      (simplifyTree t crit).1.size = t.size ∧
      (∀ v, v < t.size → (simplifyTree t crit).1.par v = t.par v) ∧
      (∀ v, v < t.size → (simplifyTree t crit).2 v = v)) ∧
    ((∀ v, v + 1 < t.size → ¬ isLeaf t v → crit v = true) →
      (simplifyTree t crit).1.size = numLeavesBelow t + 1 ∧
      (∀ k, k < numLeavesBelow t →
        (simplifyTree t crit).1.par k = numLeavesBelow t ∧
        isLeaf t ((simplifyTree t crit).2 k) ∧
        (simplifyTree t crit).2 k < t.size) ∧
      (simplifyTree t crit).1.par (numLeavesBelow t) = numLeavesBelow t ∧
      (simplifyTree t crit).2 (numLeavesBelow t) = t.size - 1) := by
  constructor
  · intro hcrit
    have hD : ∀ z, ¬ Dnode t crit z := by
      rintro z ⟨h1, h2, h3⟩
      rw [hcrit z (by omega) h2] at h3
      cases h3
    have hcntD : ∀ j, cntD t crit j = 0 := by
      intro j
      induction j with
      | zero => rfl
      | succ j ih => rw [cntD_succ, if_neg (hD j), ih]
    have hsurv : ∀ x, x + 1 < t.size → survB t crit x = true := by
      intro x hx
      by_contra hns
      exact hD x ((dnode_iff_not_surv hx).mpr hns)
    have hcntS : ∀ x, x ≤ t.size - 1 → cntS t crit x = x := by
      intro x hx
      have h1 : cntS t crit x + cntD t crit x = x := cntS_add_cntD x hx
      have h2 := hcntD x
      omega
    obtain ⟨fA, fB, fC, fD⟩ := simplify_facts hv crit
    have hsize : (simplifyTree t crit).1.size = t.size := by
      rw [fA, hcntD]
      omega
    rw [hsize] at fC fD
    refine ⟨hsize, ?_, ?_⟩
    · intro v hvs
      by_cases hvr : v + 1 < t.size
      · have hb := (fB v hvr (hsurv v hvr)).1
        rw [hcntS v (by omega)] at hb
        rw [hb, spl_of_not_D (hD _),
          hcntS (t.par v) (show t.par v ≤ t.size - 1 by
            have := par_lt_of_lt hv hvs; omega)]
      · have hveq : v = t.size - 1 := by omega
        rw [hveq, hv.2.2]
        exact fC
    · intro v hvs
      by_cases hvr : v + 1 < t.size
      · have hb := (fB v hvr (hsurv v hvr)).2
        rw [hcntS v (by omega)] at hb
        exact hb
      · have hveq : v = t.size - 1 := by omega
        rw [hveq]
        exact fD
  · intro hcrit
    have hpos : 0 < t.size := hv.1
    have hDiff : ∀ z, Dnode t crit z ↔ (z + 1 < t.size ∧ ¬ isLeaf t z) := by
      intro z
      constructor
      · rintro ⟨h1, h2, _⟩
        exact ⟨h1, h2⟩
      · rintro ⟨h1, h2⟩
        exact ⟨h1, h2, hcrit z h1 h2⟩
    have hsurvleaf : ∀ x, x + 1 < t.size → survB t crit x = isLeafB t x := by
      intro x hx
      by_cases hl : isLeaf t x
      · have hlb : isLeafB t x = true := decide_eq_true hl
        unfold survB
        rw [hlb]
        simp
      · have hlb : isLeafB t x = false := by
          unfold isLeafB
          exact decide_eq_false hl
        have hns := (dnode_iff_not_surv hx).mp ((hDiff x).mpr ⟨hx, hl⟩)
        rw [hlb]
        rcases Bool.eq_false_or_eq_true (survB t crit x) with hb | hb
        · exact absurd hb hns
        · exact hb
    have hLS : cntS t crit (t.size - 1) = numLeavesBelow t := by
      unfold cntS numLeavesBelow
      congr 1
      apply List.filter_congr
      intro x hx
      exact hsurvleaf x (by have := List.mem_range.mp hx; omega)
    have hcd : cntS t crit (t.size - 1) + cntD t crit (t.size - 1) = t.size - 1 :=
      cntS_add_cntD (t.size - 1) (Nat.le_refl _)
    obtain ⟨fA, fB, fC, fD⟩ := simplify_facts hv crit
    have hsize : (simplifyTree t crit).1.size = numLeavesBelow t + 1 := by
      rw [fA]
      omega
    have hspl_root : ∀ z, z < t.size → ¬ isLeaf t z →
        spl t crit z = t.size - 1 := by
      intro z hz hnl
      have hnd := spl_not_D hv crit t.size z hz (by omega)
      have hnls := spl_nonleaf hv crit t.size z hz (by omega) hnl
      have hlt := spl_lt_size hv crit hz
      by_contra hne
      exact hnd ((hDiff _).mpr ⟨by omega, hnls⟩)
    rw [hsize] at fC fD
    refine ⟨hsize, ?_, by exact fC, by exact fD⟩
    intro k hk
    obtain ⟨x, hx1, hx2, hx3⟩ := cntS_surj t crit (t.size - 1) k (by rw [hLS]; exact hk)
    have hx1' : x + 1 < t.size := by omega
    obtain ⟨hbp, hbn⟩ := fB x hx1' hx2
    have hleafx : isLeaf t x := by
      by_contra hnl
      exact (dnode_iff_not_surv hx1').mp ((hDiff x).mpr ⟨hx1', hnl⟩) hx2
    have hnlp : ¬ isLeaf t (t.par x) := by
      intro hl
      have h1 := hl x (by omega) rfl
      have h2 := lt_par_of_nonroot hv hx1'
      omega
    have hps : t.par x < t.size := par_lt_of_lt hv (by omega)
    refine ⟨?_, ?_, ?_⟩
    · rw [← hx3, hbp, hspl_root (t.par x) hps hnlp, hLS]
    · rw [← hx3, hbn]
      exact hleafx
    · rw [← hx3, hbn]
      omega

/-- A tree with five leaves and three interior nodes, used as a concrete
input for the simplification theorems. -/
def tS3 : Htree :=
  ⟨8, fun v => if v < 2 then 5 else if v < 5 then 6 else if v < 7 then 7 else v⟩

theorem C6_simplify_witness :
    TreeValid tS3 ∧
    (simplifyTree tS3 (fun _ => false)).1.size = tS3.size ∧
    (simplifyTree tS3 (fun _ => true)).1.size = numLeavesBelow tS3 + 1 := by
  have hv : TreeValid tS3 := treeValid_of_B (by decide)
  refine ⟨hv, ?_, ?_⟩
  · exact ((C6_simplify tS3 hv (fun _ => false)).1 (fun v _ _ => rfl)).1
  · exact ((C6_simplify tS3 hv (fun _ => true)).2 (fun v _ _ => rfl)).1

/-- C10: `simplify_tree` never deletes the root, whatever the criterion:
the last entry of the node map is always the original root and the output
root is a self-loop; and for any altitude vector the root always satisfies
the plateau predicate `altitude[root] == altitude[parent(root)]` used by
`quasi_flat_zones_hierarchy`, because the root is its own parent. -/
theorem C10_root_never_deleted (t : Htree) (hv : TreeValid t) (alt : Nat → Int) :
    (∀ crit : Nat → Bool,
      (simplifyTree t crit).2 ((simplifyTree t crit).1.size - 1) = t.size - 1 ∧
      (simplifyTree t crit).1.par ((simplifyTree t crit).1.size - 1) =
        (simplifyTree t crit).1.size - 1) ∧
    decide (alt (t.size - 1) = alt (t.par (t.size - 1))) = true := by
  constructor
  · intro crit
    obtain ⟨fA, fB, fC, fD⟩ := simplify_facts hv crit
    exact ⟨fD, fC⟩
  · rw [hv.2.2]
    exact decide_eq_true rfl

/-- A concrete altitude vector on `tS3` whose plateau criterion holds at
the root. -/
def altS3 : Nat → Int := fun v => if v < 5 then 0 else 1

/-! ### Correspondence between a tree and its simplification -/

theorem surv_of_not_D {t : Htree} {crit : Nat → Bool} {x : Nat}
    (hx : x + 1 < t.size) (hnd : ¬ Dnode t crit x) : survB t crit x = true := by
  by_contra hns
  exact hnd ((dnode_iff_not_surv hx).mpr hns)

theorem cntS_root {t : Htree} (hv : TreeValid t) (crit : Nat → Bool) :
    cntS t crit (t.size - 1) = (simplifyTree t crit).1.size - 1 := by
  obtain ⟨fA, _, _, _⟩ := simplify_facts hv crit
  have hcd : cntS t crit (t.size - 1) + cntD t crit (t.size - 1) = t.size - 1 :=
    cntS_add_cntD (t.size - 1) (Nat.le_refl _)
  rw [fA]
  omega

/-- Parent formula at survivor rank, covering the root as well. -/
theorem simplify_par_rank {t : Htree} (hv : TreeValid t) (crit : Nat → Bool)
    {z : Nat} (hz : z < t.size) (hnd : ¬ Dnode t crit z) :
    (simplifyTree t crit).1.par (cntS t crit z) =
      cntS t crit (spl t crit (t.par z)) := by
  obtain ⟨fA, fB, fC, fD⟩ := simplify_facts hv crit
  by_cases hr : z + 1 < t.size
  · exact (fB z hr (surv_of_not_D hr hnd)).1
  · have hze : z = t.size - 1 := by omega
    rw [hze, cntS_root hv crit, fC, hv.2.2, ← hze, spl_of_not_D hnd, hze,
      cntS_root hv crit]

/-- Node-map formula at survivor rank, covering the root as well. -/
theorem simplify_nm_rank {t : Htree} (hv : TreeValid t) (crit : Nat → Bool)
    {z : Nat} (hz : z < t.size) (hnd : ¬ Dnode t crit z) :
    (simplifyTree t crit).2 (cntS t crit z) = z := by
  obtain ⟨fA, fB, fC, fD⟩ := simplify_facts hv crit
  by_cases hr : z + 1 < t.size
  · exact (fB z hr (surv_of_not_D hr hnd)).2
  · have hze : z = t.size - 1 := by omega
    rw [hze, cntS_root hv crit, fD]

/-- The survivor rank is injective on surviving nodes. -/
theorem cntS_inj_surv {t : Htree} {crit : Nat → Bool} {a z : Nat}
    (ha : a < t.size) (hnda : ¬ Dnode t crit a)
    (hz : z < t.size) (hndz : ¬ Dnode t crit z)
    (h : cntS t crit a = cntS t crit z) : a = z := by
  rcases Nat.lt_trichotomy a z with hlt | heq | hlt
  · have hs : survB t crit a = true := surv_of_not_D (by omega) hnda
    have := cntS_strict hs hlt
    omega
  · exact heq
  · have hs : survB t crit z = true := surv_of_not_D (by omega) hndz
    have := cntS_strict hs hlt
    omega

/-- Every index of the simplified tree is the rank of a surviving node. -/
theorem cntS_surj_star {t : Htree} (hv : TreeValid t) (crit : Nat → Bool) :
    ∀ k, k < (simplifyTree t crit).1.size →
      ∃ x, x < t.size ∧ ¬ Dnode t crit x ∧ cntS t crit x = k := by
  intro k hk
  have hroot := cntS_root hv crit
  by_cases hkr : k < (simplifyTree t crit).1.size - 1
  · obtain ⟨x, hx1, hx2, hx3⟩ := cntS_surj t crit (t.size - 1) k (by omega)
    refine ⟨x, by omega, ?_, hx3⟩
    intro hd
    exact (dnode_iff_not_surv (by omega)).mp hd hx2
  · refine ⟨t.size - 1, by have := hv.1; omega, ?_, by omega⟩
    rintro ⟨hd, _, _⟩
    omega

theorem isAnc_step {t : Htree} {a v : Nat} (h : isAnc t a (t.par v)) :
    isAnc t a v := by
  rcases h with ⟨k, hk⟩
  exact ⟨k + 1, hk⟩

/-- Ancestry between surviving nodes transfers to the simplified tree. -/
theorem isAncT_of_isAnc {t : Htree} (hv : TreeValid t) (crit : Nat → Bool) :
    ∀ (f z : Nat), z < t.size → t.size - z ≤ f → ¬ Dnode t crit z →
      ∀ a, ¬ Dnode t crit a → isAnc t a z →
        isAnc (simplifyTree t crit).1 (cntS t crit a) (cntS t crit z) := by
  intro f
  induction f with
  | zero => intro z hz hf; exfalso; omega
  | succ f ih =>
    intro z hz hf hndz a hnda ha
    by_cases hae : a = z
    · rw [hae]
      exact isAnc_refl _ _
    · have hzr : z + 1 < t.size := by
        by_contra hr
        have hze : z = t.size - 1 := by omega
        rcases ha with ⟨k, hk⟩
        rw [hze, parIter_root_fix hv k] at hk
        exact hae (hk.symm.trans hze.symm)
      have hps : t.par z < t.size := par_lt_of_lt hv hz
      have hzp : z < t.par z := lt_par_of_nonroot hv hzr
      have hap : isAnc t a (t.par z) := isAnc_par ha hae
      have haspl : isAnc t a (spl t crit (t.par z)) :=
        isAnc_spl_of_isAnc hv crit t.size (t.par z) hps (by omega) a hap hnda
      have hsl : spl t crit (t.par z) < t.size := spl_lt_size hv crit hps
      have hsle : t.par z ≤ spl t crit (t.par z) := spl_le hv crit hps
      have hsnd : ¬ Dnode t crit (spl t crit (t.par z)) :=
        spl_not_D hv crit t.size (t.par z) hps (by omega)
      have hrec := ih (spl t crit (t.par z)) hsl (by omega) hsnd a hnda haspl
      rcases hrec with ⟨k, hk⟩
      refine ⟨k + 1, ?_⟩
      show parIter (simplifyTree t crit).1 k
        ((simplifyTree t crit).1.par (cntS t crit z)) = cntS t crit a
      rw [simplify_par_rank hv crit hz hndz]
      exact hk

/-- Ancestry in the simplified tree comes from ancestry between the
corresponding surviving nodes. -/
theorem isAnc_of_isAncT {t : Htree} (hv : TreeValid t) (crit : Nat → Bool) :
    ∀ (k z : Nat), z < t.size → ¬ Dnode t crit z →
      ∀ a, a < t.size → ¬ Dnode t crit a →
        parIter (simplifyTree t crit).1 k (cntS t crit z) = cntS t crit a →
        isAnc t a z := by
  intro k
  induction k with
  | zero =>
    intro z hz hndz a ha hnda hk
    have : a = z := cntS_inj_surv ha hnda hz hndz hk.symm
    rw [this]
    exact isAnc_refl _ _
  | succ k ih =>
    intro z hz hndz a ha hnda hk
    have hk' : parIter (simplifyTree t crit).1 k
        ((simplifyTree t crit).1.par (cntS t crit z)) = cntS t crit a := hk
    rw [simplify_par_rank hv crit hz hndz] at hk'
    have hps : t.par z < t.size := par_lt_of_lt hv hz
    have hsl : spl t crit (t.par z) < t.size := spl_lt_size hv crit hps
    have hsnd : ¬ Dnode t crit (spl t crit (t.par z)) :=
      spl_not_D hv crit t.size (t.par z) hps (by omega)
    have hrec : isAnc t a (spl t crit (t.par z)) :=
      ih (spl t crit (t.par z)) hsl hsnd a ha hnda hk'
    have h1 : isAnc t (spl t crit (t.par z)) (t.par z) :=
      spl_isAnc hv crit t.size (t.par z) hps (by omega)
    exact isAnc_trans (isAnc_trans hrec h1) ⟨1, rfl⟩

/-- The LCA in the simplified tree is the rank of the climb of the LCA in
the original tree. -/
theorem lca_simplify {t : Htree} (hv : TreeValid t) (crit : Nat → Bool)
    {u v : Nat} (hu : u < t.size) (hvv : v < t.size)
    (hndu : ¬ Dnode t crit u) (hndv : ¬ Dnode t crit v) :
    lca (simplifyTree t crit).1 (cntS t crit u) (cntS t crit v) =
      cntS t crit (spl t crit (lca t u v)) := by
  have hvT : TreeValid (simplifyTree t crit).1 := simplify_valid hv crit
  obtain ⟨hl1, hl2, hl3⟩ := lca_spec hv hu hvv
  have hw : lca t u v < t.size := isAnc_lt_size hv hl1 hu
  have hwnd : ¬ Dnode t crit (spl t crit (lca t u v)) :=
    spl_not_D hv crit t.size (lca t u v) hw (by omega)
  have hwl : spl t crit (lca t u v) < t.size := spl_lt_size hv crit hw
  have hwanc : isAnc t (spl t crit (lca t u v)) (lca t u v) :=
    spl_isAnc hv crit t.size (lca t u v) hw (by omega)
  have hau : isAnc t (spl t crit (lca t u v)) u := isAnc_trans hwanc hl1
  have hav : isAnc t (spl t crit (lca t u v)) v := isAnc_trans hwanc hl2
  have hcu : cntS t crit u < (simplifyTree t crit).1.size := by
    have h1 := cntS_mono t crit (show u ≤ t.size - 1 by omega)
    have h2 := cntS_root hv crit
    have h3 := hvT.1
    omega
  have hcv : cntS t crit v < (simplifyTree t crit).1.size := by
    have h1 := cntS_mono t crit (show v ≤ t.size - 1 by omega)
    have h2 := cntS_root hv crit
    have h3 := hvT.1
    omega
  obtain ⟨g1, g2, g3⟩ := lca_spec hvT hcu hcv
  have hup : lca (simplifyTree t crit).1 (cntS t crit u) (cntS t crit v) ≤
      cntS t crit (spl t crit (lca t u v)) := by
    apply g3
    · exact isAncT_of_isAnc hv crit t.size u hu (by omega) hndu _ hwnd hau
    · exact isAncT_of_isAnc hv crit t.size v hvv (by omega) hndv _ hwnd hav
  have hLlt : lca (simplifyTree t crit).1 (cntS t crit u) (cntS t crit v) <
      (simplifyTree t crit).1.size := isAnc_lt_size hvT g1 hcu
  obtain ⟨x, hx1, hx2, hx3⟩ := cntS_surj_star hv crit _ hLlt
  have hxu : isAnc t x u := by
    rcases g1 with ⟨k, hk⟩
    rw [← hx3] at hk
    exact isAnc_of_isAncT hv crit k u hu hndu x hx1 hx2 hk
  have hxv : isAnc t x v := by
    rcases g2 with ⟨k, hk⟩
    rw [← hx3] at hk
    exact isAnc_of_isAncT hv crit k v hvv hndv x hx1 hx2 hk
  have hwx : lca t u v ≤ x := hl3 x hxu hxv
  have hdown : cntS t crit (spl t crit (lca t u v)) ≤
      lca (simplifyTree t crit).1 (cntS t crit u) (cntS t crit v) := by
    rcases isAnc_chain hxu hl1 with hch | hch
    · have hxspl : isAnc t x (spl t crit (lca t u v)) :=
        isAnc_spl_of_isAnc hv crit t.size (lca t u v) hw (by omega) x hch hx2
      have hle : spl t crit (lca t u v) ≤ x := isAnc_le hv hxspl hwl
      have := cntS_mono t crit hle
      omega
    · have hxle : x ≤ lca t u v := isAnc_le hv hch hx1
      have hxe : x = lca t u v := by omega
      have hsple : spl t crit (lca t u v) = lca t u v := by
        rw [← hxe, spl_of_not_D hx2, hxe]
      rw [hsple, ← hxe, hx3]
  omega

/-! ### The tree produced by `bpt_canonical`, and claim C5 -/

theorem numClasses_one_unique {uf : UF} {n : Nat} (h : numClasses uf n = 1)
    {c c' : Nat} (hc : c < n) (hc' : c' < n) (hrc : uf.r c = c)
    (hrc' : uf.r c' = c') : c = c' := by
  have hm : c ∈ ufRoots uf n :=
    Finset.mem_filter.mpr ⟨Finset.mem_range.mpr hc, by simpa using hrc⟩
  have hm' : c' ∈ ufRoots uf n :=
    Finset.mem_filter.mpr ⟨Finset.mem_range.mpr hc', by simpa using hrc'⟩
  exact Finset.card_le_one.mp (le_of_eq h) c hm c' hm'

theorem conn_pos {n m : Nat} {ep : Nat → Nat × Nat} (h : Connected n m ep) :
    1 ≤ n := by
  unfold Connected at h
  by_contra hn
  have hn0 : n = 0 := by omega
  rw [hn0] at h
  unfold numClasses ufRoots at h
  simp at h

theorem cntS_all_surv (t : Htree) (crit : Nat → Bool) :
    ∀ j, (∀ x, x < j → survB t crit x = true) → cntS t crit j = j := by
  intro j
  induction j with
  | zero => intro _; rfl
  | succ j ih =>
    intro h
    rw [cntS_succ, if_pos (h j (by omega)), ih (fun x hx => h x (by omega))]

/-- On success, the parent array of the Kruskal scan is a valid tree on
`2n − 1` nodes whose leaves are exactly the graph vertices. -/
theorem bptTree_valid (n m : Nat) (ep : Nat → Nat × Nat) (w : Nat → Int)
    (hval : GraphValid n m ep) (hn : 1 ≤ n)
    (hfound : (bptScanState n m ep w).found = n - 1) :
    TreeValid ⟨2 * n - 1, (bptScanState n m ep w).parents⟩ ∧
    (∀ x, x < n → isLeaf ⟨2 * n - 1, (bptScanState n m ep w).parents⟩ x) := by
  have inv := bptScan_kInv n m ep w hval
  have hnum : (bptScanState n m ep w).numNodes = 2 * n - 1 := by
    have := inv.hnum
    omega
  have hrootfix : (bptScanState n m ep w).parents (2 * n - 2) = 2 * n - 2 := by
    by_contra hne
    have := inv.hpar_gt (2 * n - 2) (by omega) hne
    omega
  have hclass : numClasses (bptScanState n m ep w).uf n = 1 := by
    have := inv.hclasses
    omega
  constructor
  · refine ⟨by show 0 < 2 * n - 1; omega, ?_, ?_⟩
    · intro i hi
      have hi' : i + 1 < 2 * n - 1 := hi
      by_cases hpi : (bptScanState n m ep w).parents i = i
      · exfalso
        obtain ⟨c, hc, hrc, hroots⟩ := inv.hpar_all i (by omega) hpi
        obtain ⟨c', hc', hrc', hroots'⟩ :=
          inv.hpar_all (2 * n - 2) (by omega) hrootfix
        have hcc : c = c' := numClasses_one_unique hclass hc hc' hrc hrc'
        rw [hcc, hroots'] at hroots
        omega
      · have := inv.hpar_gt i (by omega) hpi
        show i < (bptScanState n m ep w).parents i ∧
          (bptScanState n m ep w).parents i < 2 * n - 1
        omega
    · show (bptScanState n m ep w).parents (2 * n - 1 - 1) = 2 * n - 1 - 1
      rw [show 2 * n - 1 - 1 = 2 * n - 2 by omega]
      exact hrootfix
  · intro x hx u hu hpu
    by_cases hpu' : (bptScanState n m ep w).parents u = u
    · have hpu2 : (bptScanState n m ep w).parents u = x := hpu
      exact hpu'.symm.trans hpu2
    · have := inv.hpar_ge u hpu'
      have hpu2 : (bptScanState n m ep w).parents u = x := hpu
      rw [hpu2] at this
      omega

/-- `quasi_flat_zones_hierarchy` (hierarchy_core.hpp, lines 206–226):
`bpt_canonical`, then `simplify_tree` with the plateau criterion
`altitudes == altitude_parents` (where `propagate_parallel` reads the
parent's altitude at every node), then the altitudes re-indexed through
the node map (`xt::index_view(altitudes, node_map)`). -/
def qfzHierarchy (n m : Nat) (ep : Nat → Nat × Nat) (w : Nat → Int) :
    Option (Htree × (Nat → Int)) :=
  match bptCanonical n m ep w with
  | none => none
  | some res =>
    some ((simplifyTree ⟨res.numNodesT, res.par⟩
        (fun v => decide (res.alt v = res.alt (res.par v)))).1,
      fun k => res.alt ((simplifyTree ⟨res.numNodesT, res.par⟩
        (fun v => decide (res.alt v = res.alt (res.par v)))).2 k))

/-- C5: on every graph where `bpt_canonical` succeeds, the saliency map of
the quasi-flat-zones hierarchy equals, entry by entry over all edges, the
saliency map of the binary partition tree. -/
theorem C5_saliency_bpt_qfz (n m : Nat) (ep : Nat → Nat × Nat) (w : Nat → Int)
    (hval : GraphValid n m ep) {res : BptResult}
    (hres : bptCanonical n m ep w = some res) :
    ∃ q : Htree × (Nat → Int), qfzHierarchy n m ep w = some q ∧
      saliencyMap m ep q.1 q.2 =
        saliencyMap m ep ⟨res.numNodesT, res.par⟩ res.alt := by
  have hres' := hres
  rw [bptCanonical_eq] at hres'
  by_cases hfound : (bptScanState n m ep w).found = numEdgeMst n
  · rw [if_pos hfound] at hres'
    have hre := Option.some.inj hres'
    have hsizeE : res.numNodesT = 2 * n - 1 := by rw [← hre]
    have hparE : res.par = (bptScanState n m ep w).parents := by rw [← hre]
    have haltE : res.alt = (bptScanState n m ep w).levels := by rw [← hre]
    have hconn : Connected n m ep := (bptScan_found_iff n m ep w hval).mp hfound
    have hn : 1 ≤ n := conn_pos hconn
    have hfound' : (bptScanState n m ep w).found = n - 1 := by
      rw [numEdgeMst_of_pos hn] at hfound
      exact hfound
    obtain ⟨hvT, hleaf⟩ := bptTree_valid n m ep w hval hn hfound'
    have hq : qfzHierarchy n m ep w =
        some ((simplifyTree ⟨res.numNodesT, res.par⟩
            (fun v => decide (res.alt v = res.alt (res.par v)))).1,
          fun k => res.alt ((simplifyTree ⟨res.numNodesT, res.par⟩
            (fun v => decide (res.alt v = res.alt (res.par v)))).2 k)) := by
      unfold qfzHierarchy
      rw [hres]
    rw [hsizeE, hparE, haltE] at hq ⊢
    refine ⟨_, hq, ?_⟩
    dsimp only
    unfold saliencyMap
    apply List.map_congr_left
    intro e he
    dsimp only
    have hem : e < m := List.mem_range.mp he
    obtain ⟨hu, hv2⟩ := hval e hem
    have hTs : (⟨2 * n - 1, (bptScanState n m ep w).parents⟩ : Htree).size =
        2 * n - 1 := rfl
    have hndu : ¬ Dnode ⟨2 * n - 1, (bptScanState n m ep w).parents⟩
        (fun v => decide ((bptScanState n m ep w).levels v =
          (bptScanState n m ep w).levels ((bptScanState n m ep w).parents v)))
        (ep e).1 := by
      rintro ⟨_, hnl, _⟩
      exact hnl (hleaf (ep e).1 hu)
    have hndv : ¬ Dnode ⟨2 * n - 1, (bptScanState n m ep w).parents⟩
        (fun v => decide ((bptScanState n m ep w).levels v =
          (bptScanState n m ep w).levels ((bptScanState n m ep w).parents v)))
        (ep e).2 := by
      rintro ⟨_, hnl, _⟩
      exact hnl (hleaf (ep e).2 hv2)
    have hsl : ∀ x, x < n → survB ⟨2 * n - 1, (bptScanState n m ep w).parents⟩
        (fun v => decide ((bptScanState n m ep w).levels v =
          (bptScanState n m ep w).levels ((bptScanState n m ep w).parents v)))
        x = true := by
      intro x hx
      unfold survB isLeafB
      rw [decide_eq_true (hleaf x hx)]
      rfl
    have hcu : cntS ⟨2 * n - 1, (bptScanState n m ep w).parents⟩
        (fun v => decide ((bptScanState n m ep w).levels v =
          (bptScanState n m ep w).levels ((bptScanState n m ep w).parents v)))
        (ep e).1 = (ep e).1 :=
      cntS_all_surv _ _ _ (fun x hx => hsl x (by omega))
    have hcv : cntS ⟨2 * n - 1, (bptScanState n m ep w).parents⟩
        (fun v => decide ((bptScanState n m ep w).levels v =
          (bptScanState n m ep w).levels ((bptScanState n m ep w).parents v)))
        (ep e).2 = (ep e).2 :=
      cntS_all_surv _ _ _ (fun x hx => hsl x (by omega))
    have hL := lca_simplify hvT
      (fun v => decide ((bptScanState n m ep w).levels v =
        (bptScanState n m ep w).levels ((bptScanState n m ep w).parents v)))
      (show (ep e).1 < 2 * n - 1 by omega)
      (show (ep e).2 < 2 * n - 1 by omega) hndu hndv
    rw [hcu, hcv] at hL
    rw [hL]
    have hwlt : lca ⟨2 * n - 1, (bptScanState n m ep w).parents⟩ (ep e).1 (ep e).2 <
        2 * n - 1 :=
      isAnc_lt_size hvT
        (lca_spec hvT (show (ep e).1 < 2 * n - 1 by omega)
          (show (ep e).2 < 2 * n - 1 by omega)).1
        (show (ep e).1 < 2 * n - 1 by omega)
    have hwnd : ¬ Dnode ⟨2 * n - 1, (bptScanState n m ep w).parents⟩
        (fun v => decide ((bptScanState n m ep w).levels v =
          (bptScanState n m ep w).levels ((bptScanState n m ep w).parents v)))
        (spl ⟨2 * n - 1, (bptScanState n m ep w).parents⟩
          (fun v => decide ((bptScanState n m ep w).levels v =
            (bptScanState n m ep w).levels ((bptScanState n m ep w).parents v)))
          (lca ⟨2 * n - 1, (bptScanState n m ep w).parents⟩ (ep e).1 (ep e).2)) :=
      spl_not_D hvT _ (2 * n - 1) _ hwlt (show 2 * n - 1 - _ ≤ 2 * n - 1 by omega)
    have hwsl : spl ⟨2 * n - 1, (bptScanState n m ep w).parents⟩
        (fun v => decide ((bptScanState n m ep w).levels v =
          (bptScanState n m ep w).levels ((bptScanState n m ep w).parents v)))
        (lca ⟨2 * n - 1, (bptScanState n m ep w).parents⟩ (ep e).1 (ep e).2) <
        2 * n - 1 := spl_lt_size hvT _ hwlt
    rw [simplify_nm_rank hvT _ hwsl hwnd]
    exact spl_alt hvT _ (bptScanState n m ep w).levels
      (fun y hy => of_decide_eq_true hy.2.2) (2 * n - 1) _ hwlt
      (show 2 * n - 1 - _ ≤ 2 * n - 1 by omega)
  · rw [if_neg hfound] at hres'
    cases hres'

theorem C5_saliency_bpt_qfz_witness :
    GraphValid 3 3 epEx3 ∧
    ∃ q : Htree × (Nat → Int), qfzHierarchy 3 3 epEx3 wEx3 = some q ∧
      saliencyMap 3 epEx3 q.1 q.2 =
        saliencyMap 3 epEx3
          ⟨((bptCanonical 3 3 epEx3 wEx3).getD bptDefault).numNodesT,
            ((bptCanonical 3 3 epEx3 wEx3).getD bptDefault).par⟩
          ((bptCanonical 3 3 epEx3 wEx3).getD bptDefault).alt := by
  have hsome : (bptCanonical 3 3 epEx3 wEx3).isSome = true := by decide
  have hres : bptCanonical 3 3 epEx3 wEx3 =
      some ((bptCanonical 3 3 epEx3 wEx3).getD bptDefault) := by
    cases h : bptCanonical 3 3 epEx3 wEx3 with
    | none => rw [h] at hsome; cases hsome
    | some r => rfl
  exact ⟨by decide, C5_saliency_bpt_qfz 3 3 epEx3 wEx3 (by decide) hres⟩

theorem C10_root_never_deleted_witness :
    (simplifyTree tS3 (fun v => decide (altS3 v = altS3 (tS3.par v)))).2
        ((simplifyTree tS3
          (fun v => decide (altS3 v = altS3 (tS3.par v)))).1.size - 1) =
      tS3.size - 1 ∧
    decide (altS3 (tS3.size - 1) = altS3 (tS3.par (tS3.size - 1))) = true := by
  have hv : TreeValid tS3 := treeValid_of_B (by decide)
  exact ⟨((C10_root_never_deleted tS3 hv altS3).1
      (fun v => decide (altS3 v = altS3 (tS3.par v)))).1,
    (C10_root_never_deleted tS3 hv altS3).2⟩

/-! ### `binary_partition_tree` with min linkage (part_000, lines 287–446)

The working graph (`undirected_graph`, not under src/) is modelled from
spec §4.1: fixed edge-id space, `edge_endpoints`, `out_edges`,
`other_endpoint`, `add_vertex`, `remove_edge`, `set_endpoint`; out-edges
are scanned in increasing edge id.  The heap (`fibonacci_heap`, not under
src/) is modelled from spec §4.3: one live entry per handle, `pop`
returns a minimum-key entry (the smallest edge id among minima, a
deterministic instance of the arbitrary tie-break allowed by the spec),
`update` rewrites an entry's key in place. -/

/-- State of the fusion loop: current edge endpoints, removed and active
flags, live heap entries with their keys, the linkage's weight array, the
tree being built, the next graph vertex id and the node counter. -/
structure BState where
  bep : Nat → Nat × Nat
  rem : Nat → Bool
  act : Nat → Bool
  inH : Nat → Bool
  key : Nat → Int
  wv : Nat → Int
  par : Nat → Nat
  lev : Nat → Int
  numV : Nat
  cnt : Nat

/-- Modelled from the spec (§4.3): `heap.top()/pop()` returns a
minimum-key live entry; the smallest edge id among equal minima is a
deterministic realisation of the spec's arbitrary tie-break. -/
def popMin (m : Nat) (st : BState) : Option Nat :=
  (List.range m).foldl
    (fun acc e =>
      if st.inH e = true then
        match acc with
        | none => some e
        | some b => if st.key e < st.key b then some e else some b
      else acc) none

/-- Modelled from the spec (§4.1): edge `e` is in `out_edges(r)` iff it
is not removed and one of its endpoints is `r`. -/
def incid (st : BState) (r e : Nat) : Bool :=
  !st.rem e && (decide ((st.bep e).1 = r) || decide ((st.bep e).2 = r))

/-- Modelled from the spec (§4.1): `other_endpoint(e, r)`. -/
def otherV (st : BState) (r e : Nat) : Nat :=
  if (st.bep e).1 = r then (st.bep e).2 else (st.bep e).1

/-- One visit of `explore_region`: a neighbour seen for the first time
gets a fresh descriptor; otherwise the second edge slot of its existing
descriptor is filled. -/
def addNb (nbs : List NewNeighbour) (nb e : Nat) : List NewNeighbour :=
  if nbs.any (fun d => d.nbVertex == nb) then
    nbs.map (fun d => if d.nbVertex == nb then ⟨d.nbVertex, d.edge1, some e⟩ else d)
  else nbs ++ [⟨nb, e, none⟩]

/-- `explore_region(r)`: scan the out-edges of `r` in increasing edge id,
merging into the descriptor list. -/
def exploreRegion (m : Nat) (st : BState) (r : Nat)
    (nbs : List NewNeighbour) : List NewNeighbour :=
  (List.range m).foldl
    (fun acc e => if incid st r e then addNb acc (otherV st r e) e else acc) nbs

/-- `binary_partition_tree_min_linkage::operator()` (part_000, lines
427–446): for each descriptor in order, the new value is the minimum of
the current weights of its edges; it is written into the weight array at
the first edge and recorded as the descriptor's new edge weight. -/
def minLinkRun (wv : Nat → Int) :
    List NewNeighbour → (Nat → Int) × List (NewNeighbour × Int)
  | [] => (wv, [])
  | d :: rest =>
    ((minLinkRun (upd wv d.edge1
        (match d.edge2 with
          | some e2 => if wv e2 < wv d.edge1 then wv e2 else wv d.edge1
          | none => wv d.edge1)) rest).1,
      (d, match d.edge2 with
          | some e2 => if wv e2 < wv d.edge1 then wv e2 else wv d.edge1
          | none => wv d.edge1) ::
        (minLinkRun (upd wv d.edge1
          (match d.edge2 with
            | some e2 => if wv e2 < wv d.edge1 then wv e2 else wv d.edge1
            | none => wv d.edge1)) rest).2)

/-- Post-callback processing of one descriptor: deactivate and remove the
second edge if present, relabel the first edge to link the neighbour to
the new node, update its heap key with the descriptor's new edge weight,
and re-activate it. -/
def procNb (p : Nat) (st : BState) (dn : NewNeighbour × Int) : BState :=
  match dn.1.edge2 with
  | some e2 =>
    { st with
      act := upd (upd st.act e2 false) dn.1.edge1 true
      rem := upd st.rem e2 true
      bep := upd st.bep dn.1.edge1 (dn.1.nbVertex, p)
      key := upd st.key dn.1.edge1 dn.2 }
  | none =>
    { st with
      act := upd st.act dn.1.edge1 true
      bep := upd st.bep dn.1.edge1 (dn.1.nbVertex, p)
      key := upd st.key dn.1.edge1 dn.2 }

/-- The immediate effect of accepting fusion edge `e0`: pop it, clear its
flags, remove it from the graph, set the two endpoint regions' parents to
the new node, record its weight as the new node's level, and advance the
vertex and node counters. -/
def fuseBase (st : BState) (e0 : Nat) : BState :=
  { st with
    inH := upd st.inH e0 false
    act := upd st.act e0 false
    rem := upd st.rem e0 true
    par := upd (upd st.par (st.bep e0).1 st.numV) (st.bep e0).2 st.numV
    lev := upd st.lev st.numV (st.key e0)
    numV := st.numV + 1
    cnt := st.cnt + 1 }

/-- The merged neighbourhood of the fused regions: explore the first
region, then the second, on the graph with the fusion edge removed. -/
def fuseNbs (m : Nat) (st : BState) (e0 : Nat) : List NewNeighbour :=
  exploreRegion m (fuseBase st e0) (st.bep e0).2
    (exploreRegion m (fuseBase st e0) (st.bep e0).1 [])

/-- A full fusion: base effect, min-linkage callback over the
neighbourhood, then per-descriptor graph surgery and heap updates. -/
def bptFuse (m : Nat) (st : BState) (e0 : Nat) : BState :=
  (minLinkRun (fuseBase st e0).wv (fuseNbs m st e0)).2.foldl (procNb st.numV)
    { fuseBase st e0 with
      wv := (minLinkRun (fuseBase st e0).wv (fuseNbs m st e0)).1 }

/-- One iteration of the main loop: pop the heap minimum, discard it if
stale, otherwise fuse the two endpoint regions.  `none` means the heap
was empty. -/
def bptStep (m : Nat) (st : BState) : Option BState :=
  match popMin m st with
  | none => none
  | some e0 =>
    if st.act e0 = false then some { st with inH := upd st.inH e0 false }
    else some (bptFuse m st e0)

/-- The main loop `while (!heap.empty() && current_num_nodes_tree <
num_nodes_tree)`; the fuel is the number of heap entries, which strictly
decreases at every iteration. -/
def bptRun (m target : Nat) : Nat → BState → BState
  | 0, st => st
  | f + 1, st =>
    if st.cnt < target then
      match bptStep m st with
      | none => st
      | some st' => bptRun m target f st'
    else st

/-- The state before the loop: all edges pushed on the heap and active,
identity parents, zero levels. -/
def bptMinInit (n m : Nat) (ep : Nat → Nat × Nat) (w : Nat → Int) : BState :=
  { bep := ep, rem := fun _ => false, act := fun e => decide (e < m),
    inH := fun e => decide (e < m), key := w, wv := w,
    par := fun j => j, lev := fun _ => 0, numV := n, cnt := n }

/-- `binary_partition_tree(graph, edge_weights,
binary_partition_tree_min_linkage(edge_weights))`. -/
def bptMinLinkage (n m : Nat) (ep : Nat → Nat × Nat) (w : Nat → Int) :
    Htree × (Nat → Int) :=
  (⟨2 * n - 1, (bptRun m (2 * n - 1) m (bptMinInit n m ep w)).par⟩,
    (bptRun m (2 * n - 1) m (bptMinInit n m ep w)).lev)

/-! #### Heap-pop characterisation -/

theorem popMin_aux_none (st : BState) :
    ∀ (l : List Nat) (acc : Option Nat),
      l.foldl (fun acc e =>
        if st.inH e = true then
          match acc with
          | none => some e
          | some b => if st.key e < st.key b then some e else some b
        else acc) acc = none →
      acc = none ∧ ∀ e ∈ l, st.inH e = false := by
  intro l
  induction l with
  | nil =>
    intro acc h
    exact ⟨h, fun e he => absurd he (List.not_mem_nil e)⟩
  | cons a tl ih =>
    intro acc h
    rw [List.foldl_cons] at h
    obtain ⟨hacc, htl⟩ := ih _ h
    by_cases hH : st.inH a = true
    · exfalso
      rw [if_pos hH] at hacc
      cases acc with
      | none => cases hacc
      | some b =>
        have hacc' : (if st.key a < st.key b then some a else some b) =
            (none : Option Nat) := hacc
        by_cases hk : st.key a < st.key b
        · rw [if_pos hk] at hacc'; cases hacc'
        · rw [if_neg hk] at hacc'; cases hacc'
    · rw [if_neg hH] at hacc
      refine ⟨hacc, fun e he => ?_⟩
      rcases List.mem_cons.mp he with rfl | he
      · exact Bool.not_eq_true _ ▸ (by simpa using hH)
      · exact htl e he

theorem popMin_aux_some (st : BState) :
    ∀ (l : List Nat) (acc : Option Nat) (r : Nat),
      (∀ b, acc = some b → st.inH b = true) →
      l.foldl (fun acc e =>
        if st.inH e = true then
          match acc with
          | none => some e
          | some b => if st.key e < st.key b then some e else some b
        else acc) acc = some r →
      st.inH r = true ∧ (acc = some r ∨ r ∈ l) ∧
      (∀ e ∈ l, st.inH e = true → st.key r ≤ st.key e) ∧
      (∀ b, acc = some b → st.key r ≤ st.key b) := by
  intro l
  induction l with
  | nil =>
    intro acc r hpre h
    simp only [List.foldl_nil] at h
    refine ⟨hpre r h, Or.inl h, fun e he => absurd he (List.not_mem_nil e),
      fun b hb => ?_⟩
    rw [h] at hb
    rw [Option.some.inj hb]
  | cons a tl ih =>
    intro acc r hpre h
    rw [List.foldl_cons] at h
    by_cases hH : st.inH a = true
    · rw [if_pos hH] at h
      cases acc with
      | none =>
        have h' : List.foldl (fun acc e =>
            if st.inH e = true then
              match acc with
              | none => some e
              | some b => if st.key e < st.key b then some e else some b
            else acc) (some a) tl = some r := h
        obtain ⟨hr1, hr2, hmin, hacc⟩ := ih (some a) r
          (fun b hb => by rw [← Option.some.inj hb]; exact hH) h'
        refine ⟨hr1, Or.inr ?_, ?_, fun b hb => by cases hb⟩
        · rcases hr2 with hr2 | hr2
          · exact List.mem_cons.mpr (Or.inl (Option.some.inj hr2).symm)
          · exact List.mem_cons.mpr (Or.inr hr2)
        · intro e he hiH
          rcases List.mem_cons.mp he with rfl | he
          · exact hacc e rfl
          · exact hmin e he hiH
      | some b =>
        have h' : List.foldl (fun acc e =>
            if st.inH e = true then
              match acc with
              | none => some e
              | some b => if st.key e < st.key b then some e else some b
            else acc) (if st.key a < st.key b then some a else some b) tl =
            some r := h
        by_cases hk : st.key a < st.key b
        · rw [if_pos hk] at h'
          obtain ⟨hr1, hr2, hmin, hacc⟩ := ih (some a) r
            (fun b' hb' => by rw [← Option.some.inj hb']; exact hH) h'
          refine ⟨hr1, Or.inr ?_, ?_, ?_⟩
          · rcases hr2 with hr2 | hr2
            · exact List.mem_cons.mpr (Or.inl (Option.some.inj hr2).symm)
            · exact List.mem_cons.mpr (Or.inr hr2)
          · intro e he hiH
            rcases List.mem_cons.mp he with rfl | he
            · exact hacc e rfl
            · exact hmin e he hiH
          · intro b' hb'
            rw [← Option.some.inj hb']
            have h1 := hacc a rfl
            omega
        · rw [if_neg hk] at h'
          obtain ⟨hr1, hr2, hmin, hacc⟩ := ih (some b) r
            (fun b' hb' => by rw [← Option.some.inj hb']; exact hpre b rfl) h'
          refine ⟨hr1, ?_, ?_, hacc⟩
          · rcases hr2 with hr2 | hr2
            · exact Or.inl hr2
            · exact Or.inr (List.mem_cons.mpr (Or.inr hr2))
          · intro e he hiH
            rcases List.mem_cons.mp he with rfl | he
            · have h1 := hacc b rfl
              omega
            · exact hmin e he hiH
    · rw [if_neg hH] at h
      obtain ⟨hr1, hr2, hmin, hacc⟩ := ih acc r hpre h
      refine ⟨hr1, ?_, ?_, hacc⟩
      · rcases hr2 with hr2 | hr2
        · exact Or.inl hr2
        · exact Or.inr (List.mem_cons.mpr (Or.inr hr2))
      · intro e he hiH
        rcases List.mem_cons.mp he with rfl | he
        · exact absurd hiH hH
        · exact hmin e he hiH

theorem popMin_none {m : Nat} {st : BState} (h : popMin m st = none) :
    ∀ e, e < m → st.inH e = false := by
  intro e he
  exact (popMin_aux_none st (List.range m) none h).2 e (List.mem_range.mpr he)

theorem popMin_some {m : Nat} {st : BState} {e0 : Nat}
    (h : popMin m st = some e0) :
    e0 < m ∧ st.inH e0 = true ∧
      ∀ e, e < m → st.inH e = true → st.key e0 ≤ st.key e := by
  obtain ⟨h1, h2, hmin, _⟩ := popMin_aux_some st (List.range m) none e0
    (fun b hb => by cases hb) h
  rcases h2 with h2 | h2
  · cases h2
  · exact ⟨List.mem_range.mp h2, h1,
      fun e he hiH => hmin e (List.mem_range.mpr he) hiH⟩

/-! #### Unordered pairs, regions, and Kruskal micro-steps -/

/-- Equality of ordered pairs up to swapping. -/
def pairEq (a b : Nat × Nat) : Prop :=
  (a.1 = b.1 ∧ a.2 = b.2) ∨ (a.1 = b.2 ∧ a.2 = b.1)

instance (a b : Nat × Nat) : Decidable (pairEq a b) := by
  unfold pairEq
  infer_instance

theorem pairEq_refl (a : Nat × Nat) : pairEq a a := Or.inl ⟨rfl, rfl⟩

theorem pairEq_symm {a b : Nat × Nat} (h : pairEq a b) : pairEq b a := by
  rcases h with ⟨h1, h2⟩ | ⟨h1, h2⟩
  · exact Or.inl ⟨h1.symm, h2.symm⟩
  · exact Or.inr ⟨h2.symm, h1.symm⟩

theorem pairEq_trans {a b c : Nat × Nat} (h : pairEq a b) (h' : pairEq b c) :
    pairEq a c := by
  rcases h with ⟨h1, h2⟩ | ⟨h1, h2⟩ <;> rcases h' with ⟨h3, h4⟩ | ⟨h3, h4⟩
  · exact Or.inl ⟨h1.trans h3, h2.trans h4⟩
  · exact Or.inr ⟨h1.trans h3, h2.trans h4⟩
  · exact Or.inr ⟨h1.trans h4, h2.trans h3⟩
  · exact Or.inl ⟨h1.trans h4, h2.trans h3⟩

theorem pairEq_mem {a b : Nat × Nat} (h : pairEq a b) {x : Nat}
    (hx : x = a.1 ∨ x = a.2) : x = b.1 ∨ x = b.2 := by
  rcases h with ⟨h1, h2⟩ | ⟨h1, h2⟩ <;> rcases hx with hx | hx
  · exact Or.inl (hx.trans h1)
  · exact Or.inr (hx.trans h2)
  · exact Or.inr (hx.trans h1)
  · exact Or.inl (hx.trans h2)

/-- The tree node currently standing for the class of vertex `v`. -/
def reg (s : KState) (v : Nat) : Nat := s.roots (s.uf.r v)

/-- The pair of region nodes joined by original edge `e`. -/
def rp (ep : Nat → Nat × Nat) (s : KState) (e : Nat) : Nat × Nat :=
  (reg s (ep e).1, reg s (ep e).2)

theorem reg_lt {n : Nat} {ep : Nat → Nat × Nat} {w : Nat → Int} {s : KState}
    (inv : KInv n ep w s) {v : Nat} (hv : v < n) : reg s v < s.numNodes :=
  inv.hroots_lt _ (inv.hbound v hv) (s.uf.idem v)

theorem reg_ne {n : Nat} {ep : Nat → Nat × Nat} {w : Nat → Int} {s : KState}
    (inv : KInv n ep w s) {u v : Nat} (hu : u < n) (hv : v < n)
    (h : s.uf.r u ≠ s.uf.r v) : reg s u ≠ reg s v :=
  inv.hroots_inj _ _ (inv.hbound u hu) (inv.hbound v hv)
    (s.uf.idem u) (s.uf.idem v) h

theorem reg_eq_same {n : Nat} {ep : Nat → Nat × Nat} {w : Nat → Int} {s : KState}
    (inv : KInv n ep w s) {u v : Nat} (hu : u < n) (hv : v < n)
    (h : reg s u = reg s v) : s.uf.r u = s.uf.r v := by
  by_contra hne
  exact reg_ne inv hu hv hne h

theorem kstep_intra {ep : Nat → Nat × Nat} {w : Nat → Int} {s : KState} {e : Nat}
    (h : s.uf.r (ep e).1 = s.uf.r (ep e).2) : kruskalStep ep w s e = s := by
  unfold kruskalStep
  rw [if_pos h]

theorem kstep_fields {ep : Nat → Nat × Nat} {w : Nat → Int} {s : KState} {c : Nat}
    (hne : s.uf.r (ep c).1 ≠ s.uf.r (ep c).2) :
    (kruskalStep ep w s c).parents =
      upd (upd s.parents (reg s (ep c).1) s.numNodes) (reg s (ep c).2) s.numNodes ∧
    (kruskalStep ep w s c).levels = upd s.levels s.numNodes (w c) ∧
    (kruskalStep ep w s c).numNodes = s.numNodes + 1 ∧
    (kruskalStep ep w s c).found = s.found + 1 := by
  unfold kruskalStep
  rw [if_neg hne]
  exact ⟨rfl, rfl, rfl, rfl⟩

theorem kstep_same_mono {ep : Nat → Nat × Nat} {w : Nat → Int} {s : KState}
    {c : Nat} {x y : Nat} (h : s.uf.r x = s.uf.r y) :
    (kruskalStep ep w s c).uf.r x = (kruskalStep ep w s c).uf.r y := by
  unfold kruskalStep
  by_cases hc : s.uf.r (ep c).1 = s.uf.r (ep c).2
  · rw [if_pos hc]
    exact h
  · rw [if_neg hc]
    show (ufAdd s.uf ((ep c).1, (ep c).2)).r x = (ufAdd s.uf ((ep c).1, (ep c).2)).r y
    rw [ufAdd_r_eq s.uf hc x, ufAdd_r_eq s.uf hc y, h]

theorem kstep_c_intra {ep : Nat → Nat × Nat} {w : Nat → Int} {s : KState} {c : Nat}
    (hne : s.uf.r (ep c).1 ≠ s.uf.r (ep c).2) :
    (kruskalStep ep w s c).uf.r (ep c).1 = (kruskalStep ep w s c).uf.r (ep c).2 := by
  unfold kruskalStep
  rw [if_neg hne]
  show (ufAdd s.uf ((ep c).1, (ep c).2)).r (ep c).1 =
    (ufAdd s.uf ((ep c).1, (ep c).2)).r (ep c).2
  rw [ufAdd_r_eq s.uf hne, ufAdd_r_eq s.uf hne, if_neg hne, if_pos rfl]

/-- Regions after an accepting Kruskal step: the two merged classes now
point at the new node, all others are unchanged. -/
theorem reg_kstep {n : Nat} {ep : Nat → Nat × Nat} {w : Nat → Int} {s : KState}
    (inv : KInv n ep w s) {c : Nat}
    (hne : s.uf.r (ep c).1 ≠ s.uf.r (ep c).2) (v : Nat) :
    reg (kruskalStep ep w s c) v =
      if s.uf.r v = s.uf.r (ep c).1 ∨ s.uf.r v = s.uf.r (ep c).2 then s.numNodes
      else reg s v := by
  unfold kruskalStep
  rw [if_neg hne]
  show upd s.roots (s.uf.r (ep c).1) s.numNodes
    ((ufAdd s.uf ((ep c).1, (ep c).2)).r v) = _
  rw [ufAdd_r_eq s.uf hne v]
  by_cases h2 : s.uf.r v = s.uf.r (ep c).2
  · rw [if_pos h2, if_pos (Or.inr h2), upd_self]
  · rw [if_neg h2]
    by_cases h1 : s.uf.r v = s.uf.r (ep c).1
    · rw [if_pos (Or.inl h1), h1, upd_self]
    · rw [if_neg (by tauto : ¬(s.uf.r v = s.uf.r (ep c).1 ∨
        s.uf.r v = s.uf.r (ep c).2))]
      exact upd_other _ _ _ h1

theorem foldl_kstep_intra {ep : Nat → Nat × Nat} {w : Nat → Int} :
    ∀ (l : List Nat) (s : KState),
      (∀ e ∈ l, s.uf.r (ep e).1 = s.uf.r (ep e).2) →
      List.foldl (kruskalStep ep w) s l = s := by
  intro l
  induction l with
  | nil => intro s _; rfl
  | cons e tl ih =>
    intro s h
    rw [List.foldl_cons, kstep_intra (h e (List.mem_cons_self _ _))]
    exact ih s (fun e' he' => h e' (List.mem_cons.mpr (Or.inr he')))

theorem kscan_skip {ep : Nat → Nat × Nat} {w : Nat → Int} (t : Nat) :
    ∀ (l : List Nat) (rest : List Nat) (s : KState), s.found < t →
      (∀ e ∈ l, s.uf.r (ep e).1 = s.uf.r (ep e).2) →
      kruskalScan ep w t s (l ++ rest) = kruskalScan ep w t s rest := by
  intro l
  induction l with
  | nil => intro rest s _ _; rfl
  | cons e tl ih =>
    intro rest s hf h
    rw [List.cons_append]
    show (if s.found < t then
      kruskalScan ep w t (kruskalStep ep w s e) (tl ++ rest) else s) = _
    rw [if_pos hf, kstep_intra (h e (List.mem_cons_self _ _))]
    exact ih rest s hf (fun e' he' => h e' (List.mem_cons.mpr (Or.inr he')))

theorem kscan_accept {ep : Nat → Nat × Nat} {w : Nat → Int} {t : Nat} {s : KState}
    {e : Nat} (rest : List Nat) (hf : s.found < t) :
    kruskalScan ep w t s (e :: rest) =
      kruskalScan ep w t (kruskalStep ep w s e) rest := by
  show (if s.found < t then
    kruskalScan ep w t (kruskalStep ep w s e) rest else s) = _
  rw [if_pos hf]

/-- Number of live heap entries among the edge ids. -/
def heapCard (m : Nat) (st : BState) : Nat :=
  ((List.range m).filter (fun e => st.inH e)).length

theorem heapCard_lt_aux (p q : Nat → Bool) (e0 : Nat) :
    ∀ (l : List Nat), e0 ∈ l → l.Nodup → p e0 = true → q e0 = false →
      (∀ e ∈ l, e ≠ e0 → q e = p e) →
      (l.filter q).length < (l.filter p).length := by
  intro l
  induction l with
  | nil => intro h; cases h
  | cons a tl ih =>
    intro hmem hnd hp hq hagree
    rw [List.filter_cons, List.filter_cons]
    by_cases hae : a = e0
    · rw [hae, hp, hq]
      have heq : tl.filter q = tl.filter p := by
        apply List.filter_congr
        intro e he
        apply hagree e (List.mem_cons.mpr (Or.inr he))
        intro hee
        rw [hae] at hnd
        exact (List.nodup_cons.mp hnd).1 (hee ▸ he)
      rw [heq]
      simp
    · have hm : e0 ∈ tl := by
        rcases List.mem_cons.mp hmem with h | h
        · exact absurd h.symm hae
        · exact h
      have hrec := ih hm (List.nodup_cons.mp hnd).2 hp hq
        (fun e he hne => hagree e (List.mem_cons.mpr (Or.inr he)) hne)
      rw [hagree a (List.mem_cons_self _ _) hae]
      by_cases hpa : p a = true
      · rw [hpa]
        simpa using hrec
      · rw [Bool.not_eq_true] at hpa
        rw [hpa]
        simpa using hrec

theorem heapCard_lt {m : Nat} {b b' : BState} {e0 : Nat} (he : e0 < m)
    (h1 : b.inH e0 = true) (h2 : b'.inH e0 = false)
    (h3 : ∀ e, e < m → e ≠ e0 → b'.inH e = b.inH e) :
    heapCard m b' < heapCard m b :=
  heapCard_lt_aux (fun e => b.inH e) (fun e => b'.inH e) e0 (List.range m)
    (List.mem_range.mpr he) (List.nodup_range m) h1 h2
    (fun e hem hne => h3 e (List.mem_range.mp hem) hne)

/-! #### Characterisation of the neighbourhood exploration -/

/-- Edge `q` occupies a slot of descriptor `d`. -/
def eIn (d : NewNeighbour) (q : Nat) : Prop := q = d.edge1 ∨ d.edge2 = some q

/-- Descriptor `d`'s first edge is an `r`-side edge to its neighbour. -/
def nbh1 (m : Nat) (st : BState) (r : Nat) (d : NewNeighbour) : Prop :=
  d.edge1 < m ∧ incid st r d.edge1 = true ∧ d.nbVertex = otherV st r d.edge1

theorem addNb_of_any_false {nbs : List NewNeighbour} {nb e : Nat}
    (h : ¬ nbs.any (fun d => d.nbVertex == nb) = true) :
    addNb nbs nb e = nbs ++ [⟨nb, e, none⟩] := by
  unfold addNb
  rw [if_neg h]

theorem addNb_of_any_true {nbs : List NewNeighbour} {nb e : Nat}
    (h : nbs.any (fun d => d.nbVertex == nb) = true) :
    addNb nbs nb e =
      nbs.map (fun d => if d.nbVertex == nb then ⟨d.nbVertex, d.edge1, some e⟩
        else d) := by
  unfold addNb
  rw [if_pos h]

theorem any_nb_false {nbs : List NewNeighbour} {nb : Nat}
    (h : ∀ d ∈ nbs, d.nbVertex ≠ nb) :
    ¬ nbs.any (fun d => d.nbVertex == nb) = true := by
  intro hany
  obtain ⟨d, hd, hdnb⟩ := List.any_eq_true.mp hany
  exact h d hd (eq_of_beq hdnb)

/-- The first pass of `explore_region` from the empty list: one
single-edge descriptor per incident edge, with pairwise-distinct
neighbours, provided distinct incident edges have distinct neighbours. -/
theorem explore1_aux (m : Nat) (st : BState) (r : Nat)
    (hU : ∀ e e', e < m → e' < m → incid st r e = true → incid st r e' = true →
      otherV st r e = otherV st r e' → e = e') :
    ∀ (l : List Nat) (acc : List NewNeighbour),
      (∀ x ∈ l, x < m) → l.Nodup →
      (∀ d ∈ acc, d.edge2 = none ∧ nbh1 m st r d ∧ d.edge1 ∉ l) →
      acc.Pairwise (fun d d' => d.nbVertex ≠ d'.nbVertex) →
      (∀ d ∈ l.foldl (fun acc e =>
          if incid st r e then addNb acc (otherV st r e) e else acc) acc,
        d.edge2 = none ∧ nbh1 m st r d) ∧
      (l.foldl (fun acc e =>
          if incid st r e then addNb acc (otherV st r e) e else acc) acc).Pairwise
        (fun d d' => d.nbVertex ≠ d'.nbVertex) ∧
      (∀ q, (∃ d ∈ acc, d.edge1 = q) →
        ∃ d ∈ l.foldl (fun acc e =>
          if incid st r e then addNb acc (otherV st r e) e else acc) acc,
          d.edge1 = q) ∧
      (∀ e ∈ l, incid st r e = true →
        ∃ d ∈ l.foldl (fun acc e =>
          if incid st r e then addNb acc (otherV st r e) e else acc) acc,
          d.edge1 = e) := by
  intro l
  induction l with
  | nil =>
    intro acc _ _ hQ hP
    refine ⟨fun d hd => ⟨(hQ d hd).1, (hQ d hd).2.1⟩, hP,
      fun q hq => hq, fun e he => absurd he (List.not_mem_nil e)⟩
  | cons e tl ih =>
    intro acc hlm hnd hQ hP
    rw [List.foldl_cons]
    by_cases hinc : incid st r e = true
    · rw [if_pos hinc]
      have hem : e < m := hlm e (List.mem_cons_self _ _)
      have hnotin : ∀ d ∈ acc, d.nbVertex ≠ otherV st r e := by
        intro d hd hdn
        obtain ⟨_, ⟨h1m, h1i, h1n⟩, h1l⟩ := hQ d hd
        have := hU d.edge1 e h1m hem h1i hinc (h1n.symm.trans hdn)
        exact h1l (this ▸ List.mem_cons_self _ _)
      rw [addNb_of_any_false (any_nb_false hnotin)]
      have hQ' : ∀ d ∈ acc ++ [⟨otherV st r e, e, none⟩],
          d.edge2 = none ∧ nbh1 m st r d ∧ d.edge1 ∉ tl := by
        intro d hd
        rcases List.mem_append.mp hd with hd | hd
        · obtain ⟨h1, h2, h3⟩ := hQ d hd
          exact ⟨h1, h2, fun hh => h3 (List.mem_cons.mpr (Or.inr hh))⟩
        · rcases List.mem_singleton.mp hd with rfl
          exact ⟨rfl, ⟨hem, hinc, rfl⟩,
            fun hh => (List.nodup_cons.mp hnd).1 hh⟩
      have hP' : (acc ++ [(⟨otherV st r e, e, none⟩ : NewNeighbour)]).Pairwise
          (fun d d' => d.nbVertex ≠ d'.nbVertex) := by
        rw [List.pairwise_append]
        refine ⟨hP, by simp, ?_⟩
        intro d hd d' hd'
        rcases List.mem_singleton.mp hd' with rfl
        exact hnotin d hd
      obtain ⟨c1, c2, c3, c4⟩ := ih (acc ++ [⟨otherV st r e, e, none⟩])
        (fun x hx => hlm x (List.mem_cons.mpr (Or.inr hx)))
        (List.nodup_cons.mp hnd).2 hQ' hP'
      refine ⟨c1, c2, ?_, ?_⟩
      · intro q hq
        apply c3
        obtain ⟨d, hd, hde⟩ := hq
        exact ⟨d, List.mem_append.mpr (Or.inl hd), hde⟩
      · intro e' he' hinc'
        rcases List.mem_cons.mp he' with rfl | he'
        · apply c3
          exact ⟨⟨otherV st r e', e', none⟩,
            List.mem_append.mpr (Or.inr (List.mem_singleton.mpr rfl)), rfl⟩
        · exact c4 e' he' hinc'
    · rw [if_neg hinc]
      have hQ' : ∀ d ∈ acc, d.edge2 = none ∧ nbh1 m st r d ∧ d.edge1 ∉ tl := by
        intro d hd
        obtain ⟨h1, h2, h3⟩ := hQ d hd
        exact ⟨h1, h2, fun hh => h3 (List.mem_cons.mpr (Or.inr hh))⟩
      obtain ⟨c1, c2, c3, c4⟩ := ih acc
        (fun x hx => hlm x (List.mem_cons.mpr (Or.inr hx)))
        (List.nodup_cons.mp hnd).2 hQ' hP
      refine ⟨c1, c2, c3, ?_⟩
      intro e' he' hinc'
      rcases List.mem_cons.mp he' with rfl | he'
      · exact absurd hinc' hinc
      · exact c4 e' he' hinc'

/-- Descriptor states during the second pass. -/
def Case1n (m : Nat) (st : BState) (r1 : Nat) (d : NewNeighbour) : Prop :=
  d.edge2 = none ∧ nbh1 m st r1 d

def Case1s (m : Nat) (st : BState) (r1 r2 : Nat) (pend : List Nat)
    (d : NewNeighbour) : Prop :=
  (∃ e2, d.edge2 = some e2 ∧ e2 < m ∧ incid st r2 e2 = true ∧
    otherV st r2 e2 = d.nbVertex ∧ e2 ∉ pend) ∧ nbh1 m st r1 d

def Case2 (m : Nat) (st : BState) (r2 : Nat) (pend : List Nat)
    (d : NewNeighbour) : Prop :=
  d.edge2 = none ∧ nbh1 m st r2 d ∧ d.edge1 ∉ pend

/-- The second pass of `explore_region`: starting from the first pass's
descriptors, each incident edge either fills the second slot of the
descriptor of its neighbour or opens a fresh single-edge descriptor. -/
theorem explore2_aux (m : Nat) (st : BState) (r1 r2 : Nat)
    (hU2 : ∀ e e', e < m → e' < m → incid st r2 e = true →
      incid st r2 e' = true → otherV st r2 e = otherV st r2 e' → e = e') :
    ∀ (l : List Nat) (acc : List NewNeighbour),
      (∀ x ∈ l, x < m) → l.Nodup →
      (∀ d ∈ acc, Case1n m st r1 d ∨ Case1s m st r1 r2 l d ∨
        Case2 m st r2 l d) →
      acc.Pairwise (fun d d' => d.nbVertex ≠ d'.nbVertex) →
      (∀ d ∈ l.foldl (fun acc e =>
          if incid st r2 e then addNb acc (otherV st r2 e) e else acc) acc,
        Case1n m st r1 d ∨ Case1s m st r1 r2 [] d ∨ Case2 m st r2 [] d) ∧
      (l.foldl (fun acc e =>
          if incid st r2 e then addNb acc (otherV st r2 e) e else acc)
        acc).Pairwise (fun d d' => d.nbVertex ≠ d'.nbVertex) ∧
      (∀ q, (∃ d ∈ acc, eIn d q) →
        ∃ d ∈ l.foldl (fun acc e =>
          if incid st r2 e then addNb acc (otherV st r2 e) e else acc) acc,
          eIn d q) ∧
      (∀ e ∈ l, incid st r2 e = true →
        ∃ d ∈ l.foldl (fun acc e =>
          if incid st r2 e then addNb acc (otherV st r2 e) e else acc) acc,
          eIn d e) := by
  intro l
  induction l with
  | nil =>
    intro acc _ _ hQ hP
    exact ⟨hQ, hP, fun q hq => hq, fun e he => absurd he (List.not_mem_nil e)⟩
  | cons e tl ih =>
    intro acc hlm hnd hQ hP
    rw [List.foldl_cons]
    have hem : e < m := hlm e (List.mem_cons_self _ _)
    by_cases hinc : incid st r2 e = true
    · rw [if_pos hinc]
      by_cases hany : acc.any (fun d => d.nbVertex == otherV st r2 e) = true
      · -- fill the matching descriptor's second slot
        rw [addNb_of_any_true hany]
        have hmatch : ∀ d ∈ acc, d.nbVertex = otherV st r2 e →
            Case1n m st r1 d := by
          intro d hd hdn
          rcases hQ d hd with hc | hc | hc
          · exact hc
          · exfalso
            obtain ⟨⟨e2, _, h2m, h2i, h2o, h2l⟩, _⟩ := hc
            have := hU2 e2 e h2m hem h2i hinc (h2o.trans hdn)
            exact h2l (this ▸ List.mem_cons_self _ _)
          · exfalso
            obtain ⟨_, ⟨h1m, h1i, h1n⟩, h1l⟩ := hc
            have := hU2 d.edge1 e h1m hem h1i hinc (h1n.symm.trans hdn)
            exact h1l (this ▸ List.mem_cons_self _ _)
        have hQ' : ∀ d ∈ acc.map (fun d => if d.nbVertex == otherV st r2 e
            then ⟨d.nbVertex, d.edge1, some e⟩ else d),
            Case1n m st r1 d ∨ Case1s m st r1 r2 tl d ∨ Case2 m st r2 tl d := by
          intro d hd
          obtain ⟨d0, hd0, hd0e⟩ := List.mem_map.mp hd
          have hd0e2 : (if (d0.nbVertex == otherV st r2 e) = true
              then (⟨d0.nbVertex, d0.edge1, some e⟩ : NewNeighbour) else d0) =
              d := hd0e
          by_cases hb : (d0.nbVertex == otherV st r2 e) = true
          · rw [if_pos hb] at hd0e2
            have hnb : d0.nbVertex = otherV st r2 e := eq_of_beq hb
            obtain ⟨_, hn1⟩ := hmatch d0 hd0 hnb
            refine Or.inr (Or.inl ?_)
            rw [← hd0e2]
            refine ⟨⟨e, rfl, hem, hinc, hnb.symm, ?_⟩, hn1⟩
            exact (List.nodup_cons.mp hnd).1
          · rw [if_neg hb] at hd0e2
            rw [← hd0e2]
            rcases hQ d0 hd0 with hc | hc | hc
            · exact Or.inl hc
            · refine Or.inr (Or.inl ?_)
              obtain ⟨⟨e2, ha, hb2, hc2, hd2, he2⟩, hn1⟩ := hc
              exact ⟨⟨e2, ha, hb2, hc2, hd2,
                fun hh => he2 (List.mem_cons.mpr (Or.inr hh))⟩, hn1⟩
            · refine Or.inr (Or.inr ?_)
              obtain ⟨ha, hb2, hc2⟩ := hc
              exact ⟨ha, hb2, fun hh => hc2 (List.mem_cons.mpr (Or.inr hh))⟩
        have hP' : (acc.map (fun d => if d.nbVertex == otherV st r2 e
            then ⟨d.nbVertex, d.edge1, some e⟩ else d)).Pairwise
            (fun d d' => d.nbVertex ≠ d'.nbVertex) := by
          have hnb : ∀ d : NewNeighbour,
              ((fun d => if d.nbVertex == otherV st r2 e
                then (⟨d.nbVertex, d.edge1, some e⟩ : NewNeighbour)
                else d) d).nbVertex = d.nbVertex := by
            intro d
            show (if (d.nbVertex == otherV st r2 e) = true
              then (⟨d.nbVertex, d.edge1, some e⟩ : NewNeighbour)
              else d).nbVertex = d.nbVertex
            by_cases hb : (d.nbVertex == otherV st r2 e) = true
            · rw [if_pos hb]
            · rw [if_neg hb]
          apply List.pairwise_map.mpr
          apply List.Pairwise.imp_of_mem ?_ hP
          intro d d' _ _ hne
          rw [hnb d, hnb d']
          exact hne
        obtain ⟨c1, c2, c3, c4⟩ := ih _
          (fun x hx => hlm x (List.mem_cons.mpr (Or.inr hx)))
          (List.nodup_cons.mp hnd).2 hQ' hP'
        refine ⟨c1, c2, ?_, ?_⟩
        · intro q hq
          apply c3
          obtain ⟨d, hd, hde⟩ := hq
          by_cases hb : (d.nbVertex == otherV st r2 e) = true
          · refine ⟨⟨d.nbVertex, d.edge1, some e⟩,
              List.mem_map.mpr ⟨d, hd, by
                show (if (d.nbVertex == otherV st r2 e) = true
                  then (⟨d.nbVertex, d.edge1, some e⟩ : NewNeighbour)
                  else d) = _
                rw [if_pos hb]⟩, ?_⟩
            rcases hde with hde | hde
            · exact Or.inl hde
            · exfalso
              have := (hmatch d hd (eq_of_beq hb)).1
              rw [this] at hde
              cases hde
          · refine ⟨d, List.mem_map.mpr ⟨d, hd, by
              show (if (d.nbVertex == otherV st r2 e) = true
                then (⟨d.nbVertex, d.edge1, some e⟩ : NewNeighbour)
                else d) = _
              rw [if_neg hb]⟩, hde⟩
        · intro e' he' hinc'
          rcases List.mem_cons.mp he' with rfl | he'
          · apply c3
            obtain ⟨d, hd, hdnb⟩ := List.any_eq_true.mp hany
            have hb : (d.nbVertex == otherV st r2 e') = true := hdnb
            refine ⟨⟨d.nbVertex, d.edge1, some e'⟩,
              List.mem_map.mpr ⟨d, hd, by
                show (if (d.nbVertex == otherV st r2 e') = true
                  then (⟨d.nbVertex, d.edge1, some e'⟩ : NewNeighbour)
                  else d) = _
                rw [if_pos hb]⟩, Or.inr rfl⟩
          · exact c4 e' he' hinc'
      · -- append a fresh descriptor
        rw [addNb_of_any_false hany]
        have hQ' : ∀ d ∈ acc ++ [⟨otherV st r2 e, e, none⟩],
            Case1n m st r1 d ∨ Case1s m st r1 r2 tl d ∨ Case2 m st r2 tl d := by
          intro d hd
          rcases List.mem_append.mp hd with hd | hd
          · rcases hQ d hd with hc | hc | hc
            · exact Or.inl hc
            · refine Or.inr (Or.inl ?_)
              obtain ⟨⟨e2, ha, hb2, hc2, hd2, he2⟩, hn1⟩ := hc
              exact ⟨⟨e2, ha, hb2, hc2, hd2,
                fun hh => he2 (List.mem_cons.mpr (Or.inr hh))⟩, hn1⟩
            · refine Or.inr (Or.inr ?_)
              obtain ⟨ha, hb2, hc2⟩ := hc
              exact ⟨ha, hb2, fun hh => hc2 (List.mem_cons.mpr (Or.inr hh))⟩
          · rcases List.mem_singleton.mp hd with rfl
            exact Or.inr (Or.inr ⟨rfl, ⟨hem, hinc, rfl⟩,
              fun hh => (List.nodup_cons.mp hnd).1 hh⟩)
        have hP' : (acc ++ [(⟨otherV st r2 e, e, none⟩ : NewNeighbour)]).Pairwise
            (fun d d' => d.nbVertex ≠ d'.nbVertex) := by
          rw [List.pairwise_append]
          refine ⟨hP, List.pairwise_singleton _ _, ?_⟩
          intro d hd d' hd'
          rcases List.mem_singleton.mp hd' with rfl
          intro hdn
          exact hany (List.any_eq_true.mpr
            ⟨d, hd, by
              show (d.nbVertex == otherV st r2 e) = true
              rw [hdn]
              exact beq_self_eq_true _⟩)
        obtain ⟨c1, c2, c3, c4⟩ := ih _
          (fun x hx => hlm x (List.mem_cons.mpr (Or.inr hx)))
          (List.nodup_cons.mp hnd).2 hQ' hP'
        refine ⟨c1, c2, ?_, ?_⟩
        · intro q hq
          apply c3
          obtain ⟨d, hd, hde⟩ := hq
          exact ⟨d, List.mem_append.mpr (Or.inl hd), hde⟩
        · intro e' he' hinc'
          rcases List.mem_cons.mp he' with rfl | he'
          · apply c3
            exact ⟨⟨otherV st r2 e', e', none⟩,
              List.mem_append.mpr (Or.inr (List.mem_singleton.mpr rfl)),
              Or.inl rfl⟩
          · exact c4 e' he' hinc'
    · rw [if_neg hinc]
      have hQ' : ∀ d ∈ acc, Case1n m st r1 d ∨ Case1s m st r1 r2 tl d ∨
          Case2 m st r2 tl d := by
        intro d hd
        rcases hQ d hd with hc | hc | hc
        · exact Or.inl hc
        · refine Or.inr (Or.inl ?_)
          obtain ⟨⟨e2, ha, hb2, hc2, hd2, he2⟩, hn1⟩ := hc
          exact ⟨⟨e2, ha, hb2, hc2, hd2,
            fun hh => he2 (List.mem_cons.mpr (Or.inr hh))⟩, hn1⟩
        · refine Or.inr (Or.inr ?_)
          obtain ⟨ha, hb2, hc2⟩ := hc
          exact ⟨ha, hb2, fun hh => hc2 (List.mem_cons.mpr (Or.inr hh))⟩
      obtain ⟨c1, c2, c3, c4⟩ := ih acc
        (fun x hx => hlm x (List.mem_cons.mpr (Or.inr hx)))
        (List.nodup_cons.mp hnd).2 hQ' hP
      refine ⟨c1, c2, c3, ?_⟩
      intro e' he' hinc'
      rcases List.mem_cons.mp he' with rfl | he'
      · exact absurd hinc' hinc
      · exact c4 e' he' hinc'

/-! #### The linkage callback and the per-descriptor surgery -/

/-- The min-linkage value of a descriptor read from a weight array. -/
def nvF (wv : Nat → Int) (d : NewNeighbour) : Int :=
  match d.edge2 with
  | some e2 => if wv e2 < wv d.edge1 then wv e2 else wv d.edge1
  | none => wv d.edge1

theorem minLinkRun_spec (wv0 : Nat → Int) :
    ∀ (L : List NewNeighbour) (wv : Nat → Int),
      L.Pairwise (fun d d' => ∀ q, ¬ (eIn d q ∧ eIn d' q)) →
      (∀ d ∈ L, ∀ q, eIn d q → wv q = wv0 q) →
      (minLinkRun wv L).2 = L.map (fun d => (d, nvF wv0 d)) ∧
      (∀ d ∈ L, (minLinkRun wv L).1 d.edge1 = nvF wv0 d) ∧
      (∀ q, (∀ d ∈ L, d.edge1 ≠ q) → (minLinkRun wv L).1 q = wv q) := by
  intro L
  induction L with
  | nil =>
    intro wv _ _
    exact ⟨rfl, fun d hd => absurd hd (List.not_mem_nil d),
      fun q _ => rfl⟩
  | cons d rest ih =>
    intro wv hdisj hagr
    obtain ⟨hhead, hrest⟩ := List.pairwise_cons.mp hdisj
    have hnu : (match d.edge2 with
        | some e2 => if wv e2 < wv d.edge1 then wv e2 else wv d.edge1
        | none => wv d.edge1) = nvF wv0 d := by
      unfold nvF
      cases hd2 : d.edge2 with
      | none =>
        show wv d.edge1 = wv0 d.edge1
        exact hagr d (List.mem_cons_self _ _) d.edge1 (Or.inl rfl)
      | some e2 =>
        show (if wv e2 < wv d.edge1 then wv e2 else wv d.edge1) =
          (if wv0 e2 < wv0 d.edge1 then wv0 e2 else wv0 d.edge1)
        rw [hagr d (List.mem_cons_self _ _) d.edge1 (Or.inl rfl),
          hagr d (List.mem_cons_self _ _) e2 (Or.inr hd2)]
    have hq1 : ∀ d' ∈ rest, ∀ q, eIn d' q → q ≠ d.edge1 := by
      intro d' hd' q hq hqe
      exact hhead d' hd' q ⟨hqe ▸ Or.inl rfl, hq⟩
    have hagr' : ∀ d' ∈ rest, ∀ q, eIn d' q →
        upd wv d.edge1 (nvF wv0 d) q = wv0 q := by
      intro d' hd' q hq
      rw [upd_other _ _ _ (hq1 d' hd' q hq)]
      exact hagr d' (List.mem_cons.mpr (Or.inr hd')) q hq
    obtain ⟨c1, c2, c3⟩ := ih (upd wv d.edge1 (nvF wv0 d)) hrest hagr'
    have hfst : (minLinkRun wv (d :: rest)).1 =
        (minLinkRun (upd wv d.edge1 (nvF wv0 d)) rest).1 := by
      show (minLinkRun (upd wv d.edge1 _) rest).1 = _
      rw [hnu]
    have hsnd : (minLinkRun wv (d :: rest)).2 =
        (d, nvF wv0 d) ::
          (minLinkRun (upd wv d.edge1 (nvF wv0 d)) rest).2 := by
      show (d, _) :: (minLinkRun (upd wv d.edge1 _) rest).2 = _
      rw [hnu]
    refine ⟨?_, ?_, ?_⟩
    · rw [hsnd, c1, List.map_cons]
    · intro d' hd'
      rcases List.mem_cons.mp hd' with rfl | hd'
      · rw [hfst, c3 d'.edge1 (fun d'' hd'' => by
          intro hee
          exact hq1 d'' hd'' d''.edge1 (Or.inl rfl) hee), upd_self]
      · rw [hfst]
        exact c2 d' hd'
    · intro q hq
      rw [hfst, c3 q (fun d'' hd'' => hq d'' (List.mem_cons.mpr (Or.inr hd'')))]
      exact upd_other _ _ _ (fun hh => hq d (List.mem_cons_self _ _) hh.symm)

theorem procFold_spec (p : Nat) :
    ∀ (LO : List (NewNeighbour × Int)) (st : BState),
      (LO.map Prod.fst).Pairwise (fun d d' => ∀ q, ¬ (eIn d q ∧ eIn d' q)) →
      (∀ dn ∈ LO, ∀ e2, dn.1.edge2 = some e2 → e2 ≠ dn.1.edge1) →
      (LO.foldl (procNb p) st).par = st.par ∧
      (LO.foldl (procNb p) st).lev = st.lev ∧
      (LO.foldl (procNb p) st).numV = st.numV ∧
      (LO.foldl (procNb p) st).cnt = st.cnt ∧
      (LO.foldl (procNb p) st).inH = st.inH ∧
      (LO.foldl (procNb p) st).wv = st.wv ∧
      (∀ q, (∀ dn ∈ LO, ¬ eIn dn.1 q) →
        (LO.foldl (procNb p) st).act q = st.act q ∧
        (LO.foldl (procNb p) st).rem q = st.rem q ∧
        (LO.foldl (procNb p) st).bep q = st.bep q ∧
        (LO.foldl (procNb p) st).key q = st.key q) ∧
      (∀ dn ∈ LO,
        (LO.foldl (procNb p) st).bep dn.1.edge1 = (dn.1.nbVertex, p) ∧
        (LO.foldl (procNb p) st).key dn.1.edge1 = dn.2 ∧
        (LO.foldl (procNb p) st).act dn.1.edge1 = true ∧
        (LO.foldl (procNb p) st).rem dn.1.edge1 = st.rem dn.1.edge1) ∧
      (∀ dn ∈ LO, ∀ e2, dn.1.edge2 = some e2 →
        (LO.foldl (procNb p) st).rem e2 = true ∧
        (LO.foldl (procNb p) st).act e2 = false) := by
  intro LO
  induction LO with
  | nil =>
    intro st _ _
    refine ⟨rfl, rfl, rfl, rfl, rfl, rfl, fun q _ => ⟨rfl, rfl, rfl, rfl⟩,
      fun dn hdn => absurd hdn (List.not_mem_nil dn),
      fun dn hdn => absurd hdn (List.not_mem_nil dn)⟩
  | cons dn rest ih =>
    intro st hdisj hsep
    rw [List.map_cons] at hdisj
    obtain ⟨hhead, hrest⟩ := List.pairwise_cons.mp hdisj
    have hq1 : ∀ dn' ∈ rest, ∀ q, eIn dn'.1 q → ¬ eIn dn.1 q := by
      intro dn' hdn' q hq hqe
      exact hhead dn'.1 (List.mem_map.mpr ⟨dn', hdn', rfl⟩) q ⟨hqe, hq⟩
    rw [List.foldl_cons]
    obtain ⟨c1, c2, c3, c4, c5, c6, c7, c8, c9⟩ := ih (procNb p st dn) hrest
      (fun dn' hdn' => hsep dn' (List.mem_cons.mpr (Or.inr hdn')))
    have hfields : (procNb p st dn).par = st.par ∧
        (procNb p st dn).lev = st.lev ∧ (procNb p st dn).numV = st.numV ∧
        (procNb p st dn).cnt = st.cnt ∧ (procNb p st dn).inH = st.inH ∧
        (procNb p st dn).wv = st.wv := by
      unfold procNb
      cases dn.1.edge2 with
      | some e2 => exact ⟨rfl, rfl, rfl, rfl, rfl, rfl⟩
      | none => exact ⟨rfl, rfl, rfl, rfl, rfl, rfl⟩
    have huntouched : ∀ q, ¬ eIn dn.1 q →
        (procNb p st dn).act q = st.act q ∧
        (procNb p st dn).rem q = st.rem q ∧
        (procNb p st dn).bep q = st.bep q ∧
        (procNb p st dn).key q = st.key q := by
      intro q hq
      have hq1' : q ≠ dn.1.edge1 := fun hh => hq (Or.inl hh)
      unfold procNb
      cases hd2 : dn.1.edge2 with
      | some e2 =>
        have hq2' : q ≠ e2 := fun hh => hq (Or.inr (hh ▸ hd2))
        exact ⟨(upd_other _ _ _ hq1').trans (upd_other _ _ _ hq2'),
          upd_other _ _ _ hq2', upd_other _ _ _ hq1', upd_other _ _ _ hq1'⟩
      | none =>
        exact ⟨upd_other _ _ _ hq1', rfl, upd_other _ _ _ hq1',
          upd_other _ _ _ hq1'⟩
    have hself : (procNb p st dn).bep dn.1.edge1 = (dn.1.nbVertex, p) ∧
        (procNb p st dn).key dn.1.edge1 = dn.2 ∧
        (procNb p st dn).act dn.1.edge1 = true ∧
        (procNb p st dn).rem dn.1.edge1 = st.rem dn.1.edge1 := by
      unfold procNb
      cases hd2 : dn.1.edge2 with
      | some e2 =>
        have hne : dn.1.edge1 ≠ e2 :=
          fun hh => hsep dn (List.mem_cons_self _ _) e2 hd2 hh.symm
        exact ⟨upd_self _ _ _, upd_self _ _ _, upd_self _ _ _,
          upd_other _ _ _ hne⟩
      | none =>
        exact ⟨upd_self _ _ _, upd_self _ _ _, upd_self _ _ _, rfl⟩
    have hsecond : ∀ e2, dn.1.edge2 = some e2 →
        (procNb p st dn).rem e2 = true ∧ (procNb p st dn).act e2 = false := by
      intro e2 hd2
      have hne : e2 ≠ dn.1.edge1 := hsep dn (List.mem_cons_self _ _) e2 hd2
      unfold procNb
      rw [hd2]
      exact ⟨upd_self _ _ _, (upd_other _ _ _ hne).trans (upd_self _ _ _)⟩
    refine ⟨c1.trans hfields.1, c2.trans hfields.2.1, c3.trans hfields.2.2.1,
      c4.trans hfields.2.2.2.1, c5.trans hfields.2.2.2.2.1,
      c6.trans hfields.2.2.2.2.2, ?_, ?_, ?_⟩
    · intro q hq
      obtain ⟨u1, u2, u3, u4⟩ := c7 q
        (fun dn' hdn' => hq dn' (List.mem_cons.mpr (Or.inr hdn')))
      obtain ⟨v1, v2, v3, v4⟩ := huntouched q (hq dn (List.mem_cons_self _ _))
      exact ⟨u1.trans v1, u2.trans v2, u3.trans v3, u4.trans v4⟩
    · intro dn' hdn'
      rcases List.mem_cons.mp hdn' with rfl | hdn'
      · obtain ⟨u1, u2, u3, u4⟩ := c7 dn'.1.edge1
          (fun dn'' hdn'' hin => hq1 dn'' hdn'' dn'.1.edge1 hin (Or.inl rfl))
        obtain ⟨v1, v2, v3, v4⟩ := hself
        exact ⟨u3.trans v1, u4.trans v2, u1.trans v3, u2.trans v4⟩
      · obtain ⟨w1, w2, w3, w4⟩ := c8 dn' hdn'
        exact ⟨w1, w2, w3, w4.trans (huntouched dn'.1.edge1
          (fun hin => hq1 dn' hdn' dn'.1.edge1 (Or.inl rfl) hin)).2.1⟩
    · intro dn' hdn' e2 hd2
      rcases List.mem_cons.mp hdn' with rfl | hdn'
      · obtain ⟨u1, u2, u3, u4⟩ := c7 e2
          (fun dn'' hdn'' hin => hq1 dn'' hdn'' e2 hin (Or.inr hd2))
        obtain ⟨v1, v2⟩ := hsecond e2 hd2
        exact ⟨u2.trans v1, u1.trans v2⟩
      · exact c9 dn' hdn' e2 hd2

/-- Tree isomorphism ignoring the numbering of internal nodes: a map on
node indices, injective on the first tree's nodes, fixing every leaf and
commuting with the parent maps. -/
def TreeIso (n : Nat) (t1 t2 : Htree) : Prop :=
  t1.size = t2.size ∧
  ∃ σ : Nat → Nat,
    (∀ v, v < t1.size → σ v < t2.size) ∧
    (∀ v v', v < t1.size → v' < t1.size → σ v = σ v' → v = v') ∧
    (∀ v, v < n → σ v = v) ∧
    (∀ v, v < t1.size → t2.par (σ v) = σ (t1.par v))

/-- A connected multigraph: two parallel edges between vertices 0 and 1
(weights 1 and 2) and an edge from 1 to 2 (weight 3). -/
def epM8 : Nat → Nat × Nat :=
  fun e => if e = 0 then (0, 1) else if e = 1 then (0, 1) else (1, 2)

def wM8 : Nat → Int := fun e => if e = 0 then 1 else if e = 1 then 2 else 3

/-- A simple connected graph with uniform (tied) edge weights: a cycle
0–1–2–3 plus the chord 0–2, all weights 5. -/
def epT8 : Nat → Nat × Nat :=
  fun e => if e = 0 then (0, 1) else if e = 1 then (1, 2)
    else if e = 2 then (2, 3) else (0, 2)

def wT8 : Nat → Int := fun _ => 5

theorem C8_min_linkage_counterexample :
    (Connected 3 3 epM8 ∧ (bptCanonical 3 3 epM8 wM8).isSome = true ∧
      ¬ TreeIso 3 (bptMinLinkage 3 3 epM8 wM8).1
        ⟨((bptCanonical 3 3 epM8 wM8).getD bptDefault).numNodesT,
          ((bptCanonical 3 3 epM8 wM8).getD bptDefault).par⟩) ∧
    (Connected 4 4 epT8 ∧ (bptCanonical 4 4 epT8 wT8).isSome = true ∧
      ¬ TreeIso 4 (bptMinLinkage 4 4 epT8 wT8).1
        ⟨((bptCanonical 4 4 epT8 wT8).getD bptDefault).numNodesT,
          ((bptCanonical 4 4 epT8 wT8).getD bptDefault).par⟩) := by
  refine ⟨⟨by decide, by decide, ?_⟩, ⟨by decide, by decide, ?_⟩⟩
  · rintro ⟨hsz, σ, hb, hinj, hfix, hcomm⟩
    have h2 := hcomm 2 (by decide)
    rw [hfix 2 (by decide)] at h2
    rw [show (bptMinLinkage 3 3 epM8 wM8).1.par 2 = 2 by decide] at h2
    rw [hfix 2 (by decide)] at h2
    have h2' : ((bptCanonical 3 3 epM8 wM8).getD bptDefault).par 2 = 2 := h2
    rw [show ((bptCanonical 3 3 epM8 wM8).getD bptDefault).par 2 = 4
      by decide] at h2'
    exact absurd h2' (by decide)
  · rintro ⟨hsz, σ, hb, hinj, hfix, hcomm⟩
    have h2 := hcomm 2 (by decide)
    have h3 := hcomm 3 (by decide)
    rw [hfix 2 (by decide)] at h2
    rw [hfix 3 (by decide)] at h3
    rw [show (bptMinLinkage 4 4 epT8 wT8).1.par 2 = 5 by decide] at h2
    rw [show (bptMinLinkage 4 4 epT8 wT8).1.par 3 = 5 by decide] at h3
    have h2' : ((bptCanonical 4 4 epT8 wT8).getD bptDefault).par 2 = σ 5 := h2
    have h3' : ((bptCanonical 4 4 epT8 wT8).getD bptDefault).par 3 = σ 5 := h3
    rw [show ((bptCanonical 4 4 epT8 wT8).getD bptDefault).par 2 = 5
      by decide] at h2'
    rw [show ((bptCanonical 4 4 epT8 wT8).getD bptDefault).par 3 = 6
      by decide] at h3'
    rw [← h2'] at h3'
    exact absurd h3' (by decide)

/-- C9: the weighted-average linkage rule: with two edges it computes
`m′ = m[e1] + m[e2]` and `v′ = (v[e1]*m[e1] + v[e2]*m[e2]) / m′`; with one
edge it passes the first edge's value and mass through; in both cases it
writes the results into the value and mass arrays at the first edge's
slot (leaving all other slots unchanged) and exposes the value as the new
edge weight, and the loop emits these outputs in descriptor order. -/
theorem C9_average_linkage (vals wts : Nat → ℚ) (nb : NewNeighbour) :
    (∀ e2, nb.edge2 = some e2 →
      (avgVisit vals wts nb).2.2 =
        (vals nb.edge1 * wts nb.edge1 + vals e2 * wts e2) /
          (wts nb.edge1 + wts e2) ∧
      (avgVisit vals wts nb).2.1 nb.edge1 = wts nb.edge1 + wts e2 ∧
      (avgVisit vals wts nb).1 nb.edge1 = (avgVisit vals wts nb).2.2) ∧
    (nb.edge2 = none →
      (avgVisit vals wts nb).2.2 = vals nb.edge1 ∧
      (avgVisit vals wts nb).2.1 nb.edge1 = wts nb.edge1 ∧
      (avgVisit vals wts nb).1 nb.edge1 = (avgVisit vals wts nb).2.2) ∧
    (∀ j, j ≠ nb.edge1 →
      (avgVisit vals wts nb).1 j = vals j ∧
      (avgVisit vals wts nb).2.1 j = wts j) ∧
    (∀ rest, (avgLinkage vals wts (nb :: rest)).2 =
      (avgVisit vals wts nb).2.2 ::
        (avgLinkage (avgVisit vals wts nb).1
          (avgVisit vals wts nb).2.1 rest).2) := by
  refine ⟨?_, ?_, ?_, ?_⟩
  · intro e2 h2
    unfold avgVisit
    rw [h2]
    exact ⟨rfl, upd_self _ _ _, (upd_self _ _ _).trans rfl⟩
  · intro h2
    unfold avgVisit
    rw [h2]
    exact ⟨rfl, upd_self _ _ _, (upd_self _ _ _).trans rfl⟩
  · intro j hj
    unfold avgVisit
    cases h2 : nb.edge2 with
    | none => exact ⟨upd_other _ _ _ hj, upd_other _ _ _ hj⟩
    | some e2 => exact ⟨upd_other _ _ _ hj, upd_other _ _ _ hj⟩
  · intro rest
    rfl

/-- A concrete two-edge descriptor. -/
def nbEx : NewNeighbour := ⟨0, 1, some 2⟩

def vEx9 : Nat → ℚ := fun i => (i : ℚ) + 1

def wEx9 : Nat → ℚ := fun i => (i : ℚ) + 2

theorem C9_average_linkage_witness :
    nbEx.edge2 = some 2 ∧
    (avgVisit vEx9 wEx9 nbEx).2.2 =
      (vEx9 nbEx.edge1 * wEx9 nbEx.edge1 + vEx9 2 * wEx9 2) /
        (wEx9 nbEx.edge1 + wEx9 2) :=
  ⟨rfl, ((C9_average_linkage vEx9 wEx9 nbEx).1 2 rfl).1⟩



theorem incid_iff {st : BState} {r e : Nat} :
    incid st r e = true ↔
      st.rem e = false ∧ ((st.bep e).1 = r ∨ (st.bep e).2 = r) := by
  unfold incid
  rw [Bool.and_eq_true, Bool.or_eq_true, Bool.not_eq_true']
  constructor
  · rintro ⟨h1, h2⟩
    refine ⟨h1, ?_⟩
    rcases h2 with h2 | h2
    · exact Or.inl (of_decide_eq_true h2)
    · exact Or.inr (of_decide_eq_true h2)
  · rintro ⟨h1, h2⟩
    refine ⟨h1, ?_⟩
    rcases h2 with h2 | h2
    · exact Or.inl (decide_eq_true h2)
    · exact Or.inr (decide_eq_true h2)

theorem otherV_pairEq {st : BState} {r e : Nat}
    (h : (st.bep e).1 = r ∨ (st.bep e).2 = r) :
    pairEq (r, otherV st r e) (st.bep e) := by
  unfold otherV
  by_cases h1 : (st.bep e).1 = r
  · rw [if_pos h1]
    exact Or.inl ⟨h1.symm, rfl⟩
  · rw [if_neg h1]
    rcases h with h | h
    · exact absurd h h1
    · exact Or.inr ⟨h.symm, rfl⟩

theorem upd_comm_same {α : Type} (f : Nat → α) (a b : Nat) (v : α) (j : Nat) :
    upd (upd f a v) b v j = upd (upd f b v) a v j := by
  unfold upd
  by_cases hb : j = b <;> by_cases ha : j = a <;> simp [hb, ha]

theorem upd_congr {α : Type} {f g : Nat → α} (h : ∀ x, f x = g x)
    (i : Nat) (v : α) (j : Nat) : upd f i v j = upd g i v j := by
  unfold upd
  by_cases hj : j = i <;> simp [hj, h]

theorem pairwise_nb_eq {L : List NewNeighbour}
    (h : L.Pairwise (fun d d' => d.nbVertex ≠ d'.nbVertex)) :
    ∀ d ∈ L, ∀ d' ∈ L, d.nbVertex = d'.nbVertex → d = d' := by
  induction L with
  | nil => intro d hd; cases hd
  | cons a tl ih =>
    obtain ⟨hhead, htl⟩ := List.pairwise_cons.mp h
    intro d hd d' hd' hnb
    rcases List.mem_cons.mp hd with h1 | h1
    · rcases List.mem_cons.mp hd' with h2 | h2
      · rw [h1, h2]
      · exfalso
        apply hhead d' h2
        rw [← h1]
        exact hnb
    · rcases List.mem_cons.mp hd' with h2 | h2
      · exfalso
        apply hhead d h1
        rw [← h2]
        exact hnb.symm
      · exact ih htl d h1 d' h2 hnb

/-! #### The bisimulation invariant -/

/-- The bisimulation invariant between the Kruskal scan (state `s`, with
`R` the unprocessed suffix of the sorted edge list) and the fusion loop
(state `b`): tree arrays and counters coincide, live graph edges stand
for pairs of distinct current regions carrying the minimum original
weight between those regions, one live edge per region pair, and every
inter-region original edge has a live representative. -/
structure BInv (n m : Nat) (ep : Nat → Nat × Nat) (w : Nat → Int)
    (s : KState) (R : List Nat) (b : BState) : Prop where
  hk : KInv n ep w s
  hsplit : ∃ P, sortedEdgeIndices m w = P ++ R
  hscan : kruskalScan ep w (numEdgeMst n) s R = bptScanState n m ep w
  hRall : ∀ e, e < m → s.uf.r (ep e).1 ≠ s.uf.r (ep e).2 → e ∈ R
  hpar : ∀ j, b.par j = s.parents j
  hlev : ∀ j, b.lev j = s.levels j
  hnum : b.numV = s.numNodes
  hcnt : b.cnt = s.numNodes
  hlive_inter : ∀ e, e < m → b.rem e = false → s.uf.r (ep e).1 ≠ s.uf.r (ep e).2
  hlive_ep : ∀ e, e < m → b.rem e = false → pairEq (b.bep e) (rp ep s e)
  hlive_act : ∀ e, e < m → b.rem e = false → b.act e = true
  hlive_inH : ∀ e, e < m → b.rem e = false → b.inH e = true
  hact_live : ∀ e, e < m → b.act e = true → b.rem e = false
  hkey_le : ∀ e e2, e < m → e2 < m → b.rem e = false →
    pairEq (rp ep s e) (rp ep s e2) → b.key e ≤ w e2
  hkey_wit : ∀ e, e < m → b.rem e = false →
    ∃ c, c < m ∧ pairEq (rp ep s e) (rp ep s c) ∧ b.key e = w c
  hwv : ∀ e, e < m → b.rem e = false → b.wv e = b.key e
  huniq : ∀ e e2, e < m → e2 < m → b.rem e = false → b.rem e2 = false →
    pairEq (rp ep s e) (rp ep s e2) → e = e2
  hcompl : ∀ e, e < m → s.uf.r (ep e).1 ≠ s.uf.r (ep e).2 →
    ∃ l, l < m ∧ b.rem l = false ∧ pairEq (rp ep s e) (rp ep s l)

/-- What the two exploration passes of a fusion produce: every slot of
every descriptor is a live non-fused edge joining one of the two fused
region nodes to the descriptor's neighbour; a filled second slot pairs a
first-region edge with a second-region edge to the same neighbour;
neighbours are pairwise distinct; and every live edge touching either
fused region occupies a slot. -/
theorem fuseNbs_spec {n m : Nat} {ep : Nat → Nat × Nat} {w : Nat → Int}
    {s : KState} {R : List Nat} {b : BState} (hval : GraphValid n m ep)
    (inv : BInv n m ep w s R b) {e0 : Nat} (he0m : e0 < m)
    (hrem0 : b.rem e0 = false) :
    (∀ d ∈ fuseNbs m b e0, ∀ q, eIn d q → q < m ∧ q ≠ e0 ∧ b.rem q = false ∧
      ∃ j, (j = (b.bep e0).1 ∨ j = (b.bep e0).2) ∧
        pairEq (b.bep q) (j, d.nbVertex)) ∧
    (∀ d ∈ fuseNbs m b e0, ∀ e2, d.edge2 = some e2 →
      pairEq (b.bep d.edge1) ((b.bep e0).1, d.nbVertex) ∧
      pairEq (b.bep e2) ((b.bep e0).2, d.nbVertex)) ∧
    (fuseNbs m b e0).Pairwise (fun d d' => d.nbVertex ≠ d'.nbVertex) ∧
    (∀ e, e < m → e ≠ e0 → b.rem e = false →
      ((b.bep e).1 = (b.bep e0).1 ∨ (b.bep e).2 = (b.bep e0).1 ∨
       (b.bep e).1 = (b.bep e0).2 ∨ (b.bep e).2 = (b.bep e0).2) →
      ∃ d ∈ fuseNbs m b e0, eIn d e) := by
  have hrembase : ∀ q, (fuseBase b e0).rem q = false ↔
      (q ≠ e0 ∧ b.rem q = false) := by
    intro q
    show upd b.rem e0 true q = false ↔ _
    unfold upd
    by_cases hq : q = e0
    · rw [if_pos hq]
      simp [hq]
    · rw [if_neg hq]
      simp [hq]
  have hUgen : ∀ r e e', e < m → e' < m → incid (fuseBase b e0) r e = true →
      incid (fuseBase b e0) r e' = true →
      otherV (fuseBase b e0) r e = otherV (fuseBase b e0) r e' → e = e' := by
    intro r e e' hem he'm h1 h2 ho
    obtain ⟨hr1, hs1⟩ := incid_iff.mp h1
    obtain ⟨hr2, hs2⟩ := incid_iff.mp h2
    obtain ⟨hne1, hb1⟩ := (hrembase e).mp hr1
    obtain ⟨hne2, hb2⟩ := (hrembase e').mp hr2
    have hp1 : pairEq (r, otherV (fuseBase b e0) r e) (b.bep e) :=
      otherV_pairEq hs1
    have hp2 : pairEq (r, otherV (fuseBase b e0) r e') (b.bep e') :=
      otherV_pairEq hs2
    rw [ho] at hp1
    exact inv.huniq e e' hem he'm hb1 hb2
      (pairEq_trans (pairEq_symm (inv.hlive_ep e hem hb1))
        (pairEq_trans (pairEq_symm hp1)
          (pairEq_trans hp2 (inv.hlive_ep e' he'm hb2))))
  have hmk : ∀ r q', q' < m → incid (fuseBase b e0) r q' = true →
      q' ≠ e0 ∧ b.rem q' = false ∧
      pairEq (b.bep q') (r, otherV (fuseBase b e0) r q') := by
    intro r q' hq'm hinc
    obtain ⟨hr, hs⟩ := incid_iff.mp hinc
    obtain ⟨hne, hbrem⟩ := (hrembase q').mp hr
    exact ⟨hne, hbrem, pairEq_symm (otherV_pairEq hs)⟩
  obtain ⟨e11, e12, e13, e14⟩ := explore1_aux m (fuseBase b e0) (b.bep e0).1
    (hUgen (b.bep e0).1) (List.range m) []
    (fun x hx => List.mem_range.mp hx) (List.nodup_range m)
    (fun d hd => absurd hd (List.not_mem_nil d)) List.Pairwise.nil
  obtain ⟨g1, g2, g3, g4⟩ := explore2_aux m (fuseBase b e0) (b.bep e0).1
    (b.bep e0).2 (hUgen (b.bep e0).2) (List.range m)
    (exploreRegion m (fuseBase b e0) (b.bep e0).1 [])
    (fun x hx => List.mem_range.mp hx) (List.nodup_range m)
    (fun d hd => Or.inl ⟨(e11 d hd).1, (e11 d hd).2⟩) e12
  refine ⟨?_, ?_, g2, ?_⟩
  · intro d hd q hq
    have hg := g1 d hd
    unfold Case1n Case1s Case2 nbh1 at hg
    rcases hg with ⟨h2n, h1m, h1i, h1o⟩ |
      ⟨⟨e2, he2eq, he2m, he2i, he2o, _⟩, h1m, h1i, h1o⟩ |
      ⟨h2n, ⟨h1m, h1i, h1o⟩, _⟩
    · rcases hq with hq | hq
      · subst hq
        obtain ⟨hne, hbrem, hp⟩ := hmk (b.bep e0).1 d.edge1 h1m h1i
        rw [← h1o] at hp
        exact ⟨h1m, hne, hbrem, (b.bep e0).1, Or.inl rfl, hp⟩
      · rw [h2n] at hq
        cases hq
    · rcases hq with hq | hq
      · subst hq
        obtain ⟨hne, hbrem, hp⟩ := hmk (b.bep e0).1 d.edge1 h1m h1i
        rw [← h1o] at hp
        exact ⟨h1m, hne, hbrem, (b.bep e0).1, Or.inl rfl, hp⟩
      · have hq2 : e2 = q := Option.some.inj (he2eq.symm.trans hq)
        subst hq2
        obtain ⟨hne, hbrem, hp⟩ := hmk (b.bep e0).2 e2 he2m he2i
        rw [he2o] at hp
        exact ⟨he2m, hne, hbrem, (b.bep e0).2, Or.inr rfl, hp⟩
    · rcases hq with hq | hq
      · subst hq
        obtain ⟨hne, hbrem, hp⟩ := hmk (b.bep e0).2 d.edge1 h1m h1i
        rw [← h1o] at hp
        exact ⟨h1m, hne, hbrem, (b.bep e0).2, Or.inr rfl, hp⟩
      · rw [h2n] at hq
        cases hq
  · intro d hd e2 he2eq
    have hg := g1 d hd
    unfold Case1n Case1s Case2 nbh1 at hg
    rcases hg with ⟨h2n, _⟩ |
      ⟨⟨e2', he2', he2m, he2i, he2o, _⟩, h1m, h1i, h1o⟩ | ⟨h2n, _⟩
    · rw [h2n] at he2eq
      cases he2eq
    · have hq2 : e2' = e2 := Option.some.inj (he2'.symm.trans he2eq)
      subst hq2
      constructor
      · have hp := (hmk (b.bep e0).1 d.edge1 h1m h1i).2.2
        rw [← h1o] at hp
        exact hp
      · have hp := (hmk (b.bep e0).2 e2' he2m he2i).2.2
        rw [he2o] at hp
        exact hp
    · rw [h2n] at he2eq
      cases he2eq
  · intro e hem hne0 hbrem hside
    have hbrem' : (fuseBase b e0).rem e = false := (hrembase e).mpr ⟨hne0, hbrem⟩
    rcases hside with h | h | h | h
    · obtain ⟨d, hd, hde⟩ := e14 e (List.mem_range.mpr hem)
        (incid_iff.mpr ⟨hbrem', Or.inl h⟩)
      exact g3 e ⟨d, hd, Or.inl hde.symm⟩
    · obtain ⟨d, hd, hde⟩ := e14 e (List.mem_range.mpr hem)
        (incid_iff.mpr ⟨hbrem', Or.inr h⟩)
      exact g3 e ⟨d, hd, Or.inl hde.symm⟩
    · obtain ⟨d, hd, hde⟩ := g4 e (List.mem_range.mpr hem)
        (incid_iff.mpr ⟨hbrem', Or.inl h⟩)
      exact ⟨d, hd, hde⟩
    · obtain ⟨d, hd, hde⟩ := g4 e (List.mem_range.mpr hem)
        (incid_iff.mpr ⟨hbrem', Or.inr h⟩)
      exact ⟨d, hd, hde⟩

/-- The fields of the state after a fusion, given that the descriptor
slots are pairwise disjoint and no descriptor repeats an edge. -/
theorem bptFuse_fields (m : Nat) (b : BState) (e0 : Nat)
    (hdisj : (fuseNbs m b e0).Pairwise (fun d d' => ∀ q, ¬ (eIn d q ∧ eIn d' q)))
    (hsep : ∀ d ∈ fuseNbs m b e0, ∀ e2, d.edge2 = some e2 → e2 ≠ d.edge1) :
    (bptFuse m b e0).par = upd (upd b.par (b.bep e0).1 b.numV) (b.bep e0).2 b.numV ∧
    (bptFuse m b e0).lev = upd b.lev b.numV (b.key e0) ∧
    (bptFuse m b e0).numV = b.numV + 1 ∧
    (bptFuse m b e0).cnt = b.cnt + 1 ∧
    (bptFuse m b e0).inH = upd b.inH e0 false ∧
    (∀ q, (∀ d ∈ fuseNbs m b e0, ¬ eIn d q) →
      (bptFuse m b e0).act q = upd b.act e0 false q ∧
      (bptFuse m b e0).rem q = upd b.rem e0 true q ∧
      (bptFuse m b e0).bep q = b.bep q ∧
      (bptFuse m b e0).key q = b.key q ∧
      (bptFuse m b e0).wv q = b.wv q) ∧
    (∀ d ∈ fuseNbs m b e0,
      (bptFuse m b e0).bep d.edge1 = (d.nbVertex, b.numV) ∧
      (bptFuse m b e0).key d.edge1 = nvF b.wv d ∧
      (bptFuse m b e0).wv d.edge1 = nvF b.wv d ∧
      (bptFuse m b e0).act d.edge1 = true ∧
      (bptFuse m b e0).rem d.edge1 = upd b.rem e0 true d.edge1) ∧
    (∀ d ∈ fuseNbs m b e0, ∀ e2, d.edge2 = some e2 →
      (bptFuse m b e0).rem e2 = true ∧ (bptFuse m b e0).act e2 = false) := by
  obtain ⟨hml1, hml2, hml3⟩ := minLinkRun_spec (fuseBase b e0).wv
    (fuseNbs m b e0) (fuseBase b e0).wv hdisj (fun _ _ _ _ => rfl)
  have hdisjLO : (((minLinkRun (fuseBase b e0).wv (fuseNbs m b e0)).2).map
      Prod.fst).Pairwise (fun d d' => ∀ q, ¬ (eIn d q ∧ eIn d' q)) := by
    rw [hml1]
    exact List.pairwise_map.mpr (List.pairwise_map.mpr hdisj)
  have hsepLO : ∀ dn ∈ (minLinkRun (fuseBase b e0).wv (fuseNbs m b e0)).2,
      ∀ e2, dn.1.edge2 = some e2 → e2 ≠ dn.1.edge1 := by
    intro dn hdn e2 he2
    rw [hml1] at hdn
    obtain ⟨d, hd, hde⟩ := List.mem_map.mp hdn
    rw [← hde] at he2 ⊢
    exact hsep d hd e2 he2
  obtain ⟨c1, c2, c3, c4, c5, c6, c7, c8, c9⟩ :=
    procFold_spec b.numV (minLinkRun (fuseBase b e0).wv (fuseNbs m b e0)).2
      { fuseBase b e0 with wv := (minLinkRun (fuseBase b e0).wv (fuseNbs m b e0)).1 }
      hdisjLO hsepLO
  refine ⟨c1, c2, c3, c4, c5, ?_, ?_, ?_⟩
  · intro q hq
    have hqLO : ∀ dn ∈ (minLinkRun (fuseBase b e0).wv (fuseNbs m b e0)).2,
        ¬ eIn dn.1 q := by
      intro dn hdn
      rw [hml1] at hdn
      obtain ⟨d, hd, hde⟩ := List.mem_map.mp hdn
      rw [← hde]
      exact hq d hd
    obtain ⟨u1, u2, u3, u4⟩ := c7 q hqLO
    refine ⟨u1, u2, u3, u4, ?_⟩
    have h6 : (bptFuse m b e0).wv q =
        (minLinkRun (fuseBase b e0).wv (fuseNbs m b e0)).1 q := congrFun c6 q
    rw [h6]
    exact hml3 q (fun d hd hEq => hq d hd (Or.inl hEq.symm))
  · intro d hd
    have hdn : (d, nvF (fuseBase b e0).wv d) ∈
        (minLinkRun (fuseBase b e0).wv (fuseNbs m b e0)).2 := by
      rw [hml1]
      exact List.mem_map.mpr ⟨d, hd, rfl⟩
    obtain ⟨v1, v2, v3, v4⟩ := c8 _ hdn
    refine ⟨v1, v2, ?_, v3, v4⟩
    have h6 : (bptFuse m b e0).wv d.edge1 =
        (minLinkRun (fuseBase b e0).wv (fuseNbs m b e0)).1 d.edge1 :=
      congrFun c6 d.edge1
    rw [h6]
    exact hml2 d hd
  · intro d hd e2 he2
    have hdn : (d, nvF (fuseBase b e0).wv d) ∈
        (minLinkRun (fuseBase b e0).wv (fuseNbs m b e0)).2 := by
      rw [hml1]
      exact List.mem_map.mpr ⟨d, hd, rfl⟩
    exact c9 _ hdn e2 he2

theorem bstep_sim {n m : Nat} {ep : Nat → Nat × Nat} {w : Nat → Int}
    (hn : 1 ≤ n) (hval : GraphValid n m ep)
    (hloop : ∀ e, e < m → (ep e).1 ≠ (ep e).2)
    (hpar2 : ∀ e e2, e < m → e2 < m → pairEq (ep e) (ep e2) → e = e2)
    (hinjw : ∀ e e2, e < m → e2 < m → w e = w e2 → e = e2)
    {s : KState} {R : List Nat} {b : BState}
    (inv : BInv n m ep w s R b) (hfound : s.found < n - 1)
    {bq : BState} (hstep : bptStep m b = some bq) :
    ∃ sq Rq, BInv n m ep w sq Rq bq ∧ heapCard m bq < heapCard m b := by
  unfold bptStep at hstep
  cases hpop : popMin m b with
  | none =>
    rw [hpop] at hstep
    cases hstep
  | some e0 =>
    rw [hpop] at hstep
    have hstep2 : (if b.act e0 = false then
        some { b with inH := upd b.inH e0 false }
        else some (bptFuse m b e0)) = some bq := hstep
    obtain ⟨he0m, hinH0, hmin0⟩ := popMin_some hpop
    by_cases hact0 : b.act e0 = false
    · -- stale pop: only the heap entry disappears
      rw [if_pos hact0] at hstep2
      have hbq := Option.some.inj hstep2
      subst hbq
      refine ⟨s, R, ?_, ?_⟩
      · exact { inv with
          hlive_inH := by
            intro e hem hrem
            show upd b.inH e0 false e = true
            have hne : e ≠ e0 := by
              intro hee
              rw [hee] at hrem
              have := inv.hlive_act e0 he0m hrem
              rw [this] at hact0
              cases hact0
            rw [upd_other _ _ _ hne]
            exact inv.hlive_inH e hem hrem }
      · exact heapCard_lt he0m hinH0 (upd_self _ _ _)
          (fun e _ hne => upd_other _ _ _ hne)
    · -- genuine fusion
      rw [if_neg hact0] at hstep2
      have hbq := Option.some.inj hstep2
      subst hbq
      have hact0' : b.act e0 = true := by
        cases h : b.act e0
        · exact absurd h hact0
        · rfl
      have hrem0 : b.rem e0 = false := inv.hact_live e0 he0m hact0'
      have hinter0 : s.uf.r (ep e0).1 ≠ s.uf.r (ep e0).2 :=
        inv.hlive_inter e0 he0m hrem0
      have hregne0 : reg s (ep e0).1 ≠ reg s (ep e0).2 :=
        reg_ne inv.hk (hval e0 he0m).1 (hval e0 he0m).2 hinter0
      obtain ⟨c, hcm, hpc, hkc⟩ := inv.hkey_wit e0 he0m hrem0
      have hintc : s.uf.r (ep c).1 ≠ s.uf.r (ep c).2 := by
        intro hcc
        have hrc : reg s (ep c).1 = reg s (ep c).2 := congrArg s.roots hcc
        rcases hpc with ⟨h1, h2⟩ | ⟨h1, h2⟩
        · exact hregne0 ((show reg s (ep e0).1 = reg s (ep c).1 from h1).trans
            (hrc.trans (show reg s (ep e0).2 = reg s (ep c).2 from h2).symm))
        · exact hregne0 ((show reg s (ep e0).1 = reg s (ep c).2 from h1).trans
            (hrc.symm.trans
              (show reg s (ep e0).2 = reg s (ep c).1 from h2).symm))
      have hWpair : pairEq (b.bep e0) (rp ep s c) :=
        pairEq_trans (inv.hlive_ep e0 he0m hrem0) hpc
      have hW1W2 : (b.bep e0).1 ≠ (b.bep e0).2 := by
        rcases inv.hlive_ep e0 he0m hrem0 with ⟨h1, h2⟩ | ⟨h1, h2⟩
        · intro hh
          exact hregne0
            ((show (b.bep e0).1 = reg s (ep e0).1 from h1).symm.trans
              (hh.trans (show (b.bep e0).2 = reg s (ep e0).2 from h2)))
        · intro hh
          exact hregne0
            ((show (b.bep e0).2 = reg s (ep e0).1 from h2).symm.trans
              (hh.symm.trans (show (b.bep e0).1 = reg s (ep e0).2 from h1)))
      obtain ⟨F1, F1s, F2, F3⟩ := fuseNbs_spec hval inv he0m hrem0
      have hnbW : ∀ d ∈ fuseNbs m b e0,
          d.nbVertex ≠ (b.bep e0).1 ∧ d.nbVertex ≠ (b.bep e0).2 := by
        intro d hd
        obtain ⟨hqm, hqe0, hqrem, j, hj, hpair⟩ := F1 d hd d.edge1 (Or.inl rfl)
        have hbe := inv.hlive_ep d.edge1 hqm hqrem
        have hregq : reg s (ep d.edge1).1 ≠ reg s (ep d.edge1).2 :=
          reg_ne inv.hk (hval d.edge1 hqm).1 (hval d.edge1 hqm).2
            (inv.hlive_inter d.edge1 hqm hqrem)
        have hrp : pairEq (rp ep s d.edge1) (j, d.nbVertex) :=
          pairEq_trans (pairEq_symm hbe) hpair
        have hdeg : d.nbVertex = j → False := by
          intro hnb
          rw [hnb] at hrp
          rcases hrp with ⟨h1, h2⟩ | ⟨h1, h2⟩
          · exact hregq ((show reg s (ep d.edge1).1 = j from h1).trans
              (show reg s (ep d.edge1).2 = j from h2).symm)
          · exact hregq ((show reg s (ep d.edge1).1 = j from h1).trans
              (show reg s (ep d.edge1).2 = j from h2).symm)
        have hsame : ∀ k, ((j = (b.bep e0).1 ∧ k = (b.bep e0).2) ∨
            (j = (b.bep e0).2 ∧ k = (b.bep e0).1)) → d.nbVertex ≠ k := by
          intro k hk hnb
          have hjk : pairEq (j, k) (b.bep e0) := by
            rcases hk with ⟨hk1, hk2⟩ | ⟨hk1, hk2⟩
            · rw [hk1, hk2]
              exact pairEq_refl _
            · rw [hk1, hk2]
              exact Or.inr ⟨rfl, rfl⟩
          have hp2 : pairEq (b.bep d.edge1) (j, k) := by
            rw [← hnb]
            exact hpair
          have hq0 : pairEq (rp ep s d.edge1) (rp ep s e0) :=
            pairEq_trans (pairEq_symm hbe)
              (pairEq_trans hp2 (pairEq_trans hjk (inv.hlive_ep e0 he0m hrem0)))
          exact hqe0 (inv.huniq d.edge1 e0 hqm he0m hqrem hrem0 hq0)
        constructor
        · rcases hj with hj1 | hj2
          · intro hnb
            exact hdeg (hnb.trans hj1.symm)
          · exact hsame (b.bep e0).1 (Or.inr ⟨hj2, rfl⟩)
        · rcases hj with hj1 | hj2
          · exact hsame (b.bep e0).2 (Or.inl ⟨hj1, rfl⟩)
          · intro hnb
            exact hdeg (hnb.trans hj2.symm)
      have hnb_lt : ∀ d ∈ fuseNbs m b e0, d.nbVertex < s.numNodes := by
        intro d hd
        obtain ⟨hqm, hqe0, hqrem, j, hj, hpair⟩ := F1 d hd d.edge1 (Or.inl rfl)
        have hrp : pairEq (rp ep s d.edge1) (j, d.nbVertex) :=
          pairEq_trans (pairEq_symm (inv.hlive_ep d.edge1 hqm hqrem)) hpair
        have hx : d.nbVertex = (rp ep s d.edge1).1 ∨
            d.nbVertex = (rp ep s d.edge1).2 :=
          pairEq_mem (pairEq_symm hrp) (Or.inr rfl)
        rcases hx with hx | hx
        · rw [show d.nbVertex = reg s (ep d.edge1).1 from hx]
          exact reg_lt inv.hk (hval d.edge1 hqm).1
        · rw [show d.nbVertex = reg s (ep d.edge1).2 from hx]
          exact reg_lt inv.hk (hval d.edge1 hqm).2
      have hSlotDisj : (fuseNbs m b e0).Pairwise
          (fun d d' => ∀ q, ¬ (eIn d q ∧ eIn d' q)) := by
        apply List.Pairwise.imp_of_mem ?_ F2
        intro d d' hd hd' hne q hq
        obtain ⟨hq1, hq2⟩ := hq
        obtain ⟨hqm, hqe0, hqrem, j, hj, hpair⟩ := F1 d hd q hq1
        obtain ⟨_, _, _, k, hk, hpair'⟩ := F1 d' hd' q hq2
        have hjk : pairEq (j, d.nbVertex) (k, d'.nbVertex) :=
          pairEq_trans (pairEq_symm hpair) hpair'
        rcases hjk with ⟨h1, h2⟩ | ⟨h1, h2⟩
        · exact hne h2
        · rcases hk with hk1 | hk2
          · exact (hnbW d hd).1 (h2.trans hk1)
          · exact (hnbW d hd).2 (h2.trans hk2)
      have hsepL : ∀ d ∈ fuseNbs m b e0, ∀ e2, d.edge2 = some e2 →
          e2 ≠ d.edge1 := by
        intro d hd e2 he2 hEq
        obtain ⟨hp1, hp2⟩ := F1s d hd e2 he2
        rw [hEq] at hp2
        have h := pairEq_trans (pairEq_symm hp1) hp2
        rcases h with ⟨h1, h2⟩ | ⟨h1, h2⟩
        · exact hW1W2 h1
        · exact (hnbW d hd).2 h2
      obtain ⟨ff1, ff2, ff3, ff4, ff5, ff6, ff7, ff8⟩ :=
        bptFuse_fields m b e0 hSlotDisj hsepL
      -- the Kruskal edge accepted by this fusion
      have hcR : c ∈ R := inv.hRall c hcm hintc
      obtain ⟨R1, R2, hRsplit⟩ := List.append_of_mem hcR
      have hfound' : s.found < numEdgeMst n := by
        rw [numEdgeMst_of_pos hn]
        exact hfound
      obtain ⟨P, hP⟩ := inv.hsplit
      have hP' : sortedEdgeIndices m w = (P ++ R1) ++ (c :: R2) := by
        rw [hP, hRsplit, List.append_assoc]
      have hsorted := sortedEdgeIndices_pairwise m w
      rw [hP'] at hsorted
      have hcross := (List.pairwise_append.mp hsorted).2.2
      have hR1w : ∀ x ∈ R1, x < m ∧ w x < w c := by
        intro x hx
        have hxs : x ∈ sortedEdgeIndices m w := by
          rw [hP']
          exact List.mem_append.mpr (Or.inl (List.mem_append.mpr (Or.inr hx)))
        have hxm : x < m := sortedEdgeIndices_mem_lt hxs
        have hlex := hcross x (List.mem_append.mpr (Or.inr hx)) c
          (List.mem_cons_self _ _)
        rcases hlex with h | ⟨hEq, hlt⟩
        · exact ⟨hxm, h⟩
        · have := hinjw x c hxm hcm hEq
          omega
      have hR1intra : ∀ x ∈ R1, s.uf.r (ep x).1 = s.uf.r (ep x).2 := by
        intro x hx
        by_contra hne
        obtain ⟨hxm, hxw⟩ := hR1w x hx
        obtain ⟨l, hlm, hlrem, hlpair⟩ := inv.hcompl x hxm hne
        have hkey := inv.hkey_le l x hlm hxm hlrem (pairEq_symm hlpair)
        have hinHl : b.inH l = true := inv.hlive_inH l hlm hlrem
        have hminl := hmin0 l hlm hinHl
        rw [hkc] at hminl
        omega
      have hscan' : kruskalScan ep w (numEdgeMst n) (kruskalStep ep w s c) R2 =
          bptScanState n m ep w := by
        have h1 : kruskalScan ep w (numEdgeMst n) s (R1 ++ c :: R2) =
            kruskalScan ep w (numEdgeMst n) s (c :: R2) :=
          kscan_skip (numEdgeMst n) R1 (c :: R2) s hfound' hR1intra
        have h2 : kruskalScan ep w (numEdgeMst n) s (c :: R2) =
            kruskalScan ep w (numEdgeMst n) (kruskalStep ep w s c) R2 :=
          kscan_accept R2 hfound'
        rw [← h2, ← h1, ← hRsplit]
        exact inv.hscan
      have hk' : KInv n ep w (kruskalStep ep w s c) :=
        kInv_step inv.hk (hval c hcm).1 (hval c hcm).2
      have hsquf : (kruskalStep ep w s c).uf = ufAdd s.uf ((ep c).1, (ep c).2) := by
        unfold kruskalStep
        rw [if_neg hintc]
      have hsq_same : ∀ x y : Nat,
          (kruskalStep ep w s c).uf.r x = (kruskalStep ep w s c).uf.r y →
          s.uf.r x = s.uf.r y ∨
          ((s.uf.r x = s.uf.r (ep c).1 ∨ s.uf.r x = s.uf.r (ep c).2) ∧
           (s.uf.r y = s.uf.r (ep c).1 ∨ s.uf.r y = s.uf.r (ep c).2)) := by
        intro x y h
        rw [hsquf, ufAdd_r_eq s.uf hintc x, ufAdd_r_eq s.uf hintc y] at h
        by_cases hx : s.uf.r x = s.uf.r (ep c).2
        · rw [if_pos hx] at h
          by_cases hy : s.uf.r y = s.uf.r (ep c).2
          · rw [if_pos hy] at h
            exact Or.inl (hx.trans hy.symm)
          · rw [if_neg hy] at h
            exact Or.inr ⟨Or.inr hx, Or.inl h.symm⟩
        · rw [if_neg hx] at h
          by_cases hy : s.uf.r y = s.uf.r (ep c).2
          · rw [if_pos hy] at h
            exact Or.inr ⟨Or.inl h, Or.inr hy⟩
          · rw [if_neg hy] at h
            exact Or.inl h
      have htouch : ∀ v, v < n →
          ((s.uf.r v = s.uf.r (ep c).1 ∨ s.uf.r v = s.uf.r (ep c).2) ↔
           (reg s v = (b.bep e0).1 ∨ reg s v = (b.bep e0).2)) := by
        intro v hv
        constructor
        · rintro (h | h)
          · have hr : reg s v = reg s (ep c).1 := congrArg s.roots h
            rcases hWpair with ⟨h1, h2⟩ | ⟨h1, h2⟩
            · exact Or.inl (hr.trans
                (show (b.bep e0).1 = reg s (ep c).1 from h1).symm)
            · exact Or.inr (hr.trans
                (show (b.bep e0).2 = reg s (ep c).1 from h2).symm)
          · have hr : reg s v = reg s (ep c).2 := congrArg s.roots h
            rcases hWpair with ⟨h1, h2⟩ | ⟨h1, h2⟩
            · exact Or.inr (hr.trans
                (show (b.bep e0).2 = reg s (ep c).2 from h2).symm)
            · exact Or.inl (hr.trans
                (show (b.bep e0).1 = reg s (ep c).2 from h1).symm)
        · rintro (h | h)
          · rcases hWpair with ⟨h1, h2⟩ | ⟨h1, h2⟩
            · refine Or.inl (reg_eq_same inv.hk hv (hval c hcm).1 ?_)
              exact h.trans (show (b.bep e0).1 = reg s (ep c).1 from h1)
            · refine Or.inr (reg_eq_same inv.hk hv (hval c hcm).2 ?_)
              exact h.trans (show (b.bep e0).1 = reg s (ep c).2 from h1)
          · rcases hWpair with ⟨h1, h2⟩ | ⟨h1, h2⟩
            · refine Or.inr (reg_eq_same inv.hk hv (hval c hcm).2 ?_)
              exact h.trans (show (b.bep e0).2 = reg s (ep c).2 from h2)
            · refine Or.inl (reg_eq_same inv.hk hv (hval c hcm).1 ?_)
              exact h.trans (show (b.bep e0).2 = reg s (ep c).1 from h2)
      have hreg_touch : ∀ v, v < n →
          (reg s v = (b.bep e0).1 ∨ reg s v = (b.bep e0).2) →
          reg (kruskalStep ep w s c) v = s.numNodes := by
        intro v hv h
        rw [reg_kstep inv.hk hintc v, if_pos ((htouch v hv).mpr h)]
      have hreg_un : ∀ v, v < n →
          ¬ (reg s v = (b.bep e0).1 ∨ reg s v = (b.bep e0).2) →
          reg (kruskalStep ep w s c) v = reg s v := by
        intro v hv h
        rw [reg_kstep inv.hk hintc v, if_neg (fun hh => h ((htouch v hv).mp hh))]
      have he0_noslot : ∀ d ∈ fuseNbs m b e0, ¬ eIn d e0 := by
        intro d hd hin
        exact (F1 d hd e0 hin).2.1 rfl
      have hrem_e0q : (bptFuse m b e0).rem e0 = true := by
        rw [(ff6 e0 he0_noslot).2.1, upd_self]
      have hslot_live : ∀ d ∈ fuseNbs m b e0,
          (bptFuse m b e0).rem d.edge1 = false := by
        intro d hd
        obtain ⟨hqm, hqe0, hqrem, _⟩ := F1 d hd d.edge1 (Or.inl rfl)
        rw [(ff7 d hd).2.2.2.2, upd_other _ _ _ hqe0]
        exact hqrem
      have hlive_class : ∀ e, e < m → (bptFuse m b e0).rem e = false →
          (e ≠ e0 ∧ b.rem e = false ∧ (∀ d ∈ fuseNbs m b e0, ¬ eIn d e)) ∨
          ∃ d ∈ fuseNbs m b e0, d.edge1 = e := by
        intro e hem hrem
        by_cases hex : ∃ d ∈ fuseNbs m b e0, eIn d e
        · obtain ⟨d, hd, hin⟩ := hex
          rcases hin with hin | hin
          · exact Or.inr ⟨d, hd, hin.symm⟩
          · exfalso
            have := (ff8 d hd e hin).1
            rw [this] at hrem
            cases hrem
        · push_neg at hex
          have h := (ff6 e hex).2.1
          rw [h] at hrem
          have hne : e ≠ e0 := by
            intro hh
            rw [hh, upd_self] at hrem
            cases hrem
          rw [upd_other _ _ _ hne] at hrem
          exact Or.inl ⟨hne, hrem, hex⟩
      have hunt_reg : ∀ e, e < m → e ≠ e0 → b.rem e = false →
          (∀ d ∈ fuseNbs m b e0, ¬ eIn d e) →
          reg s (ep e).1 ≠ (b.bep e0).1 ∧ reg s (ep e).1 ≠ (b.bep e0).2 ∧
          reg s (ep e).2 ≠ (b.bep e0).1 ∧ reg s (ep e).2 ≠ (b.bep e0).2 := by
        intro e hem hne hrem hnos
        have hbe := inv.hlive_ep e hem hrem
        have hgen : ((b.bep e).1 = (b.bep e0).1 ∨ (b.bep e).2 = (b.bep e0).1 ∨
            (b.bep e).1 = (b.bep e0).2 ∨ (b.bep e).2 = (b.bep e0).2) → False := by
          intro hside
          obtain ⟨d, hd, hde⟩ := F3 e hem hne hrem hside
          exact hnos d hd hde
        refine ⟨?_, ?_, ?_, ?_⟩
        · intro h
          have hx : (b.bep e0).1 = (b.bep e).1 ∨ (b.bep e0).1 = (b.bep e).2 :=
            pairEq_mem (pairEq_symm hbe) (Or.inl h.symm)
          rcases hx with hx | hx
          · exact hgen (Or.inl hx.symm)
          · exact hgen (Or.inr (Or.inl hx.symm))
        · intro h
          have hx : (b.bep e0).2 = (b.bep e).1 ∨ (b.bep e0).2 = (b.bep e).2 :=
            pairEq_mem (pairEq_symm hbe) (Or.inl h.symm)
          rcases hx with hx | hx
          · exact hgen (Or.inr (Or.inr (Or.inl hx.symm)))
          · exact hgen (Or.inr (Or.inr (Or.inr hx.symm)))
        · intro h
          have hx : (b.bep e0).1 = (b.bep e).1 ∨ (b.bep e0).1 = (b.bep e).2 :=
            pairEq_mem (pairEq_symm hbe) (Or.inr h.symm)
          rcases hx with hx | hx
          · exact hgen (Or.inl hx.symm)
          · exact hgen (Or.inr (Or.inl hx.symm))
        · intro h
          have hx : (b.bep e0).2 = (b.bep e).1 ∨ (b.bep e0).2 = (b.bep e).2 :=
            pairEq_mem (pairEq_symm hbe) (Or.inr h.symm)
          rcases hx with hx | hx
          · exact hgen (Or.inr (Or.inr (Or.inl hx.symm)))
          · exact hgen (Or.inr (Or.inr (Or.inr hx.symm)))
      have hrp_unt : ∀ e, e < m → e ≠ e0 → b.rem e = false →
          (∀ d ∈ fuseNbs m b e0, ¬ eIn d e) →
          rp ep (kruskalStep ep w s c) e = rp ep s e := by
        intro e hem hne hrem hnos
        obtain ⟨u1, u2, u3, u4⟩ := hunt_reg e hem hne hrem hnos
        show (reg (kruskalStep ep w s c) (ep e).1,
          reg (kruskalStep ep w s c) (ep e).2) =
          (reg s (ep e).1, reg s (ep e).2)
        rw [hreg_un (ep e).1 (hval e hem).1 (not_or.mpr ⟨u1, u2⟩),
          hreg_un (ep e).2 (hval e hem).2 (not_or.mpr ⟨u3, u4⟩)]
      have hrp_slot : ∀ d ∈ fuseNbs m b e0,
          pairEq (rp ep (kruskalStep ep w s c) d.edge1)
            (s.numNodes, d.nbVertex) := by
        intro d hd
        obtain ⟨hqm, hqe0, hqrem, j, hj, hpair⟩ := F1 d hd d.edge1 (Or.inl rfl)
        have hp2 : pairEq (rp ep s d.edge1) (j, d.nbVertex) :=
          pairEq_trans (pairEq_symm (inv.hlive_ep d.edge1 hqm hqrem)) hpair
        have hnb := hnbW d hd
        rcases hp2 with ⟨h1, h2⟩ | ⟨h1, h2⟩
        · refine Or.inl ⟨?_, ?_⟩
          · show reg (kruskalStep ep w s c) (ep d.edge1).1 = s.numNodes
            refine hreg_touch (ep d.edge1).1 (hval d.edge1 hqm).1 ?_
            rcases hj with hj | hj
            · exact Or.inl ((show reg s (ep d.edge1).1 = j from h1).trans hj)
            · exact Or.inr ((show reg s (ep d.edge1).1 = j from h1).trans hj)
          · show reg (kruskalStep ep w s c) (ep d.edge1).2 = d.nbVertex
            have h2' : reg s (ep d.edge1).2 = d.nbVertex := h2
            have hno : ¬ (reg s (ep d.edge1).2 = (b.bep e0).1 ∨
                reg s (ep d.edge1).2 = (b.bep e0).2) := by
              rw [h2']
              exact not_or.mpr hnb
            rw [hreg_un (ep d.edge1).2 (hval d.edge1 hqm).2 hno]
            exact h2'
        · refine Or.inr ⟨?_, ?_⟩
          · show reg (kruskalStep ep w s c) (ep d.edge1).1 = d.nbVertex
            have h1' : reg s (ep d.edge1).1 = d.nbVertex := h1
            have hno : ¬ (reg s (ep d.edge1).1 = (b.bep e0).1 ∨
                reg s (ep d.edge1).1 = (b.bep e0).2) := by
              rw [h1']
              exact not_or.mpr hnb
            rw [hreg_un (ep d.edge1).1 (hval d.edge1 hqm).1 hno]
            exact h1'
          · show reg (kruskalStep ep w s c) (ep d.edge1).2 = s.numNodes
            refine hreg_touch (ep d.edge1).2 (hval d.edge1 hqm).2 ?_
            rcases hj with hj | hj
            · exact Or.inl ((show reg s (ep d.edge1).2 = j from h2).trans hj)
            · exact Or.inr ((show reg s (ep d.edge1).2 = j from h2).trans hj)
      have hpair_decomp : ∀ e2, e2 < m → ∀ x, x < s.numNodes →
          pairEq (rp ep (kruskalStep ep w s c) e2) (s.numNodes, x) →
          ∃ j, (j = (b.bep e0).1 ∨ j = (b.bep e0).2) ∧
            pairEq (rp ep s e2) (j, x) := by
        intro e2 he2m x hx hp
        rcases hp with ⟨h1, h2⟩ | ⟨h1, h2⟩
        · have h1' : reg (kruskalStep ep w s c) (ep e2).1 = s.numNodes := h1
          have h2' : reg (kruskalStep ep w s c) (ep e2).2 = x := h2
          have hv1 : reg s (ep e2).1 = (b.bep e0).1 ∨
              reg s (ep e2).1 = (b.bep e0).2 := by
            by_contra hcc
            rw [hreg_un (ep e2).1 (hval e2 he2m).1 hcc] at h1'
            exact Nat.ne_of_lt (reg_lt inv.hk (hval e2 he2m).1) h1'
          have hv2 : reg s (ep e2).2 = x := by
            by_cases hc2 : reg s (ep e2).2 = (b.bep e0).1 ∨
                reg s (ep e2).2 = (b.bep e0).2
            · rw [hreg_touch (ep e2).2 (hval e2 he2m).2 hc2] at h2'
              omega
            · rw [hreg_un (ep e2).2 (hval e2 he2m).2 hc2] at h2'
              exact h2'
          exact ⟨reg s (ep e2).1, hv1, Or.inl ⟨rfl, hv2⟩⟩
        · have h1' : reg (kruskalStep ep w s c) (ep e2).1 = x := h1
          have h2' : reg (kruskalStep ep w s c) (ep e2).2 = s.numNodes := h2
          have hv2 : reg s (ep e2).2 = (b.bep e0).1 ∨
              reg s (ep e2).2 = (b.bep e0).2 := by
            by_contra hcc
            rw [hreg_un (ep e2).2 (hval e2 he2m).2 hcc] at h2'
            exact Nat.ne_of_lt (reg_lt inv.hk (hval e2 he2m).2) h2'
          have hv1 : reg s (ep e2).1 = x := by
            by_cases hc1 : reg s (ep e2).1 = (b.bep e0).1 ∨
                reg s (ep e2).1 = (b.bep e0).2
            · rw [hreg_touch (ep e2).1 (hval e2 he2m).1 hc1] at h1'
              omega
            · rw [hreg_un (ep e2).1 (hval e2 he2m).1 hc1] at h1'
              exact h1'
          exact ⟨reg s (ep e2).2, hv2, Or.inr ⟨hv1, rfl⟩⟩
      have hpair_up : ∀ e2, e2 < m → ∀ j x,
          (j = (b.bep e0).1 ∨ j = (b.bep e0).2) →
          x ≠ (b.bep e0).1 → x ≠ (b.bep e0).2 →
          pairEq (rp ep s e2) (j, x) →
          pairEq (rp ep (kruskalStep ep w s c) e2) (s.numNodes, x) := by
        intro e2 he2m j x hj hx1 hx2 hp
        rcases hp with ⟨h1, h2⟩ | ⟨h1, h2⟩
        · have h1' : reg s (ep e2).1 = j := h1
          have h2' : reg s (ep e2).2 = x := h2
          refine Or.inl ⟨?_, ?_⟩
          · show reg (kruskalStep ep w s c) (ep e2).1 = s.numNodes
            refine hreg_touch (ep e2).1 (hval e2 he2m).1 ?_
            rw [h1']
            exact hj
          · show reg (kruskalStep ep w s c) (ep e2).2 = x
            have hno : ¬ (reg s (ep e2).2 = (b.bep e0).1 ∨
                reg s (ep e2).2 = (b.bep e0).2) := by
              rw [h2']
              exact not_or.mpr ⟨hx1, hx2⟩
            rw [hreg_un (ep e2).2 (hval e2 he2m).2 hno]
            exact h2'
        · have h1' : reg s (ep e2).1 = x := h1
          have h2' : reg s (ep e2).2 = j := h2
          refine Or.inr ⟨?_, ?_⟩
          · show reg (kruskalStep ep w s c) (ep e2).1 = x
            have hno : ¬ (reg s (ep e2).1 = (b.bep e0).1 ∨
                reg s (ep e2).1 = (b.bep e0).2) := by
              rw [h1']
              exact not_or.mpr ⟨hx1, hx2⟩
            rw [hreg_un (ep e2).1 (hval e2 he2m).1 hno]
            exact h1'
          · show reg (kruskalStep ep w s c) (ep e2).2 = s.numNodes
            refine hreg_touch (ep e2).2 (hval e2 he2m).2 ?_
            rw [h2']
            exact hj
      have hrep : ∀ d ∈ fuseNbs m b e0, ∀ j,
          (j = (b.bep e0).1 ∨ j = (b.bep e0).2) →
          ∀ e2, e2 < m → pairEq (rp ep s e2) (j, d.nbVertex) →
          ∃ q, eIn d q ∧ q < m ∧ b.rem q = false ∧
            pairEq (rp ep s q) (rp ep s e2) := by
        intro d hd j hj e2 he2m hp
        have hnb := hnbW d hd
        have hjnb : j ≠ d.nbVertex := by
          rcases hj with rfl | rfl
          · exact fun hh => hnb.1 hh.symm
          · exact fun hh => hnb.2 hh.symm
        have hint2 : s.uf.r (ep e2).1 ≠ s.uf.r (ep e2).2 := by
          intro hEq
          have hre : reg s (ep e2).1 = reg s (ep e2).2 := congrArg s.roots hEq
          rcases hp with ⟨h1, h2⟩ | ⟨h1, h2⟩
          · exact hjnb ((show reg s (ep e2).1 = j from h1).symm.trans
              (hre.trans (show reg s (ep e2).2 = d.nbVertex from h2)))
          · exact hjnb ((show reg s (ep e2).2 = j from h2).symm.trans
              (hre.symm.trans (show reg s (ep e2).1 = d.nbVertex from h1)))
        obtain ⟨l, hlm, hlrem, hlpair⟩ := inv.hcompl e2 he2m hint2
        have hlp : pairEq (rp ep s l) (j, d.nbVertex) :=
          pairEq_trans (pairEq_symm hlpair) hp
        have hlbep : pairEq (b.bep l) (j, d.nbVertex) :=
          pairEq_trans (inv.hlive_ep l hlm hlrem) hlp
        have hlne0 : l ≠ e0 := by
          intro hh
          subst hh
          have hx : d.nbVertex = (b.bep l).1 ∨ d.nbVertex = (b.bep l).2 :=
            pairEq_mem (pairEq_symm hlbep) (Or.inr rfl)
          rcases hx with hx | hx
          · exact hnb.1 hx
          · exact hnb.2 hx
        have hjcomp : j = (b.bep l).1 ∨ j = (b.bep l).2 :=
          pairEq_mem (pairEq_symm hlbep) (Or.inl rfl)
        have hlside : (b.bep l).1 = (b.bep e0).1 ∨ (b.bep l).2 = (b.bep e0).1 ∨
            (b.bep l).1 = (b.bep e0).2 ∨ (b.bep l).2 = (b.bep e0).2 := by
          rcases hj with rfl | rfl
          · rcases hjcomp with h | h
            · exact Or.inl h.symm
            · exact Or.inr (Or.inl h.symm)
          · rcases hjcomp with h | h
            · exact Or.inr (Or.inr (Or.inl h.symm))
            · exact Or.inr (Or.inr (Or.inr h.symm))
        obtain ⟨d', hd', hde'⟩ := F3 l hlm hlne0 hlrem hlside
        obtain ⟨_, _, _, k, hk, hpair'⟩ := F1 d' hd' l hde'
        have hkj : pairEq (k, d'.nbVertex) (j, d.nbVertex) :=
          pairEq_trans (pairEq_symm hpair') hlbep
        have hdd : d'.nbVertex = d.nbVertex := by
          rcases hkj with ⟨h1, h2⟩ | ⟨h1, h2⟩
          · exact h2
          · exfalso
            rcases hj with hj1 | hj2
            · exact (hnbW d' hd').1 (h2.trans hj1)
            · exact (hnbW d' hd').2 (h2.trans hj2)
        have hDD : d' = d := pairwise_nb_eq F2 d' hd' d hd hdd
        subst hDD
        exact ⟨l, hde', hlm, hlrem, pairEq_symm hlpair⟩
      have hnvF_le : ∀ d q, eIn d q → nvF b.wv d ≤ b.wv q := by
        intro d q hq
        cases hd2 : d.edge2 with
        | none =>
          rcases hq with hq | hq
          · have hEq : nvF b.wv d = b.wv d.edge1 := by
              unfold nvF
              rw [hd2]
            rw [hEq, hq]
          · rw [hd2] at hq
            cases hq
        | some e2 =>
          have hEq : nvF b.wv d =
              if b.wv e2 < b.wv d.edge1 then b.wv e2 else b.wv d.edge1 := by
            unfold nvF
            rw [hd2]
          rcases hq with hq | hq
          · rw [hEq, hq]
            by_cases hlt : b.wv e2 < b.wv d.edge1
            · rw [if_pos hlt]
              omega
            · rw [if_neg hlt]
          · have he2q : e2 = q := Option.some.inj (hd2.symm.trans hq)
            subst he2q
            rw [hEq]
            by_cases hlt : b.wv e2 < b.wv d.edge1
            · rw [if_pos hlt]
            · rw [if_neg hlt]
              omega
      have hnvF_wit : ∀ d, ∃ q, eIn d q ∧ nvF b.wv d = b.wv q := by
        intro d
        cases hd2 : d.edge2 with
        | none =>
          refine ⟨d.edge1, Or.inl rfl, ?_⟩
          unfold nvF
          rw [hd2]
        | some e2 =>
          have hEq : nvF b.wv d =
              if b.wv e2 < b.wv d.edge1 then b.wv e2 else b.wv d.edge1 := by
            unfold nvF
            rw [hd2]
          by_cases hlt : b.wv e2 < b.wv d.edge1
          · exact ⟨e2, Or.inr hd2, by rw [hEq, if_pos hlt]⟩
          · exact ⟨d.edge1, Or.inl rfl, by rw [hEq, if_neg hlt]⟩
      refine ⟨kruskalStep ep w s c, R2, ?_, ?_⟩
      · exact
          { hk := hk'
            hsplit := ⟨P ++ (R1 ++ [c]), by rw [hP, hRsplit]; simp⟩
            hscan := hscan'
            hRall := by
              intro e hem hne
              have hs_ne : s.uf.r (ep e).1 ≠ s.uf.r (ep e).2 := by
                intro hEq
                exact hne (kstep_same_mono hEq)
              have heR : e ∈ R := inv.hRall e hem hs_ne
              rw [hRsplit] at heR
              rcases List.mem_append.mp heR with h | h
              · exfalso
                exact hne (kstep_same_mono (hR1intra e h))
              · rcases List.mem_cons.mp h with rfl | h
                · exfalso
                  exact hne (kstep_c_intra hintc)
                · exact h
            hpar := by
              intro j
              rw [ff1, (kstep_fields hintc).1]
              rcases hWpair with ⟨h1, h2⟩ | ⟨h1, h2⟩
              · rw [show (b.bep e0).1 = reg s (ep c).1 from h1,
                  show (b.bep e0).2 = reg s (ep c).2 from h2, inv.hnum]
                exact upd_congr (fun x => upd_congr inv.hpar _ _ x) _ _ j
              · rw [show (b.bep e0).1 = reg s (ep c).2 from h1,
                  show (b.bep e0).2 = reg s (ep c).1 from h2, inv.hnum,
                  upd_comm_same b.par]
                exact upd_congr (fun x => upd_congr inv.hpar _ _ x) _ _ j
            hlev := by
              intro j
              rw [ff2, (kstep_fields hintc).2.1, inv.hnum, hkc]
              exact upd_congr inv.hlev _ _ j
            hnum := by
              rw [ff3, (kstep_fields hintc).2.2.1, inv.hnum]
            hcnt := by
              rw [ff4, (kstep_fields hintc).2.2.1, inv.hcnt]
            hlive_inter := by
              intro e hem hrem
              rcases hlive_class e hem hrem with ⟨hne, hbrem, hnos⟩ | ⟨d, hd, hde⟩
              · intro hEq
                rcases hsq_same _ _ hEq with hEq' | ⟨ht1, ht2⟩
                · exact inv.hlive_inter e hem hbrem hEq'
                · obtain ⟨u1, u2, u3, u4⟩ := hunt_reg e hem hne hbrem hnos
                  rcases (htouch _ (hval e hem).1).mp ht1 with h | h
                  · exact u1 h
                  · exact u2 h
              · subst hde
                intro hEq
                have hre : reg (kruskalStep ep w s c) (ep d.edge1).1 =
                    reg (kruskalStep ep w s c) (ep d.edge1).2 :=
                  congrArg (kruskalStep ep w s c).roots hEq
                have hnlt := hnb_lt d hd
                rcases hrp_slot d hd with ⟨h1, h2⟩ | ⟨h1, h2⟩
                · have h1' : reg (kruskalStep ep w s c) (ep d.edge1).1 =
                      s.numNodes := h1
                  have h2' : reg (kruskalStep ep w s c) (ep d.edge1).2 =
                      d.nbVertex := h2
                  rw [h1', h2'] at hre
                  omega
                · have h1' : reg (kruskalStep ep w s c) (ep d.edge1).1 =
                      d.nbVertex := h1
                  have h2' : reg (kruskalStep ep w s c) (ep d.edge1).2 =
                      s.numNodes := h2
                  rw [h1', h2'] at hre
                  omega
            hlive_ep := by
              intro e hem hrem
              rcases hlive_class e hem hrem with ⟨hne, hbrem, hnos⟩ | ⟨d, hd, hde⟩
              · rw [(ff6 e hnos).2.2.1, hrp_unt e hem hne hbrem hnos]
                exact inv.hlive_ep e hem hbrem
              · subst hde
                rw [(ff7 d hd).1]
                have hsl := hrp_slot d hd
                have h2 : pairEq (d.nbVertex, b.numV)
                    (s.numNodes, d.nbVertex) := by
                  rw [inv.hnum]
                  exact Or.inr ⟨rfl, rfl⟩
                exact pairEq_trans h2 (pairEq_symm hsl)
            hlive_act := by
              intro e hem hrem
              rcases hlive_class e hem hrem with ⟨hne, hbrem, hnos⟩ | ⟨d, hd, hde⟩
              · rw [(ff6 e hnos).1, upd_other _ _ _ hne]
                exact inv.hlive_act e hem hbrem
              · subst hde
                exact (ff7 d hd).2.2.2.1
            hlive_inH := by
              intro e hem hrem
              have hne : e ≠ e0 := by
                intro hh
                rw [hh, hrem_e0q] at hrem
                cases hrem
              rw [ff5, upd_other _ _ _ hne]
              rcases hlive_class e hem hrem with ⟨_, hbrem, _⟩ | ⟨d, hd, hde⟩
              · exact inv.hlive_inH e hem hbrem
              · subst hde
                exact inv.hlive_inH d.edge1 (F1 d hd d.edge1 (Or.inl rfl)).1
                  (F1 d hd d.edge1 (Or.inl rfl)).2.2.1
            hact_live := by
              intro e hem hact
              by_cases hex : ∃ d ∈ fuseNbs m b e0, eIn d e
              · obtain ⟨d, hd, hin⟩ := hex
                rcases hin with hin | hin
                · rw [hin]
                  exact hslot_live d hd
                · have := (ff8 d hd e hin).2
                  rw [this] at hact
                  cases hact
              · push_neg at hex
                rw [(ff6 e hex).2.1]
                have hne : e ≠ e0 := by
                  intro hh
                  have h1 := (ff6 e hex).1
                  rw [h1, hh, upd_self] at hact
                  cases hact
                rw [upd_other _ _ _ hne]
                have h1 := (ff6 e hex).1
                rw [h1, upd_other _ _ _ hne] at hact
                exact inv.hact_live e hem hact
            hkey_le := by
              intro e e2 hem he2m hrem hp
              rcases hlive_class e hem hrem with ⟨hne, hbrem, hnos⟩ | ⟨d, hd, hde⟩
              · rw [(ff6 e hnos).2.2.2.1]
                rw [hrp_unt e hem hne hbrem hnos] at hp
                have he2unt : rp ep (kruskalStep ep w s c) e2 = rp ep s e2 := by
                  have hc1 : ¬ (reg s (ep e2).1 = (b.bep e0).1 ∨
                      reg s (ep e2).1 = (b.bep e0).2) := by
                    intro hcc
                    have h1 : reg (kruskalStep ep w s c) (ep e2).1 =
                        s.numNodes := hreg_touch (ep e2).1 (hval e2 he2m).1 hcc
                    have hxx : s.numNodes = (rp ep s e).1 ∨
                        s.numNodes = (rp ep s e).2 :=
                      pairEq_mem (pairEq_symm hp) (Or.inl h1.symm)
                    rcases hxx with h | h
                    · exact Nat.ne_of_lt (reg_lt inv.hk (hval e hem).1) h.symm
                    · exact Nat.ne_of_lt (reg_lt inv.hk (hval e hem).2) h.symm
                  have hc2 : ¬ (reg s (ep e2).2 = (b.bep e0).1 ∨
                      reg s (ep e2).2 = (b.bep e0).2) := by
                    intro hcc
                    have h1 : reg (kruskalStep ep w s c) (ep e2).2 =
                        s.numNodes := hreg_touch (ep e2).2 (hval e2 he2m).2 hcc
                    have hxx : s.numNodes = (rp ep s e).1 ∨
                        s.numNodes = (rp ep s e).2 :=
                      pairEq_mem (pairEq_symm hp) (Or.inr h1.symm)
                    rcases hxx with h | h
                    · exact Nat.ne_of_lt (reg_lt inv.hk (hval e hem).1) h.symm
                    · exact Nat.ne_of_lt (reg_lt inv.hk (hval e hem).2) h.symm
                  show (reg (kruskalStep ep w s c) (ep e2).1,
                    reg (kruskalStep ep w s c) (ep e2).2) =
                    (reg s (ep e2).1, reg s (ep e2).2)
                  rw [hreg_un (ep e2).1 (hval e2 he2m).1 hc1,
                    hreg_un (ep e2).2 (hval e2 he2m).2 hc2]
                rw [he2unt] at hp
                exact inv.hkey_le e e2 hem he2m hbrem hp
              · subst hde
                rw [(ff7 d hd).2.1]
                have hps : pairEq (rp ep (kruskalStep ep w s c) e2)
                    (s.numNodes, d.nbVertex) :=
                  pairEq_trans (pairEq_symm hp) (hrp_slot d hd)
                obtain ⟨j, hj, hp2⟩ := hpair_decomp e2 he2m d.nbVertex
                  (hnb_lt d hd) hps
                obtain ⟨q, hqin, hqm, hqrem, hqp⟩ := hrep d hd j hj e2 he2m hp2
                have h1 := hnvF_le d q hqin
                have h2 := inv.hwv q hqm hqrem
                have h3 := inv.hkey_le q e2 hqm he2m hqrem hqp
                omega
            hkey_wit := by
              intro e hem hrem
              rcases hlive_class e hem hrem with ⟨hne, hbrem, hnos⟩ | ⟨d, hd, hde⟩
              · obtain ⟨c', hc'm, hc'p, hc'k⟩ := inv.hkey_wit e hem hbrem
                refine ⟨c', hc'm, ?_, ?_⟩
                · rw [hrp_unt e hem hne hbrem hnos]
                  have hcun : rp ep (kruskalStep ep w s c) c' = rp ep s c' := by
                    have hcc1 : ¬ (reg s (ep c').1 = (b.bep e0).1 ∨
                        reg s (ep c').1 = (b.bep e0).2) := by
                      intro hcc
                      have hx : reg s (ep c').1 = (rp ep s e).1 ∨
                          reg s (ep c').1 = (rp ep s e).2 :=
                        pairEq_mem (pairEq_symm hc'p) (Or.inl rfl)
                      obtain ⟨u1, u2, u3, u4⟩ := hunt_reg e hem hne hbrem hnos
                      rcases hx with hx | hx
                      · have hx' : reg s (ep c').1 = reg s (ep e).1 := hx
                        rcases hcc with hcc | hcc
                        · exact u1 (hx'.symm.trans hcc)
                        · exact u2 (hx'.symm.trans hcc)
                      · have hx' : reg s (ep c').1 = reg s (ep e).2 := hx
                        rcases hcc with hcc | hcc
                        · exact u3 (hx'.symm.trans hcc)
                        · exact u4 (hx'.symm.trans hcc)
                    have hcc2 : ¬ (reg s (ep c').2 = (b.bep e0).1 ∨
                        reg s (ep c').2 = (b.bep e0).2) := by
                      intro hcc
                      have hx : reg s (ep c').2 = (rp ep s e).1 ∨
                          reg s (ep c').2 = (rp ep s e).2 :=
                        pairEq_mem (pairEq_symm hc'p) (Or.inr rfl)
                      obtain ⟨u1, u2, u3, u4⟩ := hunt_reg e hem hne hbrem hnos
                      rcases hx with hx | hx
                      · have hx' : reg s (ep c').2 = reg s (ep e).1 := hx
                        rcases hcc with hcc | hcc
                        · exact u1 (hx'.symm.trans hcc)
                        · exact u2 (hx'.symm.trans hcc)
                      · have hx' : reg s (ep c').2 = reg s (ep e).2 := hx
                        rcases hcc with hcc | hcc
                        · exact u3 (hx'.symm.trans hcc)
                        · exact u4 (hx'.symm.trans hcc)
                    show (reg (kruskalStep ep w s c) (ep c').1,
                      reg (kruskalStep ep w s c) (ep c').2) =
                      (reg s (ep c').1, reg s (ep c').2)
                    rw [hreg_un (ep c').1 (hval c' hc'm).1 hcc1,
                      hreg_un (ep c').2 (hval c' hc'm).2 hcc2]
                  rw [hcun]
                  exact hc'p
                · rw [(ff6 e hnos).2.2.2.1]
                  exact hc'k
              · subst hde
                obtain ⟨q, hqin, hqv⟩ := hnvF_wit d
                obtain ⟨hqm, hqe0, hqrem, k, hk, hkp⟩ := F1 d hd q hqin
                obtain ⟨c'', hc''m, hc''p, hc''k⟩ := inv.hkey_wit q hqm hqrem
                refine ⟨c'', hc''m, ?_, ?_⟩
                · have hqs : pairEq (rp ep s q) (k, d.nbVertex) :=
                    pairEq_trans (pairEq_symm (inv.hlive_ep q hqm hqrem)) hkp
                  have hcs : pairEq (rp ep s c'') (k, d.nbVertex) :=
                    pairEq_trans (pairEq_symm hc''p) hqs
                  have hup := hpair_up c'' hc''m k d.nbVertex hk
                    (hnbW d hd).1 (hnbW d hd).2 hcs
                  exact pairEq_trans (hrp_slot d hd) (pairEq_symm hup)
                · rw [(ff7 d hd).2.1, hqv, inv.hwv q hqm hqrem]
                  exact hc''k
            hwv := by
              intro e hem hrem
              rcases hlive_class e hem hrem with ⟨hne, hbrem, hnos⟩ | ⟨d, hd, hde⟩
              · rw [(ff6 e hnos).2.2.2.2, (ff6 e hnos).2.2.2.1]
                exact inv.hwv e hem hbrem
              · subst hde
                rw [(ff7 d hd).2.2.1, (ff7 d hd).2.1]
            huniq := by
              intro e e2 hem he2m hrem hrem2 hp
              rcases hlive_class e hem hrem with ⟨hne, hbrem, hnos⟩ | ⟨d, hd, hde⟩
              · rcases hlive_class e2 he2m hrem2 with
                  ⟨hne2, hbrem2, hnos2⟩ | ⟨d2, hd2, hde2⟩
                · rw [hrp_unt e hem hne hbrem hnos,
                    hrp_unt e2 he2m hne2 hbrem2 hnos2] at hp
                  exact inv.huniq e e2 hem he2m hbrem hbrem2 hp
                · exfalso
                  subst hde2
                  have hs2 := hrp_slot d2 hd2
                  have hNN : s.numNodes =
                      (rp ep (kruskalStep ep w s c) d2.edge1).1 ∨
                      s.numNodes =
                      (rp ep (kruskalStep ep w s c) d2.edge1).2 :=
                    pairEq_mem (pairEq_symm hs2) (Or.inl rfl)
                  rw [hrp_unt e hem hne hbrem hnos] at hp
                  have hNN2 : s.numNodes = (rp ep s e).1 ∨
                      s.numNodes = (rp ep s e).2 :=
                    pairEq_mem (pairEq_symm hp) hNN
                  rcases hNN2 with h | h
                  · exact Nat.ne_of_lt (reg_lt inv.hk (hval e hem).1) h.symm
                  · exact Nat.ne_of_lt (reg_lt inv.hk (hval e hem).2) h.symm
              · rcases hlive_class e2 he2m hrem2 with
                  ⟨hne2, hbrem2, hnos2⟩ | ⟨d2, hd2, hde2⟩
                · exfalso
                  subst hde
                  have hs1 := hrp_slot d hd
                  have hNN : s.numNodes =
                      (rp ep (kruskalStep ep w s c) d.edge1).1 ∨
                      s.numNodes =
                      (rp ep (kruskalStep ep w s c) d.edge1).2 :=
                    pairEq_mem (pairEq_symm hs1) (Or.inl rfl)
                  rw [hrp_unt e2 he2m hne2 hbrem2 hnos2] at hp
                  have hNN2 : s.numNodes = (rp ep s e2).1 ∨
                      s.numNodes = (rp ep s e2).2 :=
                    pairEq_mem hp hNN
                  rcases hNN2 with h | h
                  · exact Nat.ne_of_lt (reg_lt inv.hk (hval e2 he2m).1) h.symm
                  · exact Nat.ne_of_lt (reg_lt inv.hk (hval e2 he2m).2) h.symm
                · subst hde
                  subst hde2
                  have h1 := hrp_slot d hd
                  have h2 := hrp_slot d2 hd2
                  have hp' : pairEq ((s.numNodes : Nat), d.nbVertex)
                      (s.numNodes, d2.nbVertex) :=
                    pairEq_trans (pairEq_symm h1) (pairEq_trans hp h2)
                  have hnn : d.nbVertex = d2.nbVertex := by
                    rcases hp' with ⟨_, h⟩ | ⟨hA, hB⟩
                    · exact h
                    · exfalso
                      have := hnb_lt d2 hd2
                      omega
                  rw [pairwise_nb_eq F2 d hd d2 hd2 hnn]
            hcompl := by
              intro e hem hint
              have hint_s : s.uf.r (ep e).1 ≠ s.uf.r (ep e).2 := by
                intro hEq
                exact hint (kstep_same_mono hEq)
              obtain ⟨l0, hl0m, hl0rem, hl0p⟩ := inv.hcompl e hem hint_s
              by_cases hside : reg s (ep l0).1 = (b.bep e0).1 ∨
                  reg s (ep l0).1 = (b.bep e0).2 ∨
                  reg s (ep l0).2 = (b.bep e0).1 ∨
                  reg s (ep l0).2 = (b.bep e0).2
              · by_cases hl0e0 : l0 = e0
                · exfalso
                  subst hl0e0
                  have hpe0 : pairEq (rp ep s e) (b.bep l0) :=
                    pairEq_trans hl0p
                      (pairEq_symm (inv.hlive_ep l0 hl0m hl0rem))
                  have h1 : reg s (ep e).1 = (b.bep l0).1 ∨
                      reg s (ep e).1 = (b.bep l0).2 :=
                    pairEq_mem hpe0 (Or.inl rfl)
                  have h2 : reg s (ep e).2 = (b.bep l0).1 ∨
                      reg s (ep e).2 = (b.bep l0).2 :=
                    pairEq_mem hpe0 (Or.inr rfl)
                  have ht1 := (htouch (ep e).1 (hval e hem).1).mpr h1
                  have ht2 := (htouch (ep e).2 (hval e hem).2).mpr h2
                  apply hint
                  rw [hsquf, ufAdd_r_eq s.uf hintc, ufAdd_r_eq s.uf hintc]
                  rcases ht1 with h | h <;> rcases ht2 with h' | h'
                  · rw [if_neg (by rw [h]; exact hintc),
                      if_neg (by rw [h']; exact hintc), h, h']
                  · rw [if_neg (by rw [h]; exact hintc), if_pos h', h]
                  · rw [if_pos h, if_neg (by rw [h']; exact hintc), h']
                  · rw [if_pos h, if_pos h']
                · have hl0bep := inv.hlive_ep l0 hl0m hl0rem
                  have hlside : (b.bep l0).1 = (b.bep e0).1 ∨
                      (b.bep l0).2 = (b.bep e0).1 ∨
                      (b.bep l0).1 = (b.bep e0).2 ∨
                      (b.bep l0).2 = (b.bep e0).2 := by
                    rcases hside with h | h | h | h
                    · rcases pairEq_mem (pairEq_symm hl0bep)
                        (Or.inl h.symm) with h' | h'
                      · exact Or.inl h'.symm
                      · exact Or.inr (Or.inl h'.symm)
                    · rcases pairEq_mem (pairEq_symm hl0bep)
                        (Or.inl h.symm) with h' | h'
                      · exact Or.inr (Or.inr (Or.inl h'.symm))
                      · exact Or.inr (Or.inr (Or.inr h'.symm))
                    · rcases pairEq_mem (pairEq_symm hl0bep)
                        (Or.inr h.symm) with h' | h'
                      · exact Or.inl h'.symm
                      · exact Or.inr (Or.inl h'.symm)
                    · rcases pairEq_mem (pairEq_symm hl0bep)
                        (Or.inr h.symm) with h' | h'
                      · exact Or.inr (Or.inr (Or.inl h'.symm))
                      · exact Or.inr (Or.inr (Or.inr h'.symm))
                  obtain ⟨d, hd, hde⟩ := F3 l0 hl0m hl0e0 hl0rem hlside
                  obtain ⟨hl0m', _, _, k, hk, hkp⟩ := F1 d hd l0 hde
                  have hql : pairEq (rp ep s l0) (k, d.nbVertex) :=
                    pairEq_trans (pairEq_symm hl0bep) hkp
                  have hqe : pairEq (rp ep s e) (k, d.nbVertex) :=
                    pairEq_trans hl0p hql
                  refine ⟨d.edge1, (F1 d hd d.edge1 (Or.inl rfl)).1,
                    hslot_live d hd, ?_⟩
                  have hup := hpair_up e hem k d.nbVertex hk (hnbW d hd).1
                    (hnbW d hd).2 hqe
                  exact pairEq_trans hup (pairEq_symm (hrp_slot d hd))
              · push_neg at hside
                obtain ⟨n1, n2, n3, n4⟩ := hside
                have hl0e0 : l0 ≠ e0 := by
                  intro hh
                  subst hh
                  have h := inv.hlive_ep l0 hl0m hl0rem
                  rcases pairEq_mem (pairEq_symm h) (Or.inl rfl) with h' | h'
                  · exact n1 h'
                  · exact n2 h'
                have hl0nos : ∀ d ∈ fuseNbs m b e0, ¬ eIn d l0 := by
                  intro d hd hin
                  obtain ⟨_, _, _, k, hk, hkp⟩ := F1 d hd l0 hin
                  have hkc2 : k = (rp ep s l0).1 ∨ k = (rp ep s l0).2 :=
                    pairEq_mem (pairEq_trans (pairEq_symm hkp)
                      (inv.hlive_ep l0 hl0m hl0rem)) (Or.inl rfl)
                  rcases hk with hk | hk <;> rcases hkc2 with h | h
                  · exact n1 ((show k = reg s (ep l0).1 from h).symm.trans hk)
                  · exact n3 ((show k = reg s (ep l0).2 from h).symm.trans hk)
                  · exact n2 ((show k = reg s (ep l0).1 from h).symm.trans hk)
                  · exact n4 ((show k = reg s (ep l0).2 from h).symm.trans hk)
                refine ⟨l0, hl0m, ?_, ?_⟩
                · rw [(ff6 l0 hl0nos).2.1, upd_other _ _ _ hl0e0]
                  exact hl0rem
                · rw [hrp_unt l0 hl0m hl0e0 hl0rem hl0nos]
                  have hrpe : rp ep (kruskalStep ep w s c) e = rp ep s e := by
                    have hc1 : ¬ (reg s (ep e).1 = (b.bep e0).1 ∨
                        reg s (ep e).1 = (b.bep e0).2) := by
                      intro hcc
                      have hx : reg s (ep e).1 = (rp ep s l0).1 ∨
                          reg s (ep e).1 = (rp ep s l0).2 :=
                        pairEq_mem hl0p (Or.inl rfl)
                      rcases hx with hx | hx <;> rcases hcc with hcc | hcc
                      · exact n1 ((show reg s (ep e).1 =
                          reg s (ep l0).1 from hx).symm.trans hcc)
                      · exact n2 ((show reg s (ep e).1 =
                          reg s (ep l0).1 from hx).symm.trans hcc)
                      · exact n3 ((show reg s (ep e).1 =
                          reg s (ep l0).2 from hx).symm.trans hcc)
                      · exact n4 ((show reg s (ep e).1 =
                          reg s (ep l0).2 from hx).symm.trans hcc)
                    have hc2 : ¬ (reg s (ep e).2 = (b.bep e0).1 ∨
                        reg s (ep e).2 = (b.bep e0).2) := by
                      intro hcc
                      have hx : reg s (ep e).2 = (rp ep s l0).1 ∨
                          reg s (ep e).2 = (rp ep s l0).2 :=
                        pairEq_mem hl0p (Or.inr rfl)
                      rcases hx with hx | hx <;> rcases hcc with hcc | hcc
                      · exact n1 ((show reg s (ep e).2 =
                          reg s (ep l0).1 from hx).symm.trans hcc)
                      · exact n2 ((show reg s (ep e).2 =
                          reg s (ep l0).1 from hx).symm.trans hcc)
                      · exact n3 ((show reg s (ep e).2 =
                          reg s (ep l0).2 from hx).symm.trans hcc)
                      · exact n4 ((show reg s (ep e).2 =
                          reg s (ep l0).2 from hx).symm.trans hcc)
                    show (reg (kruskalStep ep w s c) (ep e).1,
                      reg (kruskalStep ep w s c) (ep e).2) =
                      (reg s (ep e).1, reg s (ep e).2)
                    rw [hreg_un (ep e).1 (hval e hem).1 hc1,
                      hreg_un (ep e).2 (hval e hem).2 hc2]
                  rw [hrpe]
                  exact hl0p }
      · apply heapCard_lt he0m hinH0
        · rw [ff5]
          exact upd_self _ _ _
        · intro e hem hne
          rw [ff5]
          exact upd_other _ _ _ hne


/-- While the Kruskal scan is unfinished, a connected graph guarantees a
live inter-region edge, which sits on the heap. -/
theorem binv_live_of_lt {n m : Nat} {ep : Nat → Nat × Nat} {w : Nat → Int}
    {s : KState} {R : List Nat} {b : BState} (hval : GraphValid n m ep)
    (hconn : Connected n m ep) (inv : BInv n m ep w s R b)
    (hfound : s.found < n - 1) : ∃ l, l < m ∧ b.inH l = true := by
  have hcl := inv.hk.hclasses
  have hex : ∃ e, e < m ∧ s.uf.r (ep e).1 ≠ s.uf.r (ep e).2 := by
    by_contra hall
    push_neg at hall
    have hbt : ufBounded (ufBuild (edgeList m ep)) n := by
      apply ufBounded_ufBuild
      intro p hp
      rcases List.mem_map.mp hp with ⟨e, he, rfl⟩
      exact hval e (List.mem_range.mp he)
    have hinner : ∀ p ∈ edgeList m ep, ufSame s.uf p.1 p.2 := by
      intro p hp
      rcases List.mem_map.mp hp with ⟨e, he, rfl⟩
      exact hall e (List.mem_range.mp he)
    have hle : numClasses s.uf n ≤ numClasses (ufBuild (edgeList m ep)) n :=
      numClasses_le_of_refines hbt
        (fun x y hxy => ufBuild_refines hinner hxy)
    have h1 : numClasses (ufBuild (edgeList m ep)) n = 1 := hconn
    omega
  obtain ⟨e, hem, hinter⟩ := hex
  obtain ⟨l, hlm, hlrem, _⟩ := inv.hcompl e hem hinter
  exact ⟨l, hlm, inv.hlive_inH l hlm hlrem⟩

/-- While the Kruskal scan is unfinished, the fusion loop can always take
a step. -/
theorem bstep_progress {n m : Nat} {ep : Nat → Nat × Nat} {w : Nat → Int}
    {s : KState} {R : List Nat} {b : BState} (hval : GraphValid n m ep)
    (hconn : Connected n m ep) (inv : BInv n m ep w s R b)
    (hfound : s.found < n - 1) : ∃ bq, bptStep m b = some bq := by
  cases hpop : popMin m b with
  | none =>
    exfalso
    obtain ⟨l, hlm, hinH⟩ := binv_live_of_lt hval hconn inv hfound
    rw [popMin_none hpop l hlm] at hinH
    cases hinH
  | some e0 =>
    by_cases h : b.act e0 = false
    · refine ⟨{ b with inH := upd b.inH e0 false }, ?_⟩
      unfold bptStep
      rw [hpop]
      exact if_pos h
    · refine ⟨bptFuse m b e0, ?_⟩
      unfold bptStep
      rw [hpop]
      exact if_neg h

/-- Running the fusion loop to the end preserves the bisimulation and
finishes exactly when the Kruskal scan reaches `n − 1` accepted edges. -/
theorem brun_sim {n m : Nat} {ep : Nat → Nat × Nat} {w : Nat → Int}
    (hn : 1 ≤ n) (hval : GraphValid n m ep) (hconn : Connected n m ep)
    (hloop : ∀ e, e < m → (ep e).1 ≠ (ep e).2)
    (hpar2 : ∀ e e2, e < m → e2 < m → pairEq (ep e) (ep e2) → e = e2)
    (hinjw : ∀ e e2, e < m → e2 < m → w e = w e2 → e = e2) :
    ∀ (fuel : Nat) (s : KState) (R : List Nat) (b : BState),
      BInv n m ep w s R b → heapCard m b ≤ fuel →
      ∃ s' R', BInv n m ep w s' R' (bptRun m (2 * n - 1) fuel b) ∧
        s'.found = n - 1 := by
  intro fuel
  induction fuel with
  | zero =>
    intro s R b inv hcard
    refine ⟨s, R, inv, ?_⟩
    by_contra hne
    have hfle : s.found ≤ n - 1 := by
      have h1 := inv.hk.hclasses
      have h2 := numClasses_pos inv.hk.hbound (by omega : 0 < n)
      omega
    have hfound : s.found < n - 1 := lt_of_le_of_ne hfle hne
    obtain ⟨l, hlm, hinH⟩ := binv_live_of_lt hval hconn inv hfound
    have hmem : l ∈ (List.range m).filter (fun e => b.inH e) :=
      List.mem_filter.mpr ⟨List.mem_range.mpr hlm, hinH⟩
    have hpos : 0 < heapCard m b :=
      List.length_pos.mpr (fun hnil => by rw [hnil] at hmem; cases hmem)
    omega
  | succ f ih =>
    intro s R b inv hcard
    by_cases hcnt : b.cnt < 2 * n - 1
    · have hfound : s.found < n - 1 := by
        have h1 : b.cnt = s.numNodes := inv.hcnt
        have h2 : s.numNodes = n + s.found := inv.hk.hnum
        omega
      obtain ⟨bq, hstep⟩ := bstep_progress hval hconn inv hfound
      obtain ⟨sq, Rq, invq, hdec⟩ := bstep_sim hn hval hloop hpar2 hinjw
        inv hfound hstep
      have hrun : bptRun m (2 * n - 1) (f + 1) b =
          bptRun m (2 * n - 1) f bq := by
        show (if b.cnt < 2 * n - 1 then
          match bptStep m b with
          | none => b
          | some st' => bptRun m (2 * n - 1) f st'
          else b) = _
        rw [if_pos hcnt, hstep]
      rw [hrun]
      exact ih sq Rq bq invq (by omega)
    · have hrun : bptRun m (2 * n - 1) (f + 1) b = b := by
        show (if b.cnt < 2 * n - 1 then
          match bptStep m b with
          | none => b
          | some st' => bptRun m (2 * n - 1) f st'
          else b) = b
        rw [if_neg hcnt]
      rw [hrun]
      refine ⟨s, R, inv, ?_⟩
      have h1 : b.cnt = s.numNodes := inv.hcnt
      have h2 : s.numNodes = n + s.found := inv.hk.hnum
      have hfle : s.found ≤ n - 1 := by
        have h3 := inv.hk.hclasses
        have h4 := numClasses_pos inv.hk.hbound (by omega : 0 < n)
        omega
      omega

/-- The bisimulation holds at the start of the two algorithms. -/
theorem binv_init {n m : Nat} {ep : Nat → Nat × Nat} (w : Nat → Int)
    (hval : GraphValid n m ep)
    (hloop : ∀ e, e < m → (ep e).1 ≠ (ep e).2)
    (hpar2 : ∀ e e2, e < m → e2 < m → pairEq (ep e) (ep e2) → e = e2) :
    BInv n m ep w (kInit n) (sortedEdgeIndices m w) (bptMinInit n m ep w) := by
  refine
    { hk := kInv_init n ep w
      hsplit := ⟨[], rfl⟩
      hscan := rfl
      hRall := fun e hem _ =>
        (sortedEdgeIndices_perm m w).mem_iff.mpr (List.mem_range.mpr hem)
      hpar := fun j => rfl
      hlev := fun j => rfl
      hnum := rfl
      hcnt := rfl
      hlive_inter := ?_
      hlive_ep := ?_
      hlive_act := ?_
      hlive_inH := ?_
      hact_live := fun e hem _ => rfl
      hkey_le := ?_
      hkey_wit := ?_
      hwv := fun e hem _ => rfl
      huniq := ?_
      hcompl := ?_ }
  · intro e hem _
    show (ep e).1 ≠ (ep e).2
    exact hloop e hem
  · intro e hem _
    exact pairEq_refl (ep e)
  · intro e hem _
    show decide (e < m) = true
    exact decide_eq_true hem
  · intro e hem _
    show decide (e < m) = true
    exact decide_eq_true hem
  · intro e e2 hem he2m _ hp
    have hp' : pairEq (ep e) (ep e2) := hp
    show w e ≤ w e2
    exact le_of_eq (congrArg w (hpar2 e e2 hem he2m hp'))
  · intro e hem _
    exact ⟨e, hem, pairEq_refl _, rfl⟩
  · intro e e2 hem he2m _ _ hp
    have hp' : pairEq (ep e) (ep e2) := hp
    exact hpar2 e e2 hem he2m hp'
  · intro e hem _
    exact ⟨e, hem, rfl, pairEq_refl _⟩

/-- C8 (amended): on a connected simple loopless graph with
pairwise-distinct edge weights, `binary_partition_tree` with the
min-linkage rule seeded with the edge weights returns exactly the
structure of `bpt_canonical`: the parent vectors and the altitude
vectors agree pointwise, and the two trees are isomorphic ignoring
internal-node numbering (via the identity map). -/
theorem C8_min_linkage (n m : Nat) (ep : Nat → Nat × Nat) (w : Nat → Int)
    (hn : 1 ≤ n) (hval : GraphValid n m ep) (hconn : Connected n m ep)
    (hloop : ∀ e, e < m → (ep e).1 ≠ (ep e).2)
    (hpar2 : ∀ e, e < m → ∀ e2, e2 < m → pairEq (ep e) (ep e2) → e = e2)
    (hinjw : ∀ e, e < m → ∀ e2, e2 < m → w e = w e2 → e = e2)
    (res : BptResult) (hres : bptCanonical n m ep w = some res) :
    (∀ j, (bptMinLinkage n m ep w).1.par j = res.par j) ∧
    (∀ j, (bptMinLinkage n m ep w).2 j = res.alt j) ∧
    TreeIso n (bptMinLinkage n m ep w).1 ⟨res.numNodesT, res.par⟩ := by
  have hpar2' : ∀ e e2, e < m → e2 < m → pairEq (ep e) (ep e2) → e = e2 :=
    fun e e2 h1 h2 => hpar2 e h1 e2 h2
  have hinjw' : ∀ e e2, e < m → e2 < m → w e = w e2 → e = e2 :=
    fun e e2 h1 h2 => hinjw e h1 e2 h2
  have hinit : BInv n m ep w (kInit n) (sortedEdgeIndices m w)
      (bptMinInit n m ep w) := binv_init w hval hloop hpar2'
  have hcard : heapCard m (bptMinInit n m ep w) ≤ m := by
    have h := List.length_filter_le
      (fun e => (bptMinInit n m ep w).inH e) (List.range m)
    rw [List.length_range] at h
    exact h
  obtain ⟨s', R', invfin, hfoundfin⟩ := brun_sim hn hval hconn hloop hpar2'
    hinjw' m (kInit n) (sortedEdgeIndices m w) (bptMinInit n m ep w)
    hinit hcard
  have hstop : kruskalScan ep w (numEdgeMst n) s' R' = s' :=
    kruskalScan_stop ep w (numEdgeMst n) s' R'
      (le_of_eq (by rw [numEdgeMst_of_pos hn, hfoundfin]))
  have hs' : s' = bptScanState n m ep w := hstop.symm.trans invfin.hscan
  have hfoundS : (bptScanState n m ep w).found = numEdgeMst n := by
    rw [← hs', hfoundfin, numEdgeMst_of_pos hn]
  have hres' : (⟨2 * n - 1, (bptScanState n m ep w).parents,
      (bptScanState n m ep w).levels, (bptScanState n m ep w).mst,
      (bptScanState n m ep w).mstEdgeMap⟩ : BptResult) = res := by
    have h := hres
    rw [bptCanonical_eq, if_pos hfoundS] at h
    exact Option.some.inj h
  have hparfin : ∀ j, (bptRun m (2 * n - 1) m (bptMinInit n m ep w)).par j =
      res.par j := by
    intro j
    rw [← hres']
    show _ = (bptScanState n m ep w).parents j
    rw [← hs']
    exact invfin.hpar j
  have hlevfin : ∀ j, (bptRun m (2 * n - 1) m (bptMinInit n m ep w)).lev j =
      res.alt j := by
    intro j
    rw [← hres']
    show _ = (bptScanState n m ep w).levels j
    rw [← hs']
    exact invfin.hlev j
  have hsz : res.numNodesT = 2 * n - 1 := by
    rw [← hres']
  refine ⟨hparfin, hlevfin, ?_, fun v => v, ?_, fun v v' _ _ h => h,
    fun v _ => rfl, ?_⟩
  · show 2 * n - 1 = res.numNodesT
    exact hsz.symm
  · intro v hv
    show v < res.numNodesT
    rw [hsz]
    exact hv
  · intro v hv
    show res.par v = (bptRun m (2 * n - 1) m (bptMinInit n m ep w)).par v
    exact (hparfin v).symm

/-- Concrete instantiation of the amended C8 on the weighted triangle:
the hypotheses are checked by evaluation and the conclusion is obtained
by applying the theorem. -/
theorem C8_min_linkage_witness :
    (1 ≤ 3 ∧ GraphValid 3 3 epEx3 ∧ Connected 3 3 epEx3 ∧
      (∀ e, e < 3 → (epEx3 e).1 ≠ (epEx3 e).2) ∧
      (∀ e, e < 3 → ∀ e2, e2 < 3 → pairEq (epEx3 e) (epEx3 e2) → e = e2) ∧
      (∀ e, e < 3 → ∀ e2, e2 < 3 → wEx3 e = wEx3 e2 → e = e2)) ∧
    (∀ j, (bptMinLinkage 3 3 epEx3 wEx3).1.par j =
      ((bptCanonical 3 3 epEx3 wEx3).getD bptDefault).par j) := by
  refine ⟨⟨by omega, by decide, by decide, by decide, by decide, by decide⟩, ?_⟩
  have hsome : (bptCanonical 3 3 epEx3 wEx3).isSome = true := by decide
  have hres : bptCanonical 3 3 epEx3 wEx3 =
      some ((bptCanonical 3 3 epEx3 wEx3).getD bptDefault) := by
    cases h : bptCanonical 3 3 epEx3 wEx3 with
    | none => rw [h] at hsome; cases hsome
    | some r => rfl
  exact (C8_min_linkage 3 3 epEx3 wEx3 (by omega) (by decide) (by decide)
    (by decide) (by decide) (by decide) _ hres).1


end Higra
